import Mathlib

/-!
Verification development for the WODCraft toolchain (`wodc_merged.py`).

The Python source is shallowly embedded: dictionaries become structures and
inductive types, floats become rationals (the numeric literals appearing in
the program and in the claims are all exactly representable), Python strings
become Lean strings (`List Char` where character-level reasoning is needed),
and code that can raise an exception returns an `Option`.

Source-fidelity notes recorded once here:
  * Several regular expressions in the source are written inside *raw* Python
    strings with doubled backslashes, e.g. `r'^(\\d+(?:\\.\\d+)?)(m|km)\\b'`.
    In a raw string `\\d` denotes a literal backslash followed by the letter
    `d`, so these patterns only match strings that start with a backslash and
    never match the digit-led tokens the grammar produces.  They are embedded
    as written (see `brokenNumMatches` below), not as their obvious intent.
  * `re.match` anchors at the start of the string only; `$` anchors the end
    when present in the pattern.
  * Python's `splitlines`/`rstrip`/`strip` are modelled over `\n` and ASCII
    whitespace; universal-newline handling of `\r` etc. is not modelled.
-/

set_option maxHeartbeats 1000000
set_option maxRecDepth 4096

/-- Python whitespace test for the characters that can occur here. -/
def isPyWs (c : Char) : Bool :=
  c = ' ' || c = '\t' || c = '\n' || c = '\x0d'

/-- Python `str.rstrip()` on a list of characters. -/
def pyRstrip (l : List Char) : List Char :=
  ((l.reverse.dropWhile isPyWs)).reverse

/-- Python `str.lstrip()` on a list of characters. -/
def pyLstrip (l : List Char) : List Char :=
  l.dropWhile isPyWs

/-- Python `str.strip()` on a list of characters. -/
def pyStrip (l : List Char) : List Char :=
  pyRstrip (pyLstrip l)

/-- Python `str.splitlines()` restricted to `\n` separators: pieces between
newlines, with no trailing empty piece when the text ends in a newline. -/
def splitlines : List Char → List (List Char)
  | [] => []
  | c :: rest =>
    if c = '\n' then [] :: splitlines rest
    else
      match splitlines rest with
      | [] => [[c]]
      | l :: ls => (c :: l) :: ls

/-- Python `"\n".join(...)` on lists of characters. -/
def joinNl : List (List Char) → List Char
  | [] => []
  | [l] => l
  | l :: rest => l ++ '\n' :: joinNl rest

/-- Python `str.rstrip("\n")`: drop trailing newline characters only. -/
def rstripNl (l : List Char) : List Char :=
  (l.reverse.dropWhile (· = '\n')).reverse

/-- Decimal digit character for a value below ten. -/
def digitChar (n : ℕ) : Char :=
  Char.ofNat (48 + n)

/-- Fuel-driven digit expansion (structural recursion so that concrete
values reduce in the kernel; `natChars` supplies ample fuel). -/
def natCharsAux : ℕ → ℕ → List Char
  | 0, _ => []
  | f + 1, n =>
    if n < 10 then [digitChar n]
    else natCharsAux f (n / 10) ++ [digitChar (n % 10)]

/-- Decimal rendering of a natural number, as Python `str`/format does. -/
def natChars (n : ℕ) : List Char :=
  natCharsAux (n + 1) n

/-- Decimal rendering of an integer, as Python `str`/format does. -/
def intChars (i : ℤ) : List Char :=
  if i < 0 then '-' :: natChars i.natAbs else natChars i.natAbs

/-- Python `f"{n:02d}"`: zero-pad to two digits. -/
def pad2 (n : ℕ) : List Char :=
  if n < 10 then '0' :: [digitChar n] else natChars n

/-- Value of a decimal digit character, if it is one. -/
def digitVal? (c : Char) : Option ℕ :=
  if '0' ≤ c ∧ c ≤ '9' then some (c.toNat - 48) else none

/-- Whether a character is a decimal digit. -/
def isDigitChar (c : Char) : Bool :=
  decide ('0' ≤ c) && decide (c ≤ '9')

/-- Accumulator loop of `parseNat`. -/
def parseNatAux (acc : ℕ) : List Char → Option ℕ
  | [] => some acc
  | c :: rest =>
    match digitVal? c with
    | some d => parseNatAux (acc * 10 + d) rest
    | none => none

/-- Python `int(...)` on a nonempty all-digit string (the only shapes the
grammar's `INT` token and the split pieces used by the source can have). -/
def parseNat (l : List Char) : Option ℕ :=
  if l.isEmpty then none else parseNatAux 0 l

/-- Python `float(...)` on a `digits[.digits]` string, exactly as a rational;
returns `none` when the string is not of that shape (Python would raise). -/
def parseFloat? (l : List Char) : Option ℚ :=
  match l.span (· ≠ '.') with
  | (intPart, []) => (parseNat intPart).map (fun n => (n : ℚ))
  | (intPart, _ :: fracPart) =>
    match parseNat intPart, parseNat fracPart with
    | some n, some f => some ((n : ℚ) + (f : ℚ) / ((10 : ℚ) ^ fracPart.length))
    | _, _ => none

/-- Total version of `parseFloat?` used where the surrounding code guarantees
a numeric shape. -/
def parseFloat (l : List Char) : ℚ :=
  (parseFloat? l).getD 0

/-- Python `int(...)` applied to a float: truncation toward zero. -/
def ratTruncZ (q : ℚ) : ℤ :=
  if 0 ≤ q then (q.num.toNat / q.den : ℕ) else -(((-q.num).toNat / q.den : ℕ) : ℤ)

/-- Python `str.split(sep)` for a single-character separator. -/
def splitOnChar (sep : Char) : List Char → List (List Char)
  | [] => [[]]
  | c :: rest =>
    if c = sep then [] :: splitOnChar sep rest
    else
      match splitOnChar sep rest with
      | [] => [[c]]
      | l :: ls => (c :: l) :: ls

/-- Fuel-driven body of `removeAll` (structural recursion so that concrete
values reduce in the kernel; the fuel never runs out for `fuel ≥ length`). -/
def removeAllAux (pat : List Char) : ℕ → List Char → List Char
  | 0, l => l
  | _ + 1, [] => []
  | f + 1, c :: rest =>
    if pat ≠ [] ∧ pat.isPrefixOf (c :: rest) then
      removeAllAux pat f ((c :: rest).drop pat.length)
    else c :: removeAllAux pat f rest

/-- Python `str.replace(pat, "")`: delete every occurrence of `pat`,
scanning left to right (`pat` is `"cal"` here, in particular nonempty). -/
def removeAll (pat : List Char) (l : List Char) : List Char :=
  removeAllAux pat l.length l

/-- ASCII lowercasing, Python `str.lower()` for the identifiers used here. -/
def pyLower (s : String) : String :=
  ⟨s.data.map Char.toLower⟩

/-- Python float `repr` for the rationals produced here (finite decimal
expansions; integers print with a trailing `.0` as Python floats do).
Non-decimal rationals never arise from the embedded parsing functions; for
them the fractional expansion is cut off after `prec` digits. -/
def fracChars : ℚ → ℕ → List Char
  | _, 0 => []
  | q, prec + 1 =>
    if q = 0 then []
    else
      let q10 := q * 10
      let d := ratTruncZ q10
      digitChar d.toNat :: fracChars (q10 - (d : ℚ)) prec

/-- Python `f"{x}"` for a nonnegative float value `x`. -/
def pyFloatRepr (q : ℚ) : List Char :=
  let ip := ratTruncZ q
  let frac := q - (ip : ℚ)
  if frac = 0 then intChars ip ++ ['.', '0']
  else intChars ip ++ '.' :: fracChars frac 30

/-! ## Data model (the AST dictionaries of `wodc_merged.py`) -/

/-- Quantity of a movement line (`qty` dicts built by the `ToAST` transformer).
`reps`/`time` carry Python ints, the rest Python floats (modelled as `ℚ`). -/
inductive Qty
  | reps (value : ℤ)
  | cal (value : ℚ)
  | distance (value : ℚ) (unit : String)
  | time (value : ℕ)
  | dual_reps (a b : ℕ)
  | dual_cal (a b : ℚ)
  | dual_distance (a b : ℚ) (unit : String)
  deriving DecidableEq

/-- Structured (non-dual, non-raw) load dicts, as produced by `mk` inside
`ToAST.load` and by `resolve_load`/`apply_catalog_line`. -/
inductive SLoad
  | weight (value : ℚ) (unit : String)
  | height (value : ℚ) (unit : String)
  | distance (value : ℚ) (unit : String)
  | percent_raw (value : ℚ)
  deriving DecidableEq

/-- Load dicts.  The parser's `dual` loads always have structured branches
(`mk` is only applied to the seven known units), so the branches are `SLoad`. -/
inductive Load
  | sload (s : SLoad)
  | raw (value : String)
  | dual (a b : SLoad)
  deriving DecidableEq

/-- A movement line: `{"type":"LINE","qty":…,"movement":…,"load":…,"flags":…}`. -/
structure Line where
  qty : Option Qty
  movement : Option String
  load : Option Load
  flags : List String
  deriving DecidableEq

/-- Default/placeholder line used with `List.getD`. -/
def dummyLine : Line := ⟨none, none, none, []⟩

/-- A statement inside a block or BUYIN/CASHOUT: a plain line or an
`EMOM_LINE` (`slot: line`). -/
inductive Stmt
  | line (l : Line)
  | emomLine (slot : ℕ) (l : Line)
  deriving DecidableEq

/-- Block heads with their parameters (durations in seconds). -/
inductive BlockHead
  | amrap (duration : ℕ)
  | emom (duration : ℕ)
  | ft
  | rft (rounds : ℕ)
  | chipper
  | tabata (work rst sets : ℕ)
  | interval (sets work rst : ℕ)
  deriving DecidableEq

/-- WORK annotations. -/
inductive WorkMode
  | split_any | split_even | ygig | relay
  | waterfall (offset : ℕ)
  | synchro_all
  | synchro_lines (lines : List ℕ)
  deriving DecidableEq

/-- PARTITION annotations. -/
inductive PartMode
  | any | even
  | scheme (s : String)
  deriving DecidableEq

/-- TIEBREAK annotations. -/
inductive Tiebreak
  | after_thrusters (count : ℕ)
  | after_reps (count : ℕ)
  | after_cal (count : ℕ)
  | after_movement (movement : String)
  deriving DecidableEq

/-- Optional block annotations (`work`/`partition`/`cap`/`tiebreak`). -/
structure BlockOpts where
  work : Option WorkMode
  part : Option PartMode
  cap : Option ℕ
  tiebreak : Option Tiebreak
  deriving DecidableEq

/-- Block options with none of the annotations present. -/
def noOpts : BlockOpts := ⟨none, none, none, none⟩

/-- Program segments. -/
inductive Segment
  | buyin (stmts : List Stmt)
  | cashout (stmts : List Stmt)
  | rest (duration : ℕ)
  | block (head : BlockHead) (stmts : List Stmt) (opts : BlockOpts)
  | trackBlock
  deriving DecidableEq

/-- Alias rewrite note `{code:"W050", from, to}` (`from`/`to` are reserved
words in Lean, hence `fromMv`/`toMv`). -/
structure Note where
  code : String
  fromMv : String
  toMv : String
  deriving DecidableEq

/-- Program metadata. -/
structure WodMeta where
  title : Option String
  team : Option ℕ
  cap : Option ℕ
  score : List (String × String)
  tracksDeclared : List String
  normalized : Option (List Note)
  deriving DecidableEq

/-- Metadata with every field absent/empty. -/
def emptyMeta : WodMeta := ⟨none, none, none, [], [], none⟩

/-- A parsed program: metadata plus segment list. -/
structure AST where
  meta : WodMeta
  program : List Segment
  deriving DecidableEq

/-! ## The broken doubled-backslash regexes, embedded as written

In a raw Python string `r'...'`, `\\d` is a literal backslash followed by
the letter `d`.  So `\\d+` matches a backslash and then one or more `d`
characters, `(?:\\.\\d+)?` optionally matches backslash, any character,
backslash, `d`s, and `\\b` matches a literal backslash followed by `b`.
Every input these matchers receive from the grammar's tokens starts with a
digit, so they fail at the very first character; when one of them *does*
match (only possible on a backslash-led string), the captured group contains
a backslash and the subsequent Python `float(...)`/`int(...)` raises, which
the embedding reports as `none`. -/

/-- Consume `\\d+` (literal backslash, then one or more `d`s). -/
def brokenNumRest : List Char → Option (List Char)
  | '\\' :: 'd' :: rest => some (rest.dropWhile (· = 'd'))
  | _ => none

/-- Consume the optional `(?:\\.\\d+)?` (backslash, any char, backslash,
`d`s), greedily and without backtracking. -/
def brokenOptFrac : List Char → List Char
  | '\\' :: _ :: '\\' :: 'd' :: rest => rest.dropWhile (· = 'd')
  | l => l

/-- Consume the broken number group `\\d+(?:\\.\\d+)?`. -/
def brokenNumGroup (l : List Char) : Option (List Char) :=
  (brokenNumRest l).map brokenOptFrac

/-- `re.match(r'^(\\d+(?:\\.\\d+)?)(m|km)\\b', …)` succeeds (line 215). -/
def brokenDistMatches (l : List Char) : Bool :=
  match brokenNumGroup l with
  | none => false
  | some r =>
    match r with
    | 'm' :: '\\' :: 'b' :: _ => true
    | 'k' :: 'm' :: '\\' :: 'b' :: _ => true
    | _ => false

/-- `re.match(r'^(\\d+(?:\\.\\d+)?)(u₁|…|uₙ)$', …)` succeeds. -/
def brokenNumUnitEndMatches (units : List (List Char)) (l : List Char) : Bool :=
  match brokenNumGroup l with
  | none => false
  | some r => units.any (fun u => r = u)

/-- `re.match(r'^(\\d+(?:\\.\\d+)?)/(\\d+(?:\\.\\d+)?)(u₁|…|uₙ)$', …)`
succeeds. -/
def brokenDualUnitEndMatches (units : List (List Char)) (l : List Char) : Bool :=
  match brokenNumGroup l with
  | none => false
  | some r =>
    match r with
    | '/' :: r2 =>
      match brokenNumGroup r2 with
      | none => false
      | some r3 => units.any (fun u => r3 = u)
    | _ => false

/-- `re.match(r'^(\\d+)s$', …)` succeeds (line 225). -/
def brokenHoldMatches : List Char → Bool
  | '\\' :: 'd' :: rest => (rest.dropWhile (· = 'd')) = ['s']
  | _ => false

/-- The seven load units of `LOADVAL`. -/
def loadUnitsStr : List (List Char) :=
  [['k', 'g'], ['l', 'b'], ['c', 'm'], ['i', 'n'], ['m'], ['k', 'm'], ['%']]

/-- The five units accepted by the catalog load-string regex (line 325). -/
def catalogUnitsStr : List (List Char) :=
  [['k', 'g'], ['l', 'b'], ['c', 'm'], ['i', 'n'], ['m']]

/-- Distance units `m`/`km`. -/
def distUnitsStr : List (List Char) := [['m'], ['k', 'm']]

/-! ## The `ToAST` transformer's token handlers -/

namespace ToAST

/-- `dual_reps` (REPDUAL token `\d+/\d+`): split on `/`, `int` both parts.
`none` models the `ValueError` Python raises on a malformed token. -/
def dual_reps (raw : List Char) : Option Qty :=
  match splitOnChar '/' raw with
  | [a, b] =>
    match parseNat a, parseNat b with
    | some x, some y => some (.dual_reps x y)
    | _, _ => none
  | _ => none

/-- `dual_cal` (CALDUAL token `\d+(\.\d+)?/\d+(\.\d+)?\s*cal`): delete the
substring `cal`, strip, split on `/`, `float` both parts. -/
def dual_cal (raw : List Char) : Option Qty :=
  match splitOnChar '/' (pyStrip (removeAll ['c', 'a', 'l'] raw)) with
  | [a, b] =>
    match parseFloat? a, parseFloat? b with
    | some x, some y => some (.dual_cal x y)
    | _, _ => none
  | _ => none

/-- `dual_distance` (line 204): the doubled-backslash regex never matches a
DISTDUAL token, so the `{a:0, b:0, unit:'m'}` fallback is always taken; a
match (backslash-led input only) would crash in `float`. -/
def dual_distance (raw : List Char) : Option Qty :=
  if brokenDualUnitEndMatches distUnitsStr raw then none
  else some (.dual_distance 0 0 "m")

/-- `reps` (INT token). -/
def reps (raw : List Char) : Option Qty :=
  (parseNat raw).map (fun n => .reps (n : ℤ))

/-- `cal_qty` (NUMBER token followed by `cal`). -/
def cal_qty (raw : List Char) : Option Qty :=
  (parseFloat? raw).map .cal

/-- `distance_qty` (line 215): the doubled-backslash regex never matches a
DIST token, so the value-0 fallback is always taken. -/
def distance_qty (raw : List Char) : Option Qty :=
  if brokenDistMatches raw then none
  else some (.distance 0 "m")

/-- `hold_time` (TIMEQ token): the `mm:ss` branch works; the `\d+s` branch
uses a doubled-backslash regex (line 225) and always falls back to 0. -/
def hold_time (raw : List Char) : Option Qty :=
  if raw.contains ':' then
    match splitOnChar ':' raw with
    | [mm, ss] =>
      match parseNat mm, parseNat ss with
      | some m, some s => some (.time (m * 60 + s))
      | _, _ => none
    | _ => none
  else if brokenHoldMatches raw then none
  else some (.time 0)

/-- `load` (lines 230-252): both doubled-backslash regexes (lines 232, 243)
fail on every LOADVAL/LOADDUAL token, so the `raw` fallback is always taken;
a match would crash in `mk`'s `float`. -/
def load (raw : List Char) : Option Load :=
  if brokenDualUnitEndMatches loadUnitsStr raw then none
  else if brokenNumUnitEndMatches loadUnitsStr raw then none
  else some (.raw ⟨raw⟩)

/-- `movement`: join the IDENT parts with `_`. -/
def movement (parts : List String) : String :=
  String.intercalate "_" parts

end ToAST

/-! ## Movement aliases and the resolver -/

/-- The fixed alias table `MOVEMENT_ALIASES` (insertion order preserved). -/
def MOVEMENT_ALIASES : List (String × String) :=
  [("wb", "wall_balls"), ("wallball", "wall_balls"),
   ("bj", "box_jumps"), ("box_jump", "box_jumps"),
   ("pu", "pullups"), ("pull_up", "pullups"),
   ("rr", "ring_rows"), ("ring_row", "ring_rows"),
   ("t2b", "toes_to_bar"), ("ttb", "toes_to_bar"),
   ("du", "double_unders"), ("dus", "double_unders"), ("double_under", "double_unders"),
   ("row", "row"), ("run", "run"), ("bike", "bike"), ("echo_bike", "bike"),
   ("assault_bike", "assault_bike"),
   ("bbjo", "burpee_box_jump_over"), ("bjo", "burpee_box_jump_over"),
   ("burpee_box_jumps", "burpee_box_jump_over"),
   ("rc", "rope_climbs"), ("rope_climb", "rope_climbs"),
   ("pc", "power_clean"), ("power_clean", "power_clean"),
   ("clean", "clean"), ("cleans", "clean"),
   ("sb_carry", "sandbag_carry"), ("sandbag_carry", "sandbag_carry"),
   ("burpee", "burpees"), ("burpees", "burpees"), ("hollow_hold", "hollow_hold")]

/-- `_normalize_mv`: alias lookup on the lowercased name, identity otherwise. -/
def normalize_mv (name : String) : String :=
  (MOVEMENT_ALIASES.lookup (pyLower name)).getD name

/-- `numToken`: consume `\d+(\.\d+)?` from the front (used by the one
correctly written regex, line 298, and by the token classifiers). -/
def numToken (l : List Char) : Option (List Char × List Char) :=
  let ds := l.takeWhile isDigitChar
  let rest := l.dropWhile isDigitChar
  if ds.isEmpty then none
  else
    match rest with
    | '.' :: r2 =>
      let fs := r2.takeWhile isDigitChar
      let r3 := r2.dropWhile isDigitChar
      if fs.isEmpty then some (ds, rest)
      else some (ds ++ '.' :: fs, r3)
    | _ => some (ds, rest)

/-- The correctly written dual-load regex of `resolve_load` (line 298):
`^(\d+(?:\.\d+)?)/(\d+(?:\.\d+)?)(kg|lb|cm|in|m|km|%)$`, returning the two
numeric groups (already converted) and the unit. -/
def dualLoadMatch (raw : List Char) : Option (ℚ × ℚ × String) :=
  match numToken raw with
  | none => none
  | some (a, r1) =>
    match r1 with
    | '/' :: r2 =>
      match numToken r2 with
      | none => none
      | some (b, r3) =>
        if loadUnitsStr.any (fun u => r3 = u) then
          match parseFloat? a, parseFloat? b with
          | some x, some y => some (x, y, ⟨r3⟩)
          | _, _ => none
        else none
    | _ => none

/-- The unit-to-load conversion shared by `resolve_load`'s raw branch
(lines 302-307). -/
def mkLoadFromUnit (v : ℚ) (unit : String) : SLoad :=
  if unit = "kg" ∨ unit = "lb" then .weight v unit
  else if unit = "cm" ∨ unit = "in" then .height v unit
  else if unit = "m" ∨ unit = "km" then
    .distance (v * (if unit = "km" then 1000 else 1)) "m"
  else .percent_raw v

/-- `resolve_qty` (lines 286-292): pick the gender branch of dual kinds. -/
def resolve_qty (gender : String) : Option Qty → Option Qty
  | none => none
  | some q =>
    some (match q with
      | .dual_reps a b => .reps ((if gender = "male" then a else b : ℕ) : ℤ)
      | .dual_cal a b => .cal (if gender = "male" then a else b)
      | .dual_distance a b _ => .distance (if gender = "male" then a else b) "m"
      | q => q)

/-- `resolve_load` (lines 293-308): pick the gender branch of a `dual` load;
re-parse a `raw` load with the dual pattern and pick a branch on a match. -/
def resolve_load (gender : String) : Option Load → Option Load
  | none => none
  | some (.dual a b) => some (.sload (if gender = "male" then a else b))
  | some (.raw s) =>
    match dualLoadMatch s.data with
    | some (a, b, unit) =>
      some (.sload (mkLoadFromUnit (if gender = "male" then a else b) unit))
    | none => some (.raw s)
  | some ld => some ld

/-- A catalog load entry: a load-token string or a structured object used
as-is. -/
inductive CatLoadVal
  | str (s : String)
  | obj (l : Load)

/-- One catalog movement: nested `track → gender → value` lookups, modelled
as functions (a missing key is `none`). -/
structure CatMove where
  reps : String → String → Option ℚ
  distance : String → String → Option ℚ
  cal : String → String → Option ℚ
  load : String → String → Option CatLoadVal

/-- The movement catalog. -/
structure Catalog where
  movements : String → Option CatMove

/-- The qty-missing test of `apply_catalog_line` (line 313): no qty, or a
distance qty with value 0. -/
def qtyMissing : Option Qty → Bool
  | none => true
  | some (.distance v _) => v = 0
  | some _ => false

/-- The qty-defaulting chain of `apply_catalog_line` (lines 313-321): when
the qty is missing (or a zero distance), take the first hit among the
catalog's reps (as `int`), distance (meters) and cal values. -/
def catalogQtyFill (mreps mdist mcal : Option ℚ) (q : Option Qty) : Option Qty :=
  if qtyMissing q then
    match mreps with
    | some v => some (Qty.reps (ratTruncZ v))
    | none =>
      match mdist with
      | some v => some (Qty.distance v "m")
      | none =>
        match mcal with
        | some v => some (Qty.cal v)
        | none => q
  else q

/-- The load-defaulting step of `apply_catalog_line` (lines 322-331): only
when the load is missing; a string entry is matched with the
doubled-backslash regex of line 325 (a match means Python crashes in
`float`, hence the outer `none`; a non-match installs nothing), and a
structured object is installed as-is.  The result is the new load. -/
def catalogLoadFill (mload : Option CatLoadVal) (ld : Option Load) :
    Option (Option Load) :=
  match ld with
  | some l => some (some l)
  | none =>
    match mload with
    | some (.str s) =>
      if brokenNumUnitEndMatches catalogUnitsStr s.data then none else some none
    | some (.obj l) => some (some l)
    | none => some none

/-- `apply_catalog_line` (lines 309-331). -/
def apply_catalog_line (catalog : Option Catalog) (track gender : String)
    (ln : Line) : Option Line :=
  match catalog with
  | none => some ln
  | some cat =>
    let tkey := pyLower track
    let move? := ln.movement.bind cat.movements
    (catalogLoadFill (move?.bind fun m => m.load tkey gender) ln.load).map
      fun newLoad =>
        { ln with
          qty := catalogQtyFill (move?.bind fun m => m.reps tkey gender)
            (move?.bind fun m => m.distance tkey gender)
            (move?.bind fun m => m.cal tkey gender) ln.qty
          load := newLoad }

/-- The alias canonicalization step (lines 342-345): a falsy (absent or
empty) movement is skipped; a rewrite records a W050 note. -/
def mvResolve : Option String → Option String × List Note
  | some m =>
    if m ≠ "" then
      let n := normalize_mv m
      if n ≠ m then (some n, [⟨"W050", m, n⟩]) else (some m, [])
    else (some m, [])
  | none => (none, [])

/-- Per-line work of `_apply_catalog_and_resolve` (lines 341-348): alias
canonicalization with a W050 note, dual resolution, catalog defaulting. -/
def resolveLine (catalog : Option Catalog) (track gender : String)
    (ln : Line) : Option (Line × List Note) :=
  let mn := mvResolve ln.movement
  let ln1 : Line :=
    { ln with
      movement := mn.1
      qty := resolve_qty gender ln.qty
      load := resolve_load gender ln.load }
  (apply_catalog_line catalog track gender ln1).map (fun l => (l, mn.2))

/-- Resolve one statement of a BLOCK: both plain lines and the inner line of
an `EMOM_LINE` are visited (line 338 replaces an `EMOM_LINE` by its `line`,
which is then mutated in place). -/
def resolveStmtBlock (catalog : Option Catalog) (track gender : String) :
    Stmt → Option (Stmt × List Note)
  | .line l => (resolveLine catalog track gender l).map (fun p => (.line p.1, p.2))
  | .emomLine s l =>
    (resolveLine catalog track gender l).map (fun p => (.emomLine s p.1, p.2))

/-- Resolve one statement of a BUYIN/CASHOUT: line 336 iterates the raw
statement dicts, so an `EMOM_LINE` is processed as a dict with no
`qty`/`movement`/`load` keys — its inner line is left untouched (Python only
adds `qty=None`/`load=None` keys to the `EMOM_LINE` dict itself, which the
typed node does not carry; with a catalog the `None` movement misses every
lookup). -/
def resolveStmtIntro (catalog : Option Catalog) (track gender : String) :
    Stmt → Option (Stmt × List Note)
  | .line l => (resolveLine catalog track gender l).map (fun p => (.line p.1, p.2))
  | .emomLine s l => some (.emomLine s l, [])

/-- Resolve a statement list, accumulating notes in traversal order. -/
def resolveStmts (f : Stmt → Option (Stmt × List Note)) :
    List Stmt → Option (List Stmt × List Note)
  | [] => some ([], [])
  | s :: rest =>
    match f s with
    | none => none
    | some (s', ns) =>
      (resolveStmts f rest).map (fun p => (s' :: p.1, ns ++ p.2))

/-- Resolve one segment (lines 334-348). -/
def resolveSeg (catalog : Option Catalog) (track gender : String) :
    Segment → Option (Segment × List Note)
  | .buyin stmts =>
    (resolveStmts (resolveStmtIntro catalog track gender) stmts).map
      (fun p => (.buyin p.1, p.2))
  | .cashout stmts =>
    (resolveStmts (resolveStmtIntro catalog track gender) stmts).map
      (fun p => (.cashout p.1, p.2))
  | .block h stmts opts =>
    (resolveStmts (resolveStmtBlock catalog track gender) stmts).map
      (fun p => (.block h p.1 opts, p.2))
  | seg => some (seg, [])

/-- Resolve a segment list. -/
def resolveProgram (catalog : Option Catalog) (track gender : String) :
    List Segment → Option (List Segment × List Note)
  | [] => some ([], [])
  | seg :: rest =>
    match resolveSeg catalog track gender seg with
    | none => none
    | some (seg', ns) =>
      (resolveProgram catalog track gender rest).map
        (fun p => (seg' :: p.1, ns ++ p.2))

/-- `_apply_catalog_and_resolve` (lines 285-349).  The final line is
`ast.setdefault('meta',{}).setdefault('normalized',notes)`: an already
present `normalized` list is kept.  `none` models an uncaught exception. -/
def apply_catalog_and_resolve (catalog : Option Catalog) (track gender : String)
    (ast : AST) : Option AST :=
  (resolveProgram catalog track gender ast.program).map fun p =>
    { meta := { ast.meta with normalized := some (ast.meta.normalized.getD p.2) }
      program := p.1 }

/-! ## Renderer (`render_line`, lines 443-463) -/

/-- `hhmmss` (lines 443-445). -/
def hhmmss (s : ℕ) : List Char :=
  let m := s / 60
  let sec := s % 60
  let h := m / 60
  let m2 := m % 60
  if h ≠ 0 then pad2 h ++ ':' :: pad2 m2 ++ ':' :: pad2 sec
  else pad2 m2 ++ ':' :: pad2 sec

/-- Join with single spaces, Python `" ".join`. -/
def joinSp : List (List Char) → List Char
  | [] => []
  | [l] => l
  | l :: rest => l ++ ' ' :: joinSp rest

/-- `render_line` as a character list.  Dual qty kinds and `raw`/`dual`
loads have no branch and render as empty.  A `None` movement would raise a
`TypeError` at the string concatenation in Python; it is rendered as the
empty string here (no parser-produced `LINE` has one). -/
def renderLineChars (ln : Line) : List Char :=
  let qtxt : List Char :=
    match ln.qty with
    | some (.reps v) => intChars v ++ [' ']
    | some (.cal v) => pyFloatRepr v ++ [' ', 'c', 'a', 'l', ' ']
    | some (.distance v _) => intChars (ratTruncZ v) ++ ['m', ' ']
    | some (.time v) => hhmmss v ++ [' ']
    | _ => []
  let mv : List Char := (ln.movement.getD "").data
  let ltxt : List Char :=
    match ln.load with
    | some (.sload (.weight v u)) => ' ' :: '@' :: (intChars (ratTruncZ v) ++ u.data)
    | some (.sload (.height v u)) => ' ' :: '@' :: (intChars (ratTruncZ v) ++ u.data)
    | some (.sload (.distance v _)) => ' ' :: '@' :: (intChars (ratTruncZ v) ++ ['m'])
    | some (.sload (.percent_raw v)) => ' ' :: '@' :: (intChars (ratTruncZ v) ++ ['%'])
    | _ => []
  let ftxt : List Char :=
    if ln.flags.isEmpty then [] else ' ' :: joinSp (ln.flags.map String.data)
  pyStrip (qtxt ++ mv ++ ltxt ++ ftxt)

/-- `render_line` as a string. -/
def render_line (ln : Line) : String := ⟨renderLineChars ln⟩

/-! ## Pace estimation (`est_line_seconds` / `est_block_seconds`) -/

/-- The reps pace table (line 386), default 3.0. -/
def repsPace (mv : String) : ℚ :=
  (([("thrusters", 3), ("pullups", 2), ("ring_rows", 9/5), ("burpees", 7/2),
     ("wall_balls", 5/2), ("box_jumps", 14/5), ("toes_to_bar", 5/2)] :
    List (String × ℚ)).lookup mv).getD 3

/-- The distance pace table (line 388), default 0.9. -/
def distPace (mv : String) : ℚ :=
  (([("row", 7/20), ("run", 3/5), ("sandbag_carry", 9/10)] :
    List (String × ℚ)).lookup mv).getD (9/10)

/-- `est_line_seconds` (lines 382-390). -/
def est_line_seconds (ln : Line) : ℚ :=
  match ln.qty with
  | none => 2
  | some q =>
    let mv := ln.movement.getD ""
    match q with
    | .reps v => repsPace mv * (v : ℚ)
    | .cal v => (if mv = "row" then 3 else 7/2) * v
    | .distance v _ => distPace mv * v
    | .time v => (v : ℚ)
    | _ => 5

/-- The line underlying a statement (`st if LINE else st.get('line')`). -/
def stmtLine : Stmt → Line
  | .line l => l
  | .emomLine _ l => l

/-- `est_block_seconds` (lines 392-401). -/
def est_block_seconds (head : BlockHead) (stmts : List Stmt) : ℚ :=
  match head with
  | .amrap d => (d : ℚ)
  | .emom d => (d : ℚ)
  | .ft => (stmts.map (fun st => est_line_seconds (stmtLine st))).sum
  | .chipper => (stmts.map (fun st => est_line_seconds (stmtLine st))).sum
  | .rft r => (r : ℚ) * (stmts.map (fun st => est_line_seconds (stmtLine st))).sum
  | .tabata w rst sets => (sets : ℚ) * ((w : ℚ) + (rst : ℚ))
  | .interval sets w rst => (sets : ℚ) * ((w : ℚ) + (rst : ℚ))

/-! ## Timeline synthesizer (`build_timeline`, lines 403-441) -/

/-- Timeline events `{t, type, …}`. -/
inductive Event
  | startBuyin (t : ℤ)
  | endBuyin (t : ℤ)
  | startCashout (t : ℤ)
  | endCashout (t : ℤ)
  | restStart (t : ℤ) (duration : ℕ)
  | restEnd (t : ℤ)
  | startBlock (t : ℤ) (mode : String)
  | endBlock (t : ℤ)
  | prompt (t : ℤ) (text : String)
  | nextSlot (t : ℤ) (slot : ℕ) (text : String)
  deriving DecidableEq

/-- The block-mode string of a head. -/
def modeName : BlockHead → String
  | .amrap _ => "AMRAP"
  | .emom _ => "EMOM"
  | .ft => "FT"
  | .rft _ => "RFT"
  | .chipper => "CHIPPER"
  | .tabata .. => "TABATA"
  | .interval .. => "INTERVAL"

/-- One PROMPT per plain line (EMOM_LINE statements are skipped by the
`if ln.get("type")=="LINE"` guards). -/
def promptsOf (t : ℤ) (stmts : List Stmt) : List Event :=
  stmts.filterMap fun st =>
    match st with
    | .line l => some (.prompt t (render_line l))
    | _ => none

/-- Python dict insertion `slots[st["slot"]] = st["line"]`: update in place
if the key exists, else append (insertion order preserved). -/
def upsertSlot (m : List (ℕ × Line)) (k : ℕ) (v : Line) : List (ℕ × Line) :=
  if (m.lookup k).isSome then m.map (fun p => if p.1 = k then (k, v) else p)
  else m ++ [(k, v)]

/-- The `slots` dict of the EMOM branch (lines 424-426). -/
def slotsOf (stmts : List Stmt) : List (ℕ × Line) :=
  stmts.foldl
    (fun m st =>
      match st with
      | .emomLine s l => upsertSlot m s l
      | .line _ => m)
    []

/-- The EMOM minute loop (lines 427-430): `k` iterations remain, `i` is the
loop index; a missing dict key (`slots[idx]`) is a `KeyError`, hence `none`. -/
def emomLoop (slots : List (ℕ × Line)) : ℤ → ℕ → ℕ → Option (List Event × ℤ)
  | t, _, 0 => some ([], t)
  | t, i, k + 1 =>
    if slots.isEmpty then some ([], t)
    else
      match slots.lookup (i % slots.length + 1) with
      | none => none
      | some l =>
        (emomLoop slots (t + 60) (i + 1) k).map
          (fun p => (.nextSlot t (i % slots.length + 1) (render_line l) :: p.1, p.2))

/-- Events and clock advance of one segment. -/
def runSeg (t : ℤ) : Segment → Option (List Event × ℤ)
  | .buyin stmts => some (.startBuyin t :: promptsOf t stmts ++ [.endBuyin t], t)
  | .cashout stmts =>
    some (.startCashout t :: promptsOf t stmts ++ [.endCashout t], t)
  | .rest d => some ([.restStart t d, .restEnd (t + (d : ℤ))], t + (d : ℤ))
  | .block h stmts _ =>
    match h with
    | .amrap d =>
      some (.startBlock t "AMRAP" :: promptsOf t stmts ++ [.endBlock (t + (d : ℤ))],
        t + (d : ℤ))
    | .emom d =>
      (emomLoop (slotsOf stmts) t 0 (d / 60)).map
        (fun p => (.startBlock t "EMOM" :: p.1 ++ [.endBlock p.2], p.2))
    | h =>
      let t' := t + ratTruncZ (est_block_seconds h stmts)
      some (.startBlock t (modeName h) :: promptsOf t stmts ++ [.endBlock t'], t')
  | .trackBlock => some ([], t)

/-- Run the segments in order, threading the clock. -/
def runProgram (t : ℤ) : List Segment → Option (List Event × ℤ)
  | [] => some ([], t)
  | seg :: rest =>
    match runSeg t seg with
    | none => none
    | some (evs, t') =>
      (runProgram t' rest).map (fun p => (evs ++ p.1, p.2))

/-- `build_timeline`: the ordered event list, or `none` on a `KeyError` in
the EMOM slot lookup. -/
def build_timeline (ast : AST) : Option (List Event) :=
  (runProgram 0 ast.program).map (·.1)

/-! ## Format normalization (`_normalize_wod_text`, lines 465-478) -/

/-- The line loop of `_normalize_wod_text`: rstrip each line, skip a blank
line that follows a blank line. -/
def processLines : List (List Char) → Bool → List (List Char)
  | [], _ => []
  | l :: rest, prev =>
    let s := pyRstrip l
    if s.isEmpty && prev then processLines rest prev
    else s :: processLines rest s.isEmpty

/-- `_normalize_wod_text`: `"\n".join(out).rstrip("\n") + "\n"`. -/
def normalize_wod_text (text : List Char) : List Char :=
  rstripNl (joinNl (processLines (splitlines text) false)) ++ ['\n']

/-- Scanner for a `"\n\n\n"` substring. -/
def has3nl : List Char → Bool
  | a :: b :: c :: rest =>
    (a = '\n' && b = '\n' && c = '\n') || has3nl (b :: c :: rest)
  | _ => false

/-! ## CLI driver (`main`, lines 480-624) -/

/-- The five subcommands. -/
inductive Cmd
  | parseCmd | lintCmd | runCmd | exportCmd | fmtCmd
  deriving DecidableEq

/-- Which subparsers register `--catalog`, `--track` and `--gender`
(lines 488-491:
`for pp in (p1,p2,p3,p4)` — `fmt` is excluded, so for `fmt` the parsed
namespace has no `catalog` attribute). -/
def cmdHasResolverArgs : Cmd → Bool
  | .fmtCmd => false
  | _ => true

/-- Process exit code of `main` as a function of the chosen subcommand,
whether the input file parses, and whether lint finds an error-level issue.
Line 494 parses the file before any dispatch: a parse failure there is an
uncaught exception and CPython exits with code 1.  Line 495 reads
`args.catalog`, which for `fmt` raises an uncaught `AttributeError` (exit 1).
The `fmt` branch (lines 608-624) is only reached after both. -/
def mainExitCode (cmd : Cmd) (parseOk : Bool) (lintHasErrors : Bool) : ℕ :=
  if !parseOk then 1
  else if !cmdHasResolverArgs cmd then 1
  else
    match cmd with
    | .parseCmd => 0
    | .lintCmd => if lintHasErrors then 1 else 0
    | .runCmd => 0
    | .exportCmd => 0
    | .fmtCmd => 0

/-- The `fmt` handler in isolation (lines 608-624): exit 2 when its guarded
re-parse fails, else write the normalized text and exit 0. -/
def fmtBranchExitCode (parseOk : Bool) : ℕ :=
  if parseOk then 0 else 2

/-! ## Token-level reparser for rendered lines

The grammar's `line` rule is `quantity? movement load? suffix* (";"|NL)` with
whitespace ignored.  For reparsing the output of `render_line` (whose tokens
are single space-separated words) the Earley parser is modelled at token
level: the quantity alternatives are tried in the grammar's order with
backtracking, each token is classified by the (correctly written) token
regexes of the grammar, and the matching `ToAST` handler is applied.
Multi-token movements (`IDENT "_" IDENT`) and the spaceless `CALDUAL`
spelling never occur in rendered output and are not modelled. -/

/-- ASCII letter test (the IDENT head class). -/
def isAsciiLetter (c : Char) : Bool :=
  (decide ('a' ≤ c) && decide (c ≤ 'z')) || (decide ('A' ≤ c) && decide (c ≤ 'Z'))

/-- IDENT: `[a-zA-Z][a-zA-Z0-9_]*`. -/
def isIdentTok : List Char → Bool
  | [] => false
  | c :: rest =>
    isAsciiLetter c && rest.all (fun d => isAsciiLetter d || isDigitChar d || d = '_')

/-- INT: nonempty all-digit token. -/
def isIntTok (l : List Char) : Bool :=
  !l.isEmpty && l.all isDigitChar

/-- NUMBER: `\d+(\.\d+)?` covering the whole token. -/
def isNumberTok (l : List Char) : Bool :=
  match numToken l with
  | some (_, []) => true
  | _ => false

/-- DIST: `\d+(\.\d+)?(m|km)`. -/
def isDistTok (l : List Char) : Bool :=
  match numToken l with
  | some (_, r) => distUnitsStr.any (fun u => r = u)
  | none => false

/-- TIMEQ: `\d{1,2}:\d{2}` or `\d+s`. -/
def isTimeqTok (l : List Char) : Bool :=
  (match splitOnChar ':' l with
   | [a, b] =>
     a.all isDigitChar && (a.length == 1 || a.length == 2) &&
       (b.all isDigitChar && b.length == 2)
   | _ => false) ||
  (!(l.takeWhile isDigitChar).isEmpty && l.dropWhile isDigitChar = ['s'])

/-- REPDUAL: `\d+/\d+`. -/
def isRepdualTok (l : List Char) : Bool :=
  match splitOnChar '/' l with
  | [a, b] => isIntTok a && isIntTok b
  | _ => false

/-- The numeric part of CALDUAL: `\d+(\.\d+)?/\d+(\.\d+)?`. -/
def isCaldualNumsTok (l : List Char) : Bool :=
  match splitOnChar '/' l with
  | [a, b] => isNumberTok a && isNumberTok b
  | _ => false

/-- DISTDUAL: `\d+(\.\d+)?/\d+(\.\d+)?(m|km)`. -/
def isDistdualTok (l : List Char) : Bool :=
  match numToken l with
  | some (_, '/' :: r2) =>
    (match numToken r2 with
     | some (_, r3) => distUnitsStr.any (fun u => r3 = u)
     | none => false)
  | _ => false

/-- LOADVAL: `\d+(\.\d+)?(kg|lb|cm|in|m|km|%)`. -/
def isLoadvalTok (l : List Char) : Bool :=
  match numToken l with
  | some (_, r) => loadUnitsStr.any (fun u => r = u)
  | none => false

/-- LOADDUAL: `\d+(\.\d+)?/\d+(\.\d+)?(kg|lb|cm|in|m|km|%)`. -/
def isLoaddualTok (l : List Char) : Bool :=
  match numToken l with
  | some (_, '/' :: r2) =>
    (match numToken r2 with
     | some (_, r3) => loadUnitsStr.any (fun u => r3 = u)
     | none => false)
  | _ => false

/-- Parse the trailing suffixes (`SYNC`, `@shared`, `@each`); the transformer
maps each to the same flag string. -/
def parseSuffixes : List (List Char) → Option (List String)
  | [] => some []
  | t :: rest =>
    let f : Option String :=
      if t = ['S', 'Y', 'N', 'C'] then some "SYNC"
      else if t = ['@', 's', 'h', 'a', 'r', 'e', 'd'] then some "@shared"
      else if t = ['@', 'e', 'a', 'c', 'h'] then some "@each"
      else none
    match f with
    | none => none
    | some s => (parseSuffixes rest).map (fun fs => s :: fs)

/-- Parse the optional `@`-load followed by suffixes. -/
def parseAfterMove : List (List Char) → Option (Option Load × List String)
  | [] => some (none, [])
  | t :: rest =>
    match t with
    | '@' :: lv =>
      if isLoadvalTok lv || isLoaddualTok lv then
        match ToAST.load lv with
        | none => none
        | some ld => (parseSuffixes rest).map (fun fs => (some ld, fs))
      else (parseSuffixes (t :: rest)).map (fun fs => (none, fs))
    | _ => (parseSuffixes (t :: rest)).map (fun fs => (none, fs))

/-- Given a chosen quantity, parse `movement load? suffix*`. -/
def finishLine (q : Option Qty) : List (List Char) → Option Line
  | [] => none
  | mvTok :: rest =>
    if isIdentTok mvTok then
      (parseAfterMove rest).map (fun p => ⟨q, some ⟨mvTok⟩, p.1, p.2⟩)
    else none

/-- Quantity candidates in the grammar's alternative order (a handler crash
yields no candidate; no rendered token crashes a handler). -/
def qtyCandidates : List (List Char) → List (Option Qty × List (List Char))
  | [] => []
  | t1 :: rest =>
    (if isRepdualTok t1 then
      match ToAST.dual_reps t1 with
      | some q => [(some q, rest)]
      | none => []
     else []) ++
    (match rest with
     | t2 :: rest2 =>
       if isCaldualNumsTok t1 ∧ t2 = ['c', 'a', 'l'] then
         match ToAST.dual_cal (t1 ++ ' ' :: t2) with
         | some q => [(some q, rest2)]
         | none => []
       else []
     | [] => []) ++
    (if isDistdualTok t1 then
      match ToAST.dual_distance t1 with
      | some q => [(some q, rest)]
      | none => []
     else []) ++
    (if isIntTok t1 then
      match ToAST.reps t1 with
      | some q => [(some q, rest)]
      | none => []
     else []) ++
    (match rest with
     | t2 :: rest2 =>
       if isNumberTok t1 ∧ t2 = ['c', 'a', 'l'] then
         match ToAST.cal_qty t1 with
         | some q => [(some q, rest2)]
         | none => []
       else []
     | [] => []) ++
    (if isDistTok t1 then
      match ToAST.distance_qty t1 with
      | some q => [(some q, rest)]
      | none => []
     else []) ++
    (if isTimeqTok t1 then
      match ToAST.hold_time t1 with
      | some q => [(some q, rest)]
      | none => []
     else [])

/-- Parse a token list as a `line` statement. -/
def parseLineToks (toks : List (List Char)) : Option Line :=
  (qtyCandidates toks ++ [((none : Option Qty), toks)]).findSome?
    (fun p : Option Qty × List (List Char) => finishLine p.1 p.2)

/-- Tokenize on spaces (the only whitespace in rendered lines). -/
def splitSpaces (l : List Char) : List (List Char) :=
  (splitOnChar ' ' l).filter (fun p => !p.isEmpty)

/-- Reparse a rendered line. -/
def parse_rendered_line (s : List Char) : Option Line :=
  parseLineToks (splitSpaces s)

/-! ## Property checkers and preconditions used by the claims -/

/-- A line has no dual quantity kind and no dual load kind. -/
def lineNoDual (l : Line) : Bool :=
  (match l.qty with
   | some (.dual_reps _ _) => false
   | some (.dual_cal _ _) => false
   | some (.dual_distance _ _ _) => false
   | _ => true) &&
  (match l.load with
   | some (.dual _ _) => false
   | _ => true)

/-- Every `Line` node of a statement (including the inner line of an
`EMOM_LINE`). -/
def stmtAllLines : Stmt → List Line
  | .line l => [l]
  | .emomLine _ l => [l]

/-- Every `Line` node of a segment. -/
def segAllLines : Segment → List Line
  | .buyin s => s.foldr (fun st acc => stmtAllLines st ++ acc) []
  | .cashout s => s.foldr (fun st acc => stmtAllLines st ++ acc) []
  | .block _ s _ => s.foldr (fun st acc => stmtAllLines st ++ acc) []
  | _ => []

/-- No line anywhere in the AST has a dual qty or dual load. -/
def astNoDual (a : AST) : Bool :=
  a.program.all (fun seg => (segAllLines seg).all lineNoDual)

/-- A BUYIN/CASHOUT whose statements are all plain lines. -/
def introPlain : Segment → Bool
  | .buyin s => s.all (fun st => match st with | .line _ => true | _ => false)
  | .cashout s => s.all (fun st => match st with | .line _ => true | _ => false)
  | _ => true

/-- Every BUYIN/CASHOUT of the AST contains only plain lines. -/
def astIntroPlain (a : AST) : Bool :=
  a.program.all introPlain

/-- Every structured load object supplied by the catalog is a plain
structured load (not `dual`, not `raw`). -/
def PlainCatLoads : Option Catalog → Prop
  | none => True
  | some cat =>
    ∀ mv cm, cat.movements mv = some cm →
      ∀ tk g l, cm.load tk g = some (.obj l) → ∃ s, l = .sload s

/-- The slot numbers of a statement list, in order. -/
def slotNums (stmts : List Stmt) : List ℕ :=
  stmts.filterMap fun st =>
    match st with
    | .emomLine s _ => some s
    | .line _ => none

/-- The slot numbers form exactly the contiguous set `{1,…,N}` where `N` is
the number of slot-lines. -/
def contiguousSlots (stmts : List Stmt) : Bool :=
  (slotNums stmts).all
    (fun k => decide (1 ≤ k) && decide (k ≤ (slotNums stmts).length)) &&
  (List.range (slotNums stmts).length).all
    (fun j => (slotNums stmts).contains (j + 1))

/-- Every EMOM block of the segment satisfies `contiguousSlots`. -/
def segEmomOk : Segment → Bool
  | .block (.emom _) stmts _ => contiguousSlots stmts
  | _ => true

/-- Lines numbered consecutively from `start`. -/
def numbered : ℕ → List Line → List (ℕ × Line)
  | _, [] => []
  | s, l :: ls => (s, l) :: numbered (s + 1) ls

/-- The slot-line list `1: l₁; …; N: l_N`. -/
def numberedSlots (lines : List Line) : List Stmt :=
  (numbered 1 lines).map (fun p => .emomLine p.1 p.2)

/-! ## Concrete programs used by witnesses and counterexamples -/

/-- `10 wall_balls;`. -/
def wbLine : Line := ⟨some (.reps 10), some "wall_balls", none, []⟩

/-- `8 box_jumps;`. -/
def bjLine : Line := ⟨some (.reps 8), some "box_jumps", none, []⟩

/-- `15/12 row;` (dual reps). -/
def dualRepsLine : Line := ⟨some (.dual_reps 15 12), some "row", none, []⟩

/-- `15/12 cal row;` (the qty is what `ToAST.dual_cal` builds). -/
def dualCalRowLine : Line := ⟨some (.dual_cal 15 12), some "row", none, []⟩

/-- `BLOCK FT { 15/12 cal row; }` (seed scenario 6). -/
def calRowAst : AST := ⟨emptyMeta, [.block .ft [.line dualCalRowLine] noOpts]⟩

/-- A BUYIN whose only statement is an `EMOM_LINE` wrapping a dual-reps
line (parseable: `BUYIN { 1: 15/12 row; }`). -/
def buyinEmomAst : AST := ⟨emptyMeta, [.buyin [.emomLine 1 dualRepsLine]]⟩

/-- `5 thrusters;`. -/
def thrLine : Line := ⟨some (.reps 5), some "thrusters", none, []⟩

/-- A catalog whose load entry for `thrusters` is a structured *dual* object
(used as-is by `apply_catalog_line`'s `isinstance(ld,dict)` branch). -/
def dualObjCatalog : Catalog :=
  ⟨fun m =>
    if m = "thrusters" then
      some ⟨fun _ _ => none, fun _ _ => none, fun _ _ => none,
        fun _ _ => some (.obj (.dual (.weight 60 "kg") (.weight 40 "kg")))⟩
    else none⟩

/-- `BLOCK FT { 5 thrusters; }`. -/
def thrAst : AST := ⟨emptyMeta, [.block .ft [.line thrLine] noOpts]⟩

/-- `thrAst` after one resolver run against `dualObjCatalog` (track RX,
gender male): the catalog's dual load object has been installed verbatim. -/
def thrAstOnce : AST :=
  ⟨{ emptyMeta with normalized := some [] },
   [.block .ft
     [.line ⟨some (.reps 5), some "thrusters",
       some (.dual (.weight 60 "kg") (.weight 40 "kg")), []⟩] noOpts]⟩

/-- `thrAstOnce` after a second resolver run: `resolve_load` collapses the
dual load to its male branch. -/
def thrAstTwice : AST :=
  ⟨{ emptyMeta with normalized := some [] },
   [.block .ft
     [.line ⟨some (.reps 5), some "thrusters",
       some (.sload (.weight 60 "kg")), []⟩] noOpts]⟩

/-- `BLOCK EMOM 2:00 { 1: 10 wall_balls; 2: 8 box_jumps; }` (seed 8). -/
def emomTwoAst : AST :=
  ⟨emptyMeta, [.block (.emom 120) [.emomLine 1 wbLine, .emomLine 2 bjLine] noOpts]⟩

/-- A parseable EMOM whose slots are `{2,3}` with duration 60s. -/
def badSlotAst : AST :=
  ⟨emptyMeta, [.block (.emom 60) [.emomLine 2 wbLine, .emomLine 3 bjLine] noOpts]⟩

/-- The restriction of C7's round-trip property that survives the
counterexample: qty shapes that render losslessly — none, nonnegative reps,
nonnegative terminating-decimal cal values (within the 30-digit precision of
`pyFloatRepr`), the distance value 0 the parser actually produces (see
`ToAST.distance_qty`), sub-hour times — a single-IDENT movement, no load,
and grammar suffix flags.  Dual qty kinds, loads, and times of an hour or
more do not round-trip. -/
def RoundTrippable (l : Line) : Prop :=
  (match l.qty with
   | none => True
   | some (.reps n) => 0 ≤ n
   | some (.cal v) => 0 ≤ v ∧ ∃ n : ℤ, (n : ℚ) = v * 10 ^ 30
   | some (.distance v u) => v = 0 ∧ u = "m"
   | some (.time v) => v < 3600
   | some _ => False) ∧
  (match l.movement with
   | some m => isIdentTok m.data = true
   | none => False) ∧
  l.load = none ∧
  (∀ f ∈ l.flags, f = "SYNC" ∨ f = "@shared" ∨ f = "@each")

/-! ## Auxiliary predicates for the fmt-normalization proofs -/

/-- Chain invariant of `processLines` output: no line is blank while the
previous one (or the incoming `prev` flag) is blank. -/
def goodChain : Bool → List (List Char) → Bool
  | _, [] => true
  | prev, l :: rest => (!(l.isEmpty && prev)) && goodChain l.isEmpty rest

/-- Drop a single trailing empty line (at most one can occur after
`processLines`). -/
def stripTrailEmpty : List (List Char) → List (List Char)
  | [] => []
  | [l] => if l.isEmpty then [] else [l]
  | l :: rest => l :: stripTrailEmpty rest

/-- The text ends with exactly one newline character. -/
def endsExactlyOneNl (l : List Char) : Bool :=
  match l.reverse with
  | '\n' :: rest =>
    match rest with
    | '\n' :: _ => false
    | _ => true
  | _ => false

/-! ## Claim theorems -/

/-- C3: the claim says a `NUM (m|km)` quantity token yields a distance qty
holding the number in meters (`200m` ↦ 200, `1.5km` ↦ 1500).  The code's
regex (line 215) is written with doubled backslashes inside a raw string and
never matches a DIST token, so `distance_qty` always returns the value-0
fallback: `200m` and `1.5km` both become `{kind: distance, value: 0}`. -/
theorem c3_distance_qty_zero :
    ToAST.distance_qty "200m".data = some (Qty.distance 0 "m") ∧
    ToAST.distance_qty "1.5km".data = some (Qty.distance 0 "m") ∧
    (Qty.distance 0 "m" ≠ Qty.distance 200 "m" ∧
     Qty.distance 0 "m" ≠ Qty.distance 1500 "m") := by
  refine ⟨rfl, rfl, ?_, ?_⟩ <;> decide

/-- C4: the claim says `NUM`+unit load tokens produce structured loads
(weight/height/distance/percent_raw), with `raw` only when no structured
form matches.  Both regexes of `ToAST.load` (lines 232 and 243) are written
with doubled backslashes and never match a LOADVAL/LOADDUAL token, so every
load token — `60kg`, `24in`, `1.5km`, `75%`, and the dual `60/40kg` — comes
out as kind `raw`. -/
theorem c4_load_always_raw :
    ToAST.load "60kg".data = some (Load.raw "60kg") ∧
    ToAST.load "24in".data = some (Load.raw "24in") ∧
    ToAST.load "1.5km".data = some (Load.raw "1.5km") ∧
    ToAST.load "75%".data = some (Load.raw "75%") ∧
    ToAST.load "60/40kg".data = some (Load.raw "60/40kg") := by
  exact ⟨rfl, rfl, rfl, rfl, rfl⟩

/-- C9: the claim says `fmt` exits 2 on unparseable input and 0 on parseable
input.  In the code, `main` parses the file (line 494) and reads
`args.catalog` (line 495) before dispatching; for `fmt` the former turns a
parse failure into an uncaught exception (exit 1, never reaching the fmt
branch's `sys.exit(2)`), and the latter raises an uncaught `AttributeError`
even for parseable input because the `fmt` subparser registers no `--catalog`
argument — so `fmt` always exits 1.  The guarded fmt branch itself
(lines 608-624), had it been reached, implements the claimed 2/0 behavior. -/
theorem c9_fmt_exit_codes :
    (∀ lintErr, mainExitCode Cmd.fmtCmd false lintErr = 1) ∧
    (∀ lintErr, mainExitCode Cmd.fmtCmd true lintErr = 1) ∧
    fmtBranchExitCode false = 2 ∧ fmtBranchExitCode true = 0 ∧
    (1 : ℕ) ≠ 2 ∧ (1 : ℕ) ≠ 0 := by
  exact ⟨fun _ => rfl, fun _ => rfl, rfl, rfl, by decide, by decide⟩

/-- C5: dual-value selection.  `resolve_qty` maps each dual qty kind to its
non-dual equivalent taking branch `a` for gender `male` and branch `b`
otherwise, `resolve_load` does the same for dual loads (the branch, with its
units, is returned unchanged), and resolving the program
`BLOCK FT { 15/12 cal row; }` (whose first line's qty is what the `dual_cal`
handler builds from the `15/12 cal` token) with gender `female` yields a
first line whose qty is `{kind: cal, value: 12.0}`. -/
theorem c5_dual_selection :
    (∀ a b : ℕ, resolve_qty "male" (some (.dual_reps a b)) = some (.reps (a : ℤ)) ∧
      resolve_qty "female" (some (.dual_reps a b)) = some (.reps (b : ℤ))) ∧
    (∀ a b : ℚ, resolve_qty "male" (some (.dual_cal a b)) = some (.cal a) ∧
      resolve_qty "female" (some (.dual_cal a b)) = some (.cal b)) ∧
    (∀ (a b : ℚ) (u : String),
      resolve_qty "male" (some (.dual_distance a b u)) = some (.distance a "m") ∧
      resolve_qty "female" (some (.dual_distance a b u)) = some (.distance b "m")) ∧
    (∀ x y : SLoad, resolve_load "male" (some (.dual x y)) = some (.sload x) ∧
      resolve_load "female" (some (.dual x y)) = some (.sload y)) ∧
    ToAST.dual_cal "15/12 cal".data = some (.dual_cal 15 12) ∧
    apply_catalog_and_resolve none "RX" "female" calRowAst =
      some ⟨{ emptyMeta with normalized := some [] },
        [.block .ft [.line ⟨some (.cal 12), some "row", none, []⟩] noOpts]⟩ := by
  refine ⟨fun a b => ⟨rfl, rfl⟩, fun a b => ⟨rfl, rfl⟩,
    fun a b u => ⟨rfl, rfl⟩, fun x y => ⟨rfl, rfl⟩, by decide, by decide⟩

/-! ## Helper lemmas: slot dictionary -/

/-- Unfold `List.lookup` at a matching head. -/
theorem lookup_cons_self (a : ℕ) (b : Line) (rest : List (ℕ × Line)) :
    ((a, b) :: rest).lookup a = some b := by
  simp [List.lookup]

/-- Unfold `List.lookup` at a non-matching head. -/
theorem lookup_cons_ne (a k : ℕ) (b : Line) (rest : List (ℕ × Line))
    (h : k ≠ a) : ((a, b) :: rest).lookup k = rest.lookup k := by
  have hb : (k == a) = false := by simp [h]
  simp [List.lookup, hb]

/-- A lookup succeeds exactly when the key occurs. -/
theorem lookup_isSome_iff_key (m : List (ℕ × Line)) (k : ℕ) :
    ((m.lookup k).isSome = true) ↔ k ∈ m.map Prod.fst := by
  induction m with
  | nil => simp [List.lookup]
  | cons p rest ih =>
    cases p with
    | mk a b =>
      by_cases h : k = a
      · subst h
        rw [lookup_cons_self]
        simp
      · rw [lookup_cons_ne a k b rest h]
        simp only [List.map_cons, List.mem_cons]
        rw [ih]
        tauto

/-- `upsertSlot` preserves or appends the key. -/
theorem upsert_keys (m : List (ℕ × Line)) (s : ℕ) (v : Line) :
    (upsertSlot m s v).map Prod.fst =
      if (m.lookup s).isSome then m.map Prod.fst else m.map Prod.fst ++ [s] := by
  unfold upsertSlot
  split
  · next h =>
    simp only [h, if_true, List.map_map]
    refine List.map_congr_left ?_
    intro p _
    by_cases hp : p.1 = s
    · simp [hp]
    · simp [hp]
  · next h => simp [h]

/-- Key membership after `upsertSlot`. -/
theorem upsert_lookup_isSome (m : List (ℕ × Line)) (s k : ℕ) (v : Line) :
    (((upsertSlot m s v).lookup k).isSome = true) ↔
      ((m.lookup k).isSome = true) ∨ k = s := by
  by_cases hs : (m.lookup s).isSome = true
  · have hkeys : (upsertSlot m s v).map Prod.fst = m.map Prod.fst := by
      rw [upsert_keys]; simp [hs]
    rw [lookup_isSome_iff_key, hkeys, ← lookup_isSome_iff_key]
    constructor
    · exact Or.inl
    · rintro (hk | rfl)
      · exact hk
      · exact hs
  · have hkeys : (upsertSlot m s v).map Prod.fst = m.map Prod.fst ++ [s] := by
      rw [upsert_keys]; simp [hs]
    rw [lookup_isSome_iff_key, hkeys, List.mem_append, ← lookup_isSome_iff_key]
    simp

/-- `upsertSlot` grows the map by at most one entry. -/
theorem upsert_length_le (m : List (ℕ × Line)) (s : ℕ) (v : Line) :
    (upsertSlot m s v).length ≤ m.length + 1 := by
  unfold upsertSlot
  split
  · simp
  · simp

/-- The fold step of `slotsOf`. -/
def slotStep (m : List (ℕ × Line)) : Stmt → List (ℕ × Line)
  | .emomLine s l => upsertSlot m s l
  | .line _ => m

/-- `slotsOf` is a fold of `slotStep` (definitional repackaging). -/
theorem slotsOf_eq_foldl (stmts : List Stmt) :
    slotsOf stmts = stmts.foldl slotStep [] := rfl

/-- Keys of the EMOM slot dictionary are exactly the slot numbers. -/
theorem slotsOf_lookup_isSome (stmts : List Stmt) (k : ℕ) :
    (((slotsOf stmts).lookup k).isSome = true) ↔ k ∈ slotNums stmts := by
  rw [slotsOf_eq_foldl]
  suffices h : ∀ (ss : List Stmt) (acc : List (ℕ × Line)),
      (((ss.foldl slotStep acc).lookup k).isSome = true) ↔
        ((acc.lookup k).isSome = true) ∨ k ∈ slotNums ss by
    have := h stmts []
    simpa [List.lookup] using this
  intro ss
  induction ss with
  | nil => simp [slotNums]
  | cons st rest ih =>
    intro acc
    cases st with
    | line l =>
      rw [List.foldl_cons]
      show (((rest.foldl slotStep acc).lookup k).isSome = true) ↔ _
      rw [ih acc]
      simp [slotNums, List.filterMap_cons]
    | emomLine s l =>
      rw [List.foldl_cons]
      show (((rest.foldl slotStep (upsertSlot acc s l)).lookup k).isSome = true) ↔ _
      rw [ih (upsertSlot acc s l), upsert_lookup_isSome]
      simp only [slotNums, List.filterMap_cons, List.mem_cons]
      constructor
      · rintro ((h | rfl) | h)
        · exact Or.inl h
        · exact Or.inr (Or.inl rfl)
        · exact Or.inr (Or.inr (by simpa [slotNums] using h))
      · rintro (h | h | h)
        · exact Or.inl (Or.inl h)
        · exact Or.inl (Or.inr h)
        · exact Or.inr (by simpa [slotNums] using h)

/-- The slot dictionary has at most as many entries as there are slot-lines. -/
theorem slotsOf_length_le (stmts : List Stmt) :
    (slotsOf stmts).length ≤ (slotNums stmts).length := by
  rw [slotsOf_eq_foldl]
  suffices h : ∀ (ss : List Stmt) (acc : List (ℕ × Line)),
      (ss.foldl slotStep acc).length ≤ acc.length + (slotNums ss).length by
    simpa using h stmts []
  intro ss
  induction ss with
  | nil => simp
  | cons st rest ih =>
    intro acc
    cases st with
    | line l =>
      rw [List.foldl_cons]
      have := ih acc
      simpa [slotNums, List.filterMap_cons, slotStep] using this
    | emomLine s l =>
      rw [List.foldl_cons]
      have h1 := ih (upsertSlot acc s l)
      have h2 := upsert_length_le acc s l
      simp only [slotStep] at h1 ⊢
      simp only [slotNums, List.filterMap_cons, List.length_cons] at *
      omega

/-- Under contiguous slot numbering every index the EMOM loop can probe is
present, so the loop never raises. -/
theorem emomLoop_isSome (slots : List (ℕ × Line))
    (h : ∀ idx, 1 ≤ idx → idx ≤ slots.length → ((slots.lookup idx).isSome = true)) :
    ∀ (k : ℕ) (t : ℤ) (i : ℕ), ((emomLoop slots t i k).isSome = true) := by
  intro k
  induction k with
  | zero => intro t i; simp [emomLoop]
  | succ k ih =>
    intro t i
    unfold emomLoop
    by_cases he : slots.isEmpty
    · simp [he]
    · simp only [he, if_false]
      have hlen : 0 < slots.length := by
        cases slots with
        | nil => simp [List.isEmpty] at he
        | cons a l => simp
      have hidx := h (i % slots.length + 1) (by omega)
        (by have := Nat.mod_lt i hlen; omega)
      obtain ⟨l, hl⟩ := Option.isSome_iff_exists.mp hidx
      rw [hl]
      simpa using ih (t + 60) (i + 1)

/-- Contiguous slot numbering makes every probed index present. -/
theorem contiguous_lookup (stmts : List Stmt) (h : contiguousSlots stmts = true) :
    ∀ idx, 1 ≤ idx → idx ≤ (slotsOf stmts).length →
      (((slotsOf stmts).lookup idx).isSome = true) := by
  intro idx h1 h2
  unfold contiguousSlots at h
  rw [Bool.and_eq_true] at h
  have hall := List.all_eq_true.mp h.2
  have hlen := slotsOf_length_le stmts
  have hidx : idx - 1 < (slotNums stmts).length := by omega
  have hmem := hall (idx - 1) (List.mem_range.mpr hidx)
  have : (idx - 1) + 1 ∈ slotNums stmts := by
    simpa [List.contains] using hmem
  rw [slotsOf_lookup_isSome]
  have heq : (idx - 1) + 1 = idx := by omega
  rwa [heq] at this

/-- Every non-EMOM segment and every EMOM with contiguous slots runs. -/
theorem runSeg_isSome (t : ℤ) (seg : Segment) (h : segEmomOk seg = true) :
    ((runSeg t seg).isSome = true) := by
  cases seg with
  | buyin s => simp [runSeg]
  | cashout s => simp [runSeg]
  | rest d => simp [runSeg]
  | trackBlock => simp [runSeg]
  | block head stmts opts =>
    cases head with
    | amrap d => simp [runSeg]
    | ft => simp [runSeg]
    | rft r => simp [runSeg]
    | chipper => simp [runSeg]
    | tabata w r s => simp [runSeg]
    | interval s w r => simp [runSeg]
    | emom d =>
      have hc : contiguousSlots stmts = true := by
        simpa [segEmomOk] using h
      have hl := emomLoop_isSome (slotsOf stmts) (contiguous_lookup stmts hc)
        (d / 60) t 0
      obtain ⟨p, hp⟩ := Option.isSome_iff_exists.mp hl
      simp [runSeg, hp]

/-- A program all of whose EMOM blocks have contiguous slots runs fully. -/
theorem runProgram_isSome (segs : List Segment)
    (h : ∀ seg ∈ segs, segEmomOk seg = true) :
    ∀ t : ℤ, ((runProgram t segs).isSome = true) := by
  induction segs with
  | nil => intro t; simp [runProgram]
  | cons seg rest ih =>
    intro t
    have hs := runSeg_isSome t seg (h seg (by simp))
    obtain ⟨⟨evs, t'⟩, hp⟩ := Option.isSome_iff_exists.mp hs
    have hr := ih (fun s hmem => h s (by simp [hmem])) t'
    obtain ⟨q, hq⟩ := Option.isSome_iff_exists.mp hr
    simp [runProgram, hp, hq]

/-- C10: `build_timeline`'s EMOM slot lookup `slots[(i mod N)+1]` is safe
under the precondition that each EMOM block's slot numbers form exactly the
contiguous set `{1,…,N}` (`contiguousSlots`): then no lookup misses and
`build_timeline` raises no exception (returns `some`).  The precondition is
needed: the grammar accepts arbitrary slot integers, and for the parseable
block `BLOCK EMOM 1:00 { 2: 10 wall_balls; 3: 8 box_jumps; }` the first
probed key `(0 mod 2)+1 = 1` is absent and the lookup raises `KeyError`
(`none`). -/
theorem c10_emom_slot_safety :
    (∀ ast : AST, (∀ seg ∈ ast.program, segEmomOk seg = true) →
      ((build_timeline ast).isSome = true)) ∧
    build_timeline badSlotAst = none := by
  constructor
  · intro ast h
    have := runProgram_isSome ast.program h 0
    obtain ⟨p, hp⟩ := Option.isSome_iff_exists.mp this
    simp [build_timeline, hp]
  · rfl

/-- C10 witness: the safety half applied to the concrete two-slot EMOM. -/
theorem c10_emom_slot_safety_witness :
    ((build_timeline emomTwoAst).isSome = true) :=
  c10_emom_slot_safety.1 emomTwoAst (by decide)

/-- `numbered` preserves length. -/
theorem numbered_length (lines : List Line) : ∀ s, (numbered s lines).length = lines.length := by
  induction lines with
  | nil => intro s; rfl
  | cons l ls ih => intro s; simp [numbered, ih]

/-- Lookup into a consecutively numbered association list. -/
theorem numbered_lookup (lines : List Line) :
    ∀ (s j : ℕ), j < lines.length →
      (numbered s lines).lookup (s + j) = some (lines.getD j dummyLine) := by
  induction lines with
  | nil => intro s j h; simp at h
  | cons l ls ih =>
    intro s j h
    cases j with
    | zero =>
      show (((s, l) :: numbered (s + 1) ls).lookup (s + 0)) = _
      rw [Nat.add_zero, lookup_cons_self]
      rfl
    | succ j =>
      show (((s, l) :: numbered (s + 1) ls).lookup (s + (j + 1))) = _
      rw [lookup_cons_ne s (s + (j + 1)) l _ (by omega)]
      have := ih (s + 1) j (by simpa using h)
      rw [show s + (j + 1) = (s + 1) + j by omega]
      simpa using this

/-- Building the slot dictionary from consecutively numbered slot-lines
recovers exactly the numbered association list. -/
theorem slotsOf_numberedSlots (lines : List Line) :
    slotsOf (numberedSlots lines) = numbered 1 lines := by
  rw [slotsOf_eq_foldl]
  unfold numberedSlots
  rw [List.foldl_map]
  suffices h : ∀ (ls : List Line) (s : ℕ) (acc : List (ℕ × Line)),
      (∀ k, ((acc.lookup k).isSome = true) → k < s) →
      (numbered s ls).foldl (fun m p => slotStep m (.emomLine p.1 p.2)) acc =
        acc ++ numbered s ls by
    simpa using h lines 1 [] (by intro k hk; simp [List.lookup] at hk)
  intro ls
  induction ls with
  | nil => intro s acc _; simp [numbered]
  | cons l rest ih =>
    intro s acc hacc
    show ((numbered (s + 1) rest).foldl _ (slotStep acc (.emomLine s l))) = _
    have hnone : acc.lookup s = none := by
      cases h : acc.lookup s with
      | none => rfl
      | some v =>
        have : s < s := hacc s (by simp [h])
        omega
    have hstep : slotStep acc (.emomLine s l) = acc ++ [(s, l)] := by
      simp [slotStep, upsertSlot, hnone]
    rw [hstep, ih (s + 1) (acc ++ [(s, l)]) ?_]
    · simp [numbered]
    · intro k hk
      rw [lookup_isSome_iff_key] at hk
      simp only [List.map_append, List.mem_append] at hk
      rcases hk with hk | hk
      · have := hacc k (by rwa [lookup_isSome_iff_key]); omega
      · simp at hk; omega

/-- The EMOM loop over consecutively numbered slots: one `NEXT_SLOT` per
remaining minute, with rotating slot index and a 60-second clock step. -/
theorem emomLoop_numbered (lines : List Line) (hN : 0 < lines.length) :
    ∀ (k : ℕ) (t : ℤ) (i : ℕ),
      emomLoop (numbered 1 lines) t i k =
        some (((List.range k).map fun (j : ℕ) =>
          Event.nextSlot (t + 60 * (j : ℤ)) ((i + j) % lines.length + 1)
            (render_line (lines.getD ((i + j) % lines.length) dummyLine))),
          t + 60 * (k : ℤ)) := by
  intro k
  induction k with
  | zero => intro t i; simp [emomLoop]
  | succ k ih =>
    intro t i
    have hne : (numbered 1 lines).isEmpty = false := by
      cases lines with
      | nil => simp at hN
      | cons a ls => rfl
    have hlen : (numbered 1 lines).length = lines.length := numbered_length lines 1
    have hmod : i % lines.length < lines.length := Nat.mod_lt i hN
    have hlook : (numbered 1 lines).lookup (i % lines.length + 1) =
        some (lines.getD (i % lines.length) dummyLine) := by
      rw [show i % lines.length + 1 = 1 + i % lines.length by omega]
      exact numbered_lookup lines 1 (i % lines.length) hmod
    unfold emomLoop
    rw [hne, hlen, hlook]
    simp only [if_false, Bool.false_eq_true, ih (t + 60) (i + 1), Option.map_some]
    refine congrArg some (Prod.ext ?_ ?_)
    · show Event.nextSlot t _ _ :: _ = _
      rw [List.range_succ_eq_map, List.map_cons, List.map_map]
      refine List.cons_eq_cons.mpr ⟨?_, ?_⟩
      · simp
      · refine List.map_congr_left ?_
        intro j _
        show Event.nextSlot (t + 60 + 60 * (j : ℤ)) _ _ =
          Event.nextSlot (t + 60 * ((j : ℤ) + 1)) _ _
        have h1 : t + 60 + 60 * (j : ℤ) = t + 60 * ((j : ℤ) + 1) := by ring
        have h2 : i + 1 + j = i + (j + 1) := by omega
        rw [h1, h2]
    · show t + 60 + 60 * (k : ℤ) = t + 60 * ((k : ℤ) + 1)
      ring

/-- C1: for an EMOM block of duration `D` whose `N` slot-lines are numbered
`1..N` in order (`N ≥ 1`), the timeline contains `START_BLOCK` at the
block-start clock `t`, then exactly `M = ⌊D/60⌋` `NEXT_SLOT` events, the
`i`-th (for `i ∈ [0,M)`) at time `t + 60·i` carrying slot `(i mod N)+1` and
the `render_line` text of that slot's line, followed by `END_BLOCK` at
`t + 60·M`; `build_timeline` on a program holding just that block emits the
same stream from `t = 0`. -/
theorem c1_emom_timeline (t : ℤ) (d : ℕ) (lines : List Line) (opts : BlockOpts)
    (hN : 0 < lines.length) :
    runSeg t (.block (.emom d) (numberedSlots lines) opts) =
      some (.startBlock t "EMOM" ::
        (((List.range (d / 60)).map fun (i : ℕ) =>
          Event.nextSlot (t + 60 * (i : ℤ)) (i % lines.length + 1)
            (render_line (lines.getD (i % lines.length) dummyLine))) ++
         [.endBlock (t + 60 * ((d / 60 : ℕ) : ℤ))]),
        t + 60 * ((d / 60 : ℕ) : ℤ)) ∧
    ∀ m : WodMeta,
      build_timeline ⟨m, [.block (.emom d) (numberedSlots lines) opts]⟩ =
        some (.startBlock 0 "EMOM" ::
          (((List.range (d / 60)).map fun (i : ℕ) =>
            Event.nextSlot (60 * (i : ℤ)) (i % lines.length + 1)
              (render_line (lines.getD (i % lines.length) dummyLine))) ++
           [.endBlock (60 * ((d / 60 : ℕ) : ℤ))])) := by
  have hrun : ∀ t' : ℤ, runSeg t' (.block (.emom d) (numberedSlots lines) opts) =
      some (.startBlock t' "EMOM" ::
        (((List.range (d / 60)).map fun (i : ℕ) =>
          Event.nextSlot (t' + 60 * (i : ℤ)) (i % lines.length + 1)
            (render_line (lines.getD (i % lines.length) dummyLine))) ++
         [.endBlock (t' + 60 * ((d / 60 : ℕ) : ℤ))]),
        t' + 60 * ((d / 60 : ℕ) : ℤ)) := by
    intro t'
    show (emomLoop (slotsOf (numberedSlots lines)) t' 0 (d / 60)).map _ = _
    rw [slotsOf_numberedSlots, emomLoop_numbered lines hN (d / 60) t' 0]
    simp
  refine ⟨hrun t, ?_⟩
  intro m
  show (runProgram 0 _).map _ = _
  unfold runProgram
  rw [hrun 0]
  simp [runProgram]

/-- C1 witness: `BLOCK EMOM 2:00 { 1: 10 wall_balls; 2: 8 box_jumps; }` at
block start 0 produces slot 1 at 0:00, slot 2 at 1:00, `END_BLOCK` at 2:00. -/
theorem c1_emom_timeline_witness :
    runSeg 0 (.block (.emom 120) (numberedSlots [wbLine, bjLine]) noOpts) =
      some ([.startBlock 0 "EMOM", .nextSlot 0 1 "10 wall_balls",
        .nextSlot 60 2 "8 box_jumps", .endBlock 120], 120) := by
  have h := (c1_emom_timeline 0 120 [wbLine, bjLine] noOpts (by decide)).1
  rw [h]
  decide

/-! ## Helper lemmas: the resolver -/

/-- A successful lookup pairs the key with a stored value. -/
theorem lookup_mem_pairs :
    ∀ (l : List (String × String)) (k v : String), l.lookup k = some v → (k, v) ∈ l := by
  intro l
  induction l with
  | nil => intro k v h; simp [List.lookup] at h
  | cons p rest ih =>
    intro k v h
    cases p with
    | mk a b =>
      by_cases hk : k = a
      · subst hk
        simp only [List.lookup, beq_self_eq_true] at h
        cases h
        exact List.mem_cons_self _ _
      · have hb : (k == a) = false := by simp [hk]
        simp only [List.lookup, hb] at h
        exact List.mem_cons_of_mem _ (ih k v h)

/-- Every alias target is a fixed point of `normalize_mv` (finite check). -/
theorem alias_targets_fixed :
    ∀ p ∈ MOVEMENT_ALIASES, normalize_mv p.2 = p.2 := by decide

/-- Every alias target is a nonempty name (finite check). -/
theorem alias_targets_ne_empty :
    ∀ p ∈ MOVEMENT_ALIASES, p.2 ≠ "" := by decide

/-- `_normalize_mv` is idempotent. -/
theorem normalize_mv_idem (m : String) :
    normalize_mv (normalize_mv m) = normalize_mv m := by
  unfold normalize_mv
  cases h : MOVEMENT_ALIASES.lookup (pyLower m) with
  | none => simp [h]
  | some v =>
    simp only [h, Option.getD_some]
    have hv := alias_targets_fixed _ (lookup_mem_pairs _ _ _ h)
    simpa [normalize_mv] using hv

/-- `_normalize_mv` never turns a name into the empty string. -/
theorem normalize_mv_ne_empty (m : String) (h : m ≠ "") : normalize_mv m ≠ "" := by
  unfold normalize_mv
  cases hl : MOVEMENT_ALIASES.lookup (pyLower m) with
  | none => simpa using h
  | some v =>
    simpa using alias_targets_ne_empty _ (lookup_mem_pairs _ _ _ hl)

/-- `resolve_qty` output is a fixed point of `resolve_qty`. -/
theorem resolve_qty_fix (g : String) (q : Option Qty) :
    resolve_qty g (resolve_qty g q) = resolve_qty g q := by
  cases q with
  | none => rfl
  | some q0 => cases q0 <;> rfl

/-- `resolve_qty` output has no dual kind. -/
theorem resolve_qty_nodual (g : String) (q : Option Qty) :
    (match resolve_qty g q with
     | some (.dual_reps _ _) => False
     | some (.dual_cal _ _) => False
     | some (.dual_distance _ _ _) => False
     | _ => True) := by
  cases q with
  | none => trivial
  | some q0 => cases q0 <;> trivial

/-- `resolve_load` output is a fixed point of `resolve_load`. -/
theorem resolve_load_fix (g : String) (ld : Option Load) :
    resolve_load g (resolve_load g ld) = resolve_load g ld := by
  cases ld with
  | none => rfl
  | some l0 =>
    cases l0 with
    | sload s => rfl
    | dual a b => rfl
    | raw s =>
      cases h : dualLoadMatch s.data with
      | none => simp [resolve_load, h]
      | some p => simp [resolve_load, h]

/-- `resolve_load` output has no dual kind. -/
theorem resolve_load_nodual (g : String) (ld : Option Load) :
    (match resolve_load g ld with
     | some (.dual _ _) => False
     | _ => True) := by
  cases ld with
  | none => trivial
  | some l0 =>
    cases l0 with
    | sload s => trivial
    | dual a b => trivial
    | raw s =>
      cases h : dualLoadMatch s.data with
      | none => simp [resolve_load, h]
      | some p =>
        obtain ⟨a, b, u⟩ := p
        simp [resolve_load, h]

/-- The qty-defaulting chain is a fixed-point operation. -/
theorem catalogQtyFill_fix (mreps mdist mcal : Option ℚ) (q : Option Qty) :
    catalogQtyFill mreps mdist mcal (catalogQtyFill mreps mdist mcal q) =
      catalogQtyFill mreps mdist mcal q := by
  unfold catalogQtyFill
  by_cases hq : qtyMissing q = true
  · simp only [hq, if_true]
    cases mreps with
    | some v => simp [qtyMissing]
    | none =>
      cases mdist with
      | some v =>
        by_cases hv : v = 0
        · subst hv; simp [qtyMissing]
        · simp [qtyMissing, hv]
      | none =>
        cases mcal with
        | some v => simp [qtyMissing]
        | none => simp [hq]
  · simp [hq]

/-- Shapes the qty-defaulting chain can produce. -/
theorem catalogQtyFill_shape (mreps mdist mcal : Option ℚ) (q : Option Qty) :
    catalogQtyFill mreps mdist mcal q = q ∨
    (∃ v, catalogQtyFill mreps mdist mcal q = some (.reps v)) ∨
    (∃ v, catalogQtyFill mreps mdist mcal q = some (.distance v "m")) ∨
    (∃ v, catalogQtyFill mreps mdist mcal q = some (.cal v)) := by
  unfold catalogQtyFill
  by_cases hq : qtyMissing q = true
  · simp only [hq, if_true]
    cases mreps with
    | some v => right; left; exact ⟨_, rfl⟩
    | none =>
      cases mdist with
      | some v => right; right; left; exact ⟨_, rfl⟩
      | none =>
        cases mcal with
        | some v => right; right; right; exact ⟨_, rfl⟩
        | none => left; rfl
  · simp [hq]

/-- The load-defaulting step is a fixed-point operation. -/
theorem catalogLoadFill_fix (mload : Option CatLoadVal) (ld ld' : Option Load)
    (h : catalogLoadFill mload ld = some ld') :
    catalogLoadFill mload ld' = some ld' := by
  cases ld with
  | some l =>
    simp only [catalogLoadFill] at h
    cases h
    rfl
  | none =>
    cases mload with
    | none =>
      simp only [catalogLoadFill] at h
      cases h
      rfl
    | some lv =>
      cases lv with
      | obj l =>
        simp only [catalogLoadFill] at h
        cases h
        rfl
      | str s =>
        simp only [catalogLoadFill] at h
        by_cases hb : brokenNumUnitEndMatches catalogUnitsStr s.data = true
        · simp [hb] at h
        · simp only [hb, if_false, Bool.false_eq_true] at h
          cases h
          simp [catalogLoadFill, hb]

/-- Where a load produced by the load-defaulting step comes from. -/
theorem catalogLoadFill_shape (mload : Option CatLoadVal) (ld ld' : Option Load)
    (h : catalogLoadFill mload ld = some ld') :
    ld' = ld ∨ (ld = none ∧ ∃ l, mload = some (.obj l) ∧ ld' = some l) := by
  cases ld with
  | some l =>
    simp only [catalogLoadFill] at h
    cases h
    exact Or.inl rfl
  | none =>
    cases mload with
    | none =>
      simp only [catalogLoadFill] at h
      cases h
      exact Or.inl rfl
    | some lv =>
      cases lv with
      | obj l =>
        simp only [catalogLoadFill] at h
        cases h
        exact Or.inr ⟨rfl, l, rfl, rfl⟩
      | str s =>
        simp only [catalogLoadFill] at h
        by_cases hb : brokenNumUnitEndMatches catalogUnitsStr s.data = true
        · simp [hb] at h
        · simp only [hb, if_false, Bool.false_eq_true] at h
          cases h
          exact Or.inl rfl

/-- The alias step stabilizes after one application (and produces no note
the second time). -/
theorem mvResolve_stab (x : Option String) :
    mvResolve (mvResolve x).1 = ((mvResolve x).1, []) := by
  cases x with
  | none => rfl
  | some m =>
    by_cases hm : m = ""
    · subst hm; rfl
    · have h1 : mvResolve (some m) =
        (if normalize_mv m ≠ m then (some (normalize_mv m), [⟨"W050", m, normalize_mv m⟩])
         else (some m, [])) := by
        simp [mvResolve, hm]
      by_cases hn : normalize_mv m ≠ m
      · rw [h1, if_pos hn]
        have hne := normalize_mv_ne_empty m hm
        have hidem := normalize_mv_idem m
        simp [mvResolve, hne, hidem]
      · rw [h1, if_neg hn]
        push_neg at hn
        have hne := normalize_mv_ne_empty m hm
        have hidem := normalize_mv_idem m
        simp only [mvResolve]
        rw [if_pos hm]
        simp [hn, hm]

/-- What `apply_catalog_line` can do to a line: movement and flags are
untouched, the qty is kept or becomes a catalog reps/distance/cal, and the
load is kept or (only when absent) becomes a catalog load object. -/
theorem apply_catalog_line_spec (cat : Option Catalog) (tr g : String)
    (l l' : Line) (h : apply_catalog_line cat tr g l = some l') :
    l'.movement = l.movement ∧ l'.flags = l.flags ∧
    (l'.qty = l.qty ∨ (∃ v, l'.qty = some (.reps v)) ∨
     (∃ v, l'.qty = some (.distance v "m")) ∨ (∃ v, l'.qty = some (.cal v))) ∧
    (l'.load = l.load ∨
     ∃ c cm lv mv, cat = some c ∧ l.movement = some mv ∧
       c.movements mv = some cm ∧ cm.load (pyLower tr) g = some (.obj lv) ∧
       l'.load = some lv) := by
  cases cat with
  | none =>
    simp only [apply_catalog_line] at h
    cases h
    exact ⟨rfl, rfl, Or.inl rfl, Or.inl rfl⟩
  | some c =>
    simp only [apply_catalog_line, Option.map_eq_some'] at h
    obtain ⟨nl, h1, h2⟩ := h
    subst h2
    refine ⟨rfl, rfl, ?_, ?_⟩
    · exact catalogQtyFill_shape _ _ _ _
    · rcases catalogLoadFill_shape _ _ _ h1 with heq | ⟨hnone, lv, hml, hnl⟩
      · exact Or.inl heq
      · subst hnl
        rcases hb : (l.movement.bind c.movements) with _ | cm
        · rw [hb] at hml; simp at hml
        · rw [hb] at hml
          simp only [Option.some_bind] at hml
          rcases hmv : l.movement with _ | mv
          · rw [hmv] at hb; simp at hb
          · rw [hmv] at hb
            simp only [Option.some_bind] at hb
            exact Or.inr ⟨c, cm, lv, mv, rfl, rfl, hb, hml, rfl⟩

/-- `apply_catalog_line` stabilizes after one successful application. -/
theorem apply_catalog_line_stab (cat : Option Catalog) (tr g : String)
    (l l' : Line) (h : apply_catalog_line cat tr g l = some l') :
    apply_catalog_line cat tr g l' = some l' := by
  cases cat with
  | none => rfl
  | some c =>
    simp only [apply_catalog_line, Option.map_eq_some'] at h ⊢
    obtain ⟨nl, h1, h2⟩ := h
    subst h2
    refine ⟨nl, ?_, ?_⟩
    · show catalogLoadFill _ nl = some nl
      exact catalogLoadFill_fix _ _ _ h1
    · show (_ : Line) = _
      have hq := catalogQtyFill_fix
        ((l.movement.bind c.movements).bind fun m => m.reps (pyLower tr) g)
        ((l.movement.bind c.movements).bind fun m => m.distance (pyLower tr) g)
        ((l.movement.bind c.movements).bind fun m => m.cal (pyLower tr) g)
        l.qty
      cases l with
      | mk q mv ld fl => simp [hq]

/-- One resolver pass per line stabilizes: a second pass returns the same
line and records no note, provided the catalog's load objects are plain. -/
theorem resolveLine_idem (cat : Option Catalog) (tr g : String)
    (ln ln' : Line) (ns : List Note) (hcat : PlainCatLoads cat)
    (h : resolveLine cat tr g ln = some (ln', ns)) :
    resolveLine cat tr g ln' = some (ln', []) := by
  simp only [resolveLine, Option.map_eq_some'] at h
  obtain ⟨l0, hap, heq⟩ := h
  injection heq with heq1 heq2
  subst heq1
  obtain ⟨hmv1, _, hqshape, hldshape⟩ := apply_catalog_line_spec _ _ _ _ _ hap
  have hstab := apply_catalog_line_stab _ _ _ _ _ hap
  have hmv' : mvResolve l0.movement = (l0.movement, []) := by
    rw [hmv1]
    exact mvResolve_stab ln.movement
  have hq : resolve_qty g l0.qty = l0.qty := by
    rcases hqshape with hq0 | ⟨v, hq0⟩ | ⟨v, hq0⟩ | ⟨v, hq0⟩
    · rw [hq0]
      show resolve_qty g (resolve_qty g ln.qty) = resolve_qty g ln.qty
      exact resolve_qty_fix g ln.qty
    · rw [hq0]; rfl
    · rw [hq0]; rfl
    · rw [hq0]; rfl
  have hld : resolve_load g l0.load = l0.load := by
    rcases hldshape with hl0 | ⟨c, cm, lv, mv, hc, _, hcm, hlv, hl0⟩
    · rw [hl0]
      show resolve_load g (resolve_load g ln.load) = resolve_load g ln.load
      exact resolve_load_fix g ln.load
    · subst hc
      obtain ⟨s, hs⟩ := hcat mv cm hcm (pyLower tr) g lv hlv
      subst hs
      rw [hl0]
      rfl
  obtain ⟨q0, m0, ld0, f0⟩ := l0
  simp only [resolveLine]
  simp only at hmv' hq hld
  rw [hmv', hq, hld] at *
  simp only [Option.map_eq_some']
  exact ⟨⟨q0, m0, ld0, f0⟩, by simpa using hstab, rfl⟩

/-- One resolver pass per line leaves no dual qty and no dual load, provided
the catalog's load objects are plain. -/
theorem resolveLine_nodual (cat : Option Catalog) (tr g : String)
    (ln ln' : Line) (ns : List Note) (hcat : PlainCatLoads cat)
    (h : resolveLine cat tr g ln = some (ln', ns)) :
    lineNoDual ln' = true := by
  simp only [resolveLine, Option.map_eq_some'] at h
  obtain ⟨l0, hap, heq⟩ := h
  injection heq with heq1 heq2
  subst heq1
  obtain ⟨_, _, hqshape, hldshape⟩ := apply_catalog_line_spec _ _ _ _ _ hap
  have hq : (match l0.qty with
      | some (.dual_reps _ _) => False
      | some (.dual_cal _ _) => False
      | some (.dual_distance _ _ _) => False
      | _ => True) := by
    rcases hqshape with hq0 | ⟨v, hq0⟩ | ⟨v, hq0⟩ | ⟨v, hq0⟩ <;> rw [hq0]
    · show (match resolve_qty g ln.qty with
        | some (.dual_reps _ _) => False
        | some (.dual_cal _ _) => False
        | some (.dual_distance _ _ _) => False
        | _ => True)
      exact resolve_qty_nodual g ln.qty
    · trivial
    · trivial
    · trivial
  have hld : (match l0.load with
      | some (.dual _ _) => False
      | _ => True) := by
    rcases hldshape with hl0 | ⟨c, cm, lv, mv, hc, _, hcm, hlv, hl0⟩ <;> rw [hl0]
    · show (match resolve_load g ln.load with
        | some (.dual _ _) => False
        | _ => True)
      exact resolve_load_nodual g ln.load
    · subst hc
      obtain ⟨s, hs⟩ := hcat mv cm hcm (pyLower tr) g lv hlv
      subst hs
      trivial
  unfold lineNoDual
  rw [Bool.and_eq_true]
  constructor
  · cases hq0 : l0.qty with
    | none => rfl
    | some q =>
      rw [hq0] at hq
      cases q <;> first | rfl | exact hq.elim
  · cases hl0 : l0.load with
    | none => rfl
    | some l =>
      rw [hl0] at hld
      cases l <;> first | rfl | exact hld.elim

/-- Block-statement resolution stabilizes after one pass. -/
theorem resolveStmtBlock_idem (cat : Option Catalog) (tr g : String)
    (st st' : Stmt) (ns : List Note) (hcat : PlainCatLoads cat)
    (h : resolveStmtBlock cat tr g st = some (st', ns)) :
    resolveStmtBlock cat tr g st' = some (st', []) := by
  cases st with
  | line l =>
    simp only [resolveStmtBlock, Option.map_eq_some'] at h
    obtain ⟨⟨l', ns'⟩, h1, h2⟩ := h
    injection h2 with h2a h2b
    subst h2a
    have := resolveLine_idem cat tr g l l' ns' hcat h1
    simp [resolveStmtBlock, this]
  | emomLine s l =>
    simp only [resolveStmtBlock, Option.map_eq_some'] at h
    obtain ⟨⟨l', ns'⟩, h1, h2⟩ := h
    injection h2 with h2a h2b
    subst h2a
    have := resolveLine_idem cat tr g l l' ns' hcat h1
    simp [resolveStmtBlock, this]

/-- Intro-statement resolution stabilizes after one pass. -/
theorem resolveStmtIntro_idem (cat : Option Catalog) (tr g : String)
    (st st' : Stmt) (ns : List Note) (hcat : PlainCatLoads cat)
    (h : resolveStmtIntro cat tr g st = some (st', ns)) :
    resolveStmtIntro cat tr g st' = some (st', []) := by
  cases st with
  | line l =>
    simp only [resolveStmtIntro, Option.map_eq_some'] at h
    obtain ⟨⟨l', ns'⟩, h1, h2⟩ := h
    injection h2 with h2a h2b
    subst h2a
    have := resolveLine_idem cat tr g l l' ns' hcat h1
    simp [resolveStmtIntro, this]
  | emomLine s l =>
    simp only [resolveStmtIntro] at h
    injection h with h1
    injection h1 with h2a h2b
    subst h2a
    rfl

/-- Statement-list resolution stabilizes after one pass. -/
theorem resolveStmts_idem (f : Stmt → Option (Stmt × List Note))
    (hf : ∀ st st' ns, f st = some (st', ns) → f st' = some (st', [])) :
    ∀ (ss ss' : List Stmt) (ns : List Note),
      resolveStmts f ss = some (ss', ns) → resolveStmts f ss' = some (ss', []) := by
  intro ss
  induction ss with
  | nil =>
    intro ss' ns h
    simp only [resolveStmts] at h
    injection h with h1
    injection h1 with h1a h1b
    subst h1a
    rfl
  | cons s rest ih =>
    intro ss' ns h
    simp only [resolveStmts] at h
    cases hs : f s with
    | none => rw [hs] at h; simp at h
    | some p =>
      obtain ⟨s1, ns1⟩ := p
      rw [hs] at h
      simp only [Option.map_eq_some'] at h
      obtain ⟨⟨rest1, ns2⟩, hr, heq⟩ := h
      injection heq with heq1 heq2
      subst heq1
      have hstep := hf s s1 ns1 hs
      have hrest := ih rest1 ns2 hr
      simp [resolveStmts, hstep, hrest]

/-- All statements produced by a successful statement-list resolution satisfy
a predicate that each single resolution step guarantees. -/
theorem resolveStmts_all (f : Stmt → Option (Stmt × List Note)) (P : Stmt → Bool) :
    ∀ (ss ss' : List Stmt) (ns : List Note),
      (∀ st ∈ ss, ∀ st' ns', f st = some (st', ns') → P st' = true) →
      resolveStmts f ss = some (ss', ns) → ss'.all P = true := by
  intro ss
  induction ss with
  | nil =>
    intro ss' ns _ h
    simp only [resolveStmts] at h
    injection h with h1
    injection h1 with h1a h1b
    subst h1a
    rfl
  | cons s rest ih =>
    intro ss' ns hf h
    simp only [resolveStmts] at h
    cases hs : f s with
    | none => rw [hs] at h; simp at h
    | some p =>
      obtain ⟨s1, ns1⟩ := p
      rw [hs] at h
      simp only [Option.map_eq_some'] at h
      obtain ⟨⟨rest1, ns2⟩, hr, heq⟩ := h
      injection heq with heq1 heq2
      subst heq1
      have h1 := hf s (by simp) s1 ns1 hs
      have h2 := ih rest1 ns2 (fun st hm => hf st (by simp [hm])) hr
      simp [h1, h2]

/-- Segment resolution stabilizes after one pass. -/
theorem resolveSeg_idem (cat : Option Catalog) (tr g : String)
    (seg seg' : Segment) (ns : List Note) (hcat : PlainCatLoads cat)
    (h : resolveSeg cat tr g seg = some (seg', ns)) :
    resolveSeg cat tr g seg' = some (seg', []) := by
  cases seg with
  | buyin ss =>
    simp only [resolveSeg, Option.map_eq_some'] at h
    obtain ⟨⟨ss1, ns1⟩, h1, h2⟩ := h
    injection h2 with h2a h2b
    subst h2a
    have := resolveStmts_idem _ (fun st st' ns => resolveStmtIntro_idem cat tr g st st' ns hcat)
      ss ss1 ns1 h1
    simp [resolveSeg, this]
  | cashout ss =>
    simp only [resolveSeg, Option.map_eq_some'] at h
    obtain ⟨⟨ss1, ns1⟩, h1, h2⟩ := h
    injection h2 with h2a h2b
    subst h2a
    have := resolveStmts_idem _ (fun st st' ns => resolveStmtIntro_idem cat tr g st st' ns hcat)
      ss ss1 ns1 h1
    simp [resolveSeg, this]
  | block hd ss opts =>
    simp only [resolveSeg, Option.map_eq_some'] at h
    obtain ⟨⟨ss1, ns1⟩, h1, h2⟩ := h
    injection h2 with h2a h2b
    subst h2a
    have := resolveStmts_idem _ (fun st st' ns => resolveStmtBlock_idem cat tr g st st' ns hcat)
      ss ss1 ns1 h1
    simp [resolveSeg, this]
  | rest d =>
    simp only [resolveSeg] at h
    injection h with h1
    injection h1 with h1a h1b
    subst h1a
    rfl
  | trackBlock =>
    simp only [resolveSeg] at h
    injection h with h1
    injection h1 with h1a h1b
    subst h1a
    rfl

/-- Program resolution stabilizes after one pass. -/
theorem resolveProgram_idem (cat : Option Catalog) (tr g : String)
    (hcat : PlainCatLoads cat) :
    ∀ (segs segs' : List Segment) (ns : List Note),
      resolveProgram cat tr g segs = some (segs', ns) →
      resolveProgram cat tr g segs' = some (segs', []) := by
  intro segs
  induction segs with
  | nil =>
    intro segs' ns h
    simp only [resolveProgram] at h
    injection h with h1
    injection h1 with h1a h1b
    subst h1a
    rfl
  | cons seg rest ih =>
    intro segs' ns h
    simp only [resolveProgram] at h
    cases hs : resolveSeg cat tr g seg with
    | none => rw [hs] at h; simp at h
    | some p =>
      obtain ⟨seg1, ns1⟩ := p
      rw [hs] at h
      simp only [Option.map_eq_some'] at h
      obtain ⟨⟨rest1, ns2⟩, hr, heq⟩ := h
      injection heq with heq1 heq2
      subst heq1
      have hstep := resolveSeg_idem cat tr g seg seg1 ns1 hcat hs
      have hrest := ih rest1 ns2 hr
      simp [resolveProgram, hstep, hrest]

/-- C6 (amended): the resolver is idempotent for every AST, track and gender
provided every structured load object supplied by the catalog is a plain
structured load (in particular whenever no catalog is given): a second run
reproduces its first output, including `meta.normalized`, which
`setdefault` leaves at the first run's notes.  The restriction is forced by
the counterexample `c6_counterexample`: a catalog whose load entry is a
`dual` object is installed verbatim by the first run and collapsed to one
branch by the second. -/
theorem c6_resolver_idempotent (cat : Option Catalog) (tr g : String)
    (ast ast' : AST) (hcat : PlainCatLoads cat)
    (h : apply_catalog_and_resolve cat tr g ast = some ast') :
    apply_catalog_and_resolve cat tr g ast' = some ast' := by
  simp only [apply_catalog_and_resolve, Option.map_eq_some'] at h
  obtain ⟨⟨prog', notes⟩, h1, h2⟩ := h
  have hprog := resolveProgram_idem cat tr g hcat ast.program prog' notes h1
  subst h2
  simp only [apply_catalog_and_resolve, hprog, Option.map_some]
  rfl

/-- C6 counterexample: with a catalog supplying a dual load object for
`thrusters`, resolving `BLOCK FT { 5 thrusters; }` once installs the dual
object, and resolving the output again replaces it by its male branch, so
`resolve(resolve(ast)) ≠ resolve(ast)`. -/
theorem c6_counterexample :
    apply_catalog_and_resolve (some dualObjCatalog) "RX" "male" thrAst =
      some thrAstOnce ∧
    apply_catalog_and_resolve (some dualObjCatalog) "RX" "male" thrAstOnce =
      some thrAstTwice ∧
    thrAstOnce ≠ thrAstTwice := by
  refine ⟨by decide, by decide, by decide⟩

/-- C6 witness: idempotence applied with no catalog to the already-resolved
`BLOCK FT { 5 thrusters; }`. -/
theorem c6_resolver_idempotent_witness :
    apply_catalog_and_resolve none "RX" "male"
      ⟨{ emptyMeta with normalized := some [] },
        [.block .ft [.line thrLine] noOpts]⟩ =
    some ⟨{ emptyMeta with normalized := some [] },
        [.block .ft [.line thrLine] noOpts]⟩ :=
  c6_resolver_idempotent none "RX" "male" thrAst _ trivial (by decide)

/-- `List.all` over the flattened line lists of statements. -/
theorem foldr_lines_all (p : Line → Bool) (ss : List Stmt) :
    (ss.foldr (fun st acc => stmtAllLines st ++ acc) []).all p =
      ss.all (fun st => (stmtAllLines st).all p) := by
  induction ss with
  | nil => rfl
  | cons st rest ih => simp [List.all_append, ih]

/-- A resolved block statement carries no dual lines. -/
theorem resolveStmtBlock_nodual (cat : Option Catalog) (tr g : String)
    (st st' : Stmt) (ns : List Note) (hcat : PlainCatLoads cat)
    (h : resolveStmtBlock cat tr g st = some (st', ns)) :
    (stmtAllLines st').all lineNoDual = true := by
  cases st with
  | line l =>
    simp only [resolveStmtBlock, Option.map_eq_some'] at h
    obtain ⟨⟨l', ns'⟩, h1, h2⟩ := h
    injection h2 with h2a h2b
    subst h2a
    simpa [stmtAllLines] using resolveLine_nodual cat tr g l l' ns' hcat h1
  | emomLine s l =>
    simp only [resolveStmtBlock, Option.map_eq_some'] at h
    obtain ⟨⟨l', ns'⟩, h1, h2⟩ := h
    injection h2 with h2a h2b
    subst h2a
    simpa [stmtAllLines] using resolveLine_nodual cat tr g l l' ns' hcat h1

/-- A resolved plain intro statement carries no dual lines. -/
theorem resolveStmtIntro_nodual (cat : Option Catalog) (tr g : String)
    (l : Line) (st' : Stmt) (ns : List Note) (hcat : PlainCatLoads cat)
    (h : resolveStmtIntro cat tr g (.line l) = some (st', ns)) :
    (stmtAllLines st').all lineNoDual = true := by
  simp only [resolveStmtIntro, Option.map_eq_some'] at h
  obtain ⟨⟨l', ns'⟩, h1, h2⟩ := h
  injection h2 with h2a h2b
  subst h2a
  simpa [stmtAllLines] using resolveLine_nodual cat tr g l l' ns' hcat h1

/-- A resolved segment whose intro statements are plain lines carries no
dual lines. -/
theorem resolveSeg_nodual (cat : Option Catalog) (tr g : String)
    (seg seg' : Segment) (ns : List Note) (hcat : PlainCatLoads cat)
    (hintro : introPlain seg = true)
    (h : resolveSeg cat tr g seg = some (seg', ns)) :
    (segAllLines seg').all lineNoDual = true := by
  cases seg with
  | buyin ss =>
    simp only [resolveSeg, Option.map_eq_some'] at h
    obtain ⟨⟨ss1, ns1⟩, h1, h2⟩ := h
    injection h2 with h2a h2b
    subst h2a
    show ((ss1.foldr (fun st acc => stmtAllLines st ++ acc) []).all lineNoDual = true)
    rw [foldr_lines_all]
    refine resolveStmts_all _ _ ss ss1 ns1 ?_ h1
    intro st hmem st' ns' hst
    have hpl := List.all_eq_true.mp (by simpa [introPlain] using hintro) st hmem
    cases st with
    | line l => exact resolveStmtIntro_nodual cat tr g l st' ns' hcat hst
    | emomLine s l => simp at hpl
  | cashout ss =>
    simp only [resolveSeg, Option.map_eq_some'] at h
    obtain ⟨⟨ss1, ns1⟩, h1, h2⟩ := h
    injection h2 with h2a h2b
    subst h2a
    show ((ss1.foldr (fun st acc => stmtAllLines st ++ acc) []).all lineNoDual = true)
    rw [foldr_lines_all]
    refine resolveStmts_all _ _ ss ss1 ns1 ?_ h1
    intro st hmem st' ns' hst
    have hpl := List.all_eq_true.mp (by simpa [introPlain] using hintro) st hmem
    cases st with
    | line l => exact resolveStmtIntro_nodual cat tr g l st' ns' hcat hst
    | emomLine s l => simp at hpl
  | block hd ss opts =>
    simp only [resolveSeg, Option.map_eq_some'] at h
    obtain ⟨⟨ss1, ns1⟩, h1, h2⟩ := h
    injection h2 with h2a h2b
    subst h2a
    show ((ss1.foldr (fun st acc => stmtAllLines st ++ acc) []).all lineNoDual = true)
    rw [foldr_lines_all]
    refine resolveStmts_all _ _ ss ss1 ns1 ?_ h1
    intro st _ st' ns' hst
    exact resolveStmtBlock_nodual cat tr g st st' ns' hcat hst
  | rest d =>
    simp only [resolveSeg] at h
    injection h with h1
    injection h1 with h1a h1b
    subst h1a
    rfl
  | trackBlock =>
    simp only [resolveSeg] at h
    injection h with h1
    injection h1 with h1a h1b
    subst h1a
    rfl

/-- A resolved program (with plain intros) carries no dual lines. -/
theorem resolveProgram_nodual (cat : Option Catalog) (tr g : String)
    (hcat : PlainCatLoads cat) :
    ∀ (segs segs' : List Segment) (ns : List Note),
      (∀ seg ∈ segs, introPlain seg = true) →
      resolveProgram cat tr g segs = some (segs', ns) →
      segs'.all (fun seg => (segAllLines seg).all lineNoDual) = true := by
  intro segs
  induction segs with
  | nil =>
    intro segs' ns _ h
    simp only [resolveProgram] at h
    injection h with h1
    injection h1 with h1a h1b
    subst h1a
    rfl
  | cons seg rest ih =>
    intro segs' ns hintro h
    simp only [resolveProgram] at h
    cases hs : resolveSeg cat tr g seg with
    | none => rw [hs] at h; simp at h
    | some p =>
      obtain ⟨seg1, ns1⟩ := p
      rw [hs] at h
      simp only [Option.map_eq_some'] at h
      obtain ⟨⟨rest1, ns2⟩, hr, heq⟩ := h
      injection heq with heq1 heq2
      subst heq1
      have h1 := resolveSeg_nodual cat tr g seg seg1 ns1 hcat (hintro seg (by simp)) hs
      have h2 := ih rest1 ns2 (fun s hm => hintro s (by simp [hm])) hr
      simp [h1, h2]

/-- C2 (amended): after a successful resolver run no line has a dual qty or
dual load, provided every BUYIN/CASHOUT statement is a plain line and every
structured load object supplied by the catalog is plain.  Both restrictions
are forced: `c2_counterexample` shows an `EMOM_LINE` inside a BUYIN is not
descended into (its dual qty survives), and the `c6_counterexample` catalog
installs a dual load object verbatim. -/
theorem c2_no_dual_after_resolve (cat : Option Catalog) (tr g : String)
    (ast ast' : AST) (hcat : PlainCatLoads cat)
    (hintro : astIntroPlain ast = true)
    (h : apply_catalog_and_resolve cat tr g ast = some ast') :
    astNoDual ast' = true := by
  simp only [apply_catalog_and_resolve, Option.map_eq_some'] at h
  obtain ⟨⟨prog', notes⟩, h1, h2⟩ := h
  have := resolveProgram_nodual cat tr g hcat ast.program prog' notes
    (List.all_eq_true.mp (by simpa [astIntroPlain] using hintro)) h1
  subst h2
  simpa [astNoDual] using this

/-- C2 counterexample: the resolver does not descend into an `EMOM_LINE`
inside a BUYIN (line 336 iterates the raw statement dicts), so the dual-reps
qty of `BUYIN { 1: 15/12 row; }` survives resolution. -/
theorem c2_counterexample :
    apply_catalog_and_resolve none "RX" "male" buyinEmomAst =
      some ⟨{ emptyMeta with normalized := some [] },
        [.buyin [.emomLine 1 dualRepsLine]]⟩ ∧
    astNoDual ⟨{ emptyMeta with normalized := some [] },
        [.buyin [.emomLine 1 dualRepsLine]]⟩ = false := by
  refine ⟨by decide, by decide⟩

/-- C2 witness: the amended invariant applied to the resolved form of
`BLOCK FT { 15/12 cal row; }` (gender female, no catalog). -/
theorem c2_no_dual_after_resolve_witness :
    astNoDual ⟨{ emptyMeta with normalized := some [] },
      [.block .ft [.line ⟨some (.cal 12), some "row", none, []⟩] noOpts]⟩ = true :=
  c2_no_dual_after_resolve none "RX" "female" calRowAst _ trivial (by decide) (by decide)

/-! ## Helper lemmas: fmt normalization -/

/-- `dropWhile` is idempotent. -/
theorem dropWhile_idem (p : Char → Bool) :
    ∀ x : List Char, (x.dropWhile p).dropWhile p = x.dropWhile p := by
  intro x
  induction x with
  | nil => rfl
  | cons c rest ih =>
    by_cases hc : p c = true
    · rw [List.dropWhile_cons_of_pos hc]
      exact ih
    · rw [List.dropWhile_cons_of_neg (by simpa using hc),
        List.dropWhile_cons_of_neg (by simpa using hc)]

/-- `dropWhile` does nothing when no element matches. -/
theorem dropWhile_of_none (p : Char → Bool) (x : List Char)
    (h : ∀ c ∈ x, p c = false) : x.dropWhile p = x := by
  cases x with
  | nil => rfl
  | cons c rest =>
    exact List.dropWhile_cons_of_neg (by simp [h c (by simp)])

/-- `pyRstrip` is idempotent. -/
theorem pyRstrip_idem (l : List Char) : pyRstrip (pyRstrip l) = pyRstrip l := by
  unfold pyRstrip
  rw [List.reverse_reverse, dropWhile_idem]

/-- `pyRstrip` keeps only characters of the input. -/
theorem pyRstrip_subset (l : List Char) : ∀ c ∈ pyRstrip l, c ∈ l := by
  intro c hc
  unfold pyRstrip at hc
  rw [List.mem_reverse] at hc
  have := (List.dropWhile_sublist (l := l.reverse) (p := isPyWs)).subset hc
  simpa using this

/-- `rstripNl` after appending characters. -/
theorem rstripNl_append (a b : List Char) :
    rstripNl (a ++ b) = if rstripNl b = [] then rstripNl a else a ++ rstripNl b := by
  unfold rstripNl
  rw [List.reverse_append, List.dropWhile_append]
  by_cases hb : (b.reverse.dropWhile (· = '\n')).isEmpty = true
  · rw [if_pos hb]
    rw [if_pos (by simpa [List.isEmpty_iff] using hb)]
  · rw [if_neg hb]
    rw [if_neg (by simpa [List.isEmpty_iff] using hb)]
    rw [List.reverse_append, List.reverse_reverse]

/-- `rstripNl` does nothing on a newline-free list. -/
theorem rstripNl_of_nlfree (l : List Char) (h : '\n' ∉ l) : rstripNl l = l := by
  unfold rstripNl
  rw [dropWhile_of_none]
  · exact List.reverse_reverse l
  · intro c hc
    rw [List.mem_reverse] at hc
    simp only [decide_eq_false_iff_not]
    intro hcEq
    exact h (hcEq ▸ hc)

/-- `rstripNl` swallows a trailing newline. -/
theorem rstripNl_append_nl (x : List Char) : rstripNl (x ++ ['\n']) = rstripNl x := by
  rw [rstripNl_append]
  simp [rstripNl]

/-- Lines produced by `splitlines` contain no newline. -/
theorem splitlines_nlfree (t : List Char) :
    ∀ l ∈ splitlines t, '\n' ∉ l := by
  induction t with
  | nil => intro l hl; simp [splitlines] at hl
  | cons c rest ih =>
    intro l hl
    simp only [splitlines] at hl
    by_cases hc : c = '\n'
    · rw [if_pos hc] at hl
      rcases List.mem_cons.mp hl with h1 | h2
      · subst h1; simp
      · exact ih l h2
    · rw [if_neg hc] at hl
      cases hsp : splitlines rest with
      | nil =>
        rw [hsp] at hl
        have hl' : l = [c] := by simpa using hl
        subst hl'
        intro hm
        rcases List.mem_cons.mp hm with h1 | h2
        · exact hc h1.symm
        · simp at h2
      | cons l0 ls =>
        rw [hsp] at hl
        rcases List.mem_cons.mp hl with h1 | h2
        · subst h1
          intro hm
          rcases List.mem_cons.mp hm with h1 | h2
          · exact hc h1.symm
          · exact ih l0 (by rw [hsp]; exact List.mem_cons_self _ _) h2
        · exact ih l (by rw [hsp]; exact List.mem_cons_of_mem _ h2)

/-- `splitlines` after a newline-free prefix and an explicit newline. -/
theorem splitlines_append_nl (l s : List Char) (h : '\n' ∉ l) :
    splitlines (l ++ '\n' :: s) = l :: splitlines s := by
  induction l with
  | nil => simp [splitlines]
  | cons c rest ih =>
    have hc : c ≠ '\n' := by intro hcEq; exact h (by simp [hcEq])
    have hrest : '\n' ∉ rest := by intro hm; exact h (by simp [hm])
    show splitlines (c :: (rest ++ '\n' :: s)) = (c :: rest) :: splitlines s
    simp only [splitlines, if_neg hc, ih hrest]

/-- `splitlines` of a nonempty newline-free list is that single line. -/
theorem splitlines_of_nlfree (l : List Char) (h : '\n' ∉ l) (hne : l ≠ []) :
    splitlines l = [l] := by
  induction l with
  | nil => exact absurd rfl hne
  | cons c rest ih =>
    have hc : c ≠ '\n' := by intro hcEq; exact h (by simp [hcEq])
    show splitlines (c :: rest) = [c :: rest]
    simp only [splitlines, if_neg hc]
    cases hr : rest with
    | nil => simp [splitlines]
    | cons d ds =>
      have := ih (by intro hm; exact h (by simp [hm])) (by simp [hr])
      rw [← hr, this]

/-- `processLines` output satisfies the no-adjacent-blank chain invariant. -/
theorem processLines_goodChain :
    ∀ (ls : List (List Char)) (prev : Bool),
      goodChain prev (processLines ls prev) = true := by
  intro ls
  induction ls with
  | nil => intro prev; rfl
  | cons l rest ih =>
    intro prev
    show goodChain prev
      (if ((pyRstrip l).isEmpty && prev) = true then processLines rest prev
       else pyRstrip l :: processLines rest (pyRstrip l).isEmpty) = true
    by_cases hb : ((pyRstrip l).isEmpty && prev) = true
    · rw [if_pos hb]
      exact ih prev
    · rw [if_neg hb]
      show ((!((pyRstrip l).isEmpty && prev)) && _) = true
      rw [Bool.and_eq_true]
      refine ⟨?_, ih (pyRstrip l).isEmpty⟩
      cases hx : ((pyRstrip l).isEmpty && prev) with
      | false => rfl
      | true => exact absurd hx hb

/-- Every `processLines` output line is a `pyRstrip` fixed point. -/
theorem processLines_rstripped :
    ∀ (ls : List (List Char)) (prev : Bool),
      ∀ l ∈ processLines ls prev, pyRstrip l = l := by
  intro ls
  induction ls with
  | nil => intro prev l hl; simp [processLines] at hl
  | cons l0 rest ih =>
    intro prev l hl
    have hl' : l ∈
        (if ((pyRstrip l0).isEmpty && prev) = true then processLines rest prev
         else pyRstrip l0 :: processLines rest (pyRstrip l0).isEmpty) := hl
    by_cases hb : ((pyRstrip l0).isEmpty && prev) = true
    · rw [if_pos hb] at hl'
      exact ih prev l hl'
    · rw [if_neg hb] at hl'
      rcases List.mem_cons.mp hl' with h1 | h2
      · subst h1; exact pyRstrip_idem l0
      · exact ih (pyRstrip l0).isEmpty l h2

/-- `processLines` output lines are newline-free when the inputs are. -/
theorem processLines_nlfree :
    ∀ (ls : List (List Char)) (prev : Bool),
      (∀ l ∈ ls, '\n' ∉ l) →
      ∀ l ∈ processLines ls prev, '\n' ∉ l := by
  intro ls
  induction ls with
  | nil => intro prev _ l hl; simp [processLines] at hl
  | cons l0 rest ih =>
    intro prev hin l hl
    have hl' : l ∈
        (if ((pyRstrip l0).isEmpty && prev) = true then processLines rest prev
         else pyRstrip l0 :: processLines rest (pyRstrip l0).isEmpty) := hl
    by_cases hb : ((pyRstrip l0).isEmpty && prev) = true
    · rw [if_pos hb] at hl'
      exact ih prev (fun x hx => hin x (by simp [hx])) l hl'
    · rw [if_neg hb] at hl'
      rcases List.mem_cons.mp hl' with h1 | h2
      · subst h1
        intro hm
        exact hin l0 (by simp) (pyRstrip_subset l0 _ hm)
      · exact ih (pyRstrip l0).isEmpty (fun x hx => hin x (by simp [hx])) l h2

/-- `processLines` does nothing on an already-processed list. -/
theorem processLines_stable :
    ∀ (ls : List (List Char)) (prev : Bool),
      (∀ l ∈ ls, pyRstrip l = l) → goodChain prev ls = true →
      processLines ls prev = ls := by
  intro ls
  induction ls with
  | nil => intro prev _ _; rfl
  | cons l0 rest ih =>
    intro prev hstr hchain
    have h0 : pyRstrip l0 = l0 := hstr l0 (by simp)
    have hchain' : ((!(l0.isEmpty && prev)) && goodChain l0.isEmpty rest) = true := hchain
    rw [Bool.and_eq_true] at hchain'
    have hb : (l0.isEmpty && prev) = false := by
      cases hx : (l0.isEmpty && prev) with
      | false => rfl
      | true => rw [hx] at hchain'; simp at hchain'
    show (if ((pyRstrip l0).isEmpty && prev) = true then _ else _) = _
    rw [h0, if_neg (by simp [hb])]
    rw [ih l0.isEmpty (fun x hx => hstr x (by simp [hx])) hchain'.2]

/-- `stripTrailEmpty` preserves the chain invariant's truth. -/
theorem stripTrailEmpty_goodChain :
    ∀ (ls : List (List Char)) (prev : Bool),
      goodChain prev ls = true → goodChain prev (stripTrailEmpty ls) = true := by
  intro ls
  induction ls with
  | nil => intro prev h; exact h
  | cons l0 rest ih =>
    intro prev h
    cases rest with
    | nil =>
      show goodChain prev (if l0.isEmpty = true then [] else [l0]) = true
      by_cases he : l0.isEmpty = true
      · rw [if_pos he]; rfl
      · rw [if_neg he]; exact h
    | cons l1 rs =>
      show goodChain prev (l0 :: stripTrailEmpty (l1 :: rs)) = true
      have h' : ((!(l0.isEmpty && prev)) && goodChain l0.isEmpty (l1 :: rs)) = true := h
      rw [Bool.and_eq_true] at h'
      show ((!(l0.isEmpty && prev)) && goodChain l0.isEmpty (stripTrailEmpty (l1 :: rs))) = true
      rw [Bool.and_eq_true]
      exact ⟨h'.1, ih l0.isEmpty h'.2⟩

/-- `stripTrailEmpty` is idempotent under the chain invariant. -/
theorem stripTrailEmpty_idem :
    ∀ (ls : List (List Char)) (prev : Bool),
      goodChain prev ls = true →
      stripTrailEmpty (stripTrailEmpty ls) = stripTrailEmpty ls := by
  intro ls
  induction ls with
  | nil => intro prev _; rfl
  | cons l0 rest ih =>
    intro prev h
    cases rest with
    | nil =>
      by_cases he : l0.isEmpty = true
      · show stripTrailEmpty (if l0.isEmpty = true then [] else [l0]) =
          (if l0.isEmpty = true then [] else [l0])
        rw [if_pos he]
        rfl
      · show stripTrailEmpty (if l0.isEmpty = true then [] else [l0]) =
          (if l0.isEmpty = true then [] else [l0])
        rw [if_neg he]
        show (if l0.isEmpty = true then ([] : List (List Char)) else [l0]) = [l0]
        rw [if_neg he]
    | cons l1 rs =>
      have h' : ((!(l0.isEmpty && prev)) && goodChain l0.isEmpty (l1 :: rs)) = true := h
      rw [Bool.and_eq_true] at h'
      have htail := ih l0.isEmpty h'.2
      show stripTrailEmpty (l0 :: stripTrailEmpty (l1 :: rs)) = l0 :: stripTrailEmpty (l1 :: rs)
      cases hst : stripTrailEmpty (l1 :: rs) with
      | nil =>
        have hl0 : l0.isEmpty = false := by
          cases rs with
          | nil =>
            by_cases he1 : l1.isEmpty = true
            · have h2 : ((!(l1.isEmpty && l0.isEmpty)) && goodChain l1.isEmpty ([] : List (List Char))) = true := h'.2
              rw [Bool.and_eq_true] at h2
              cases hl0e : l0.isEmpty with
              | false => rfl
              | true =>
                exfalso
                have hx := h2.1
                rw [he1, hl0e] at hx
                simp at hx
            · exfalso
              have hse : stripTrailEmpty [l1] = [l1] := by
                show (if l1.isEmpty = true then ([] : List (List Char)) else [l1]) = [l1]
                rw [if_neg he1]
              rw [hse] at hst
              cases hst
          | cons l2 rs2 =>
            exfalso
            have hse : stripTrailEmpty (l1 :: l2 :: rs2) = l1 :: stripTrailEmpty (l2 :: rs2) := rfl
            rw [hse] at hst
            cases hst
        show (if l0.isEmpty = true then ([] : List (List Char)) else [l0]) = [l0]
        rw [hl0]
        simp
      | cons m ms =>
        show l0 :: stripTrailEmpty (m :: ms) = l0 :: (m :: ms)
        rw [← hst, htail, hst]

/-- `joinNl` over a cons with nonempty tail. -/
theorem joinNl_cons_ne (x : List Char) (M : List (List Char)) (h : M ≠ []) :
    joinNl (x :: M) = x ++ '\n' :: joinNl M := by
  cases M with
  | nil => exact absurd rfl h
  | cons m ms => rfl

/-- When the joined stripped tail is empty, the stripped tail is empty. -/
theorem stripTE_nil_of_join_nil (prev : Bool) (l1 : List Char)
    (rs : List (List Char)) (hch : goodChain prev (l1 :: rs) = true)
    (hJ0 : joinNl (stripTrailEmpty (l1 :: rs)) = []) :
    stripTrailEmpty (l1 :: rs) = [] := by
  cases rs with
  | nil =>
    by_cases he : l1.isEmpty = true
    · show (if l1.isEmpty = true then ([] : List (List Char)) else [l1]) = []
      rw [if_pos he]
    · exfalso
      have hse : stripTrailEmpty [l1] = [l1] := by
        show (if l1.isEmpty = true then ([] : List (List Char)) else [l1]) = [l1]
        rw [if_neg he]
      rw [hse] at hJ0
      have : l1 = [] := hJ0
      rw [List.isEmpty_iff] at he
      exact he this
  | cons r rs' =>
    exfalso
    have hstep : stripTrailEmpty (l1 :: r :: rs') = l1 :: stripTrailEmpty (r :: rs') := rfl
    rw [hstep] at hJ0
    cases hM : stripTrailEmpty (r :: rs') with
    | nil =>
      rw [hM] at hJ0
      have hl1 : l1 = [] := hJ0
      have hre : r.isEmpty = true ∧ rs' = [] := by
        cases rs' with
        | nil =>
          by_cases hr : r.isEmpty = true
          · exact ⟨hr, rfl⟩
          · exfalso
            have : stripTrailEmpty [r] = [r] := by
              show (if r.isEmpty = true then ([] : List (List Char)) else [r]) = [r]
              rw [if_neg hr]
            rw [this] at hM
            cases hM
        | cons r2 rs2 =>
          exfalso
          have : stripTrailEmpty (r :: r2 :: rs2) = r :: stripTrailEmpty (r2 :: rs2) := rfl
          rw [this] at hM
          cases hM
      obtain ⟨hre1, hre2⟩ := hre
      subst hre2
      have hch1 : ((!(l1.isEmpty && prev)) && goodChain l1.isEmpty [r]) = true := hch
      rw [Bool.and_eq_true] at hch1
      have hch2 : ((!(r.isEmpty && l1.isEmpty)) && goodChain r.isEmpty ([] : List (List Char))) = true := hch1.2
      rw [Bool.and_eq_true] at hch2
      have := hch2.1
      rw [hre1, show l1.isEmpty = true by simp [hl1]] at this
      simp at this
    | cons m ms =>
      rw [hM, joinNl_cons_ne l1 (m :: ms) (by simp)] at hJ0
      cases l1 with
      | nil => cases hJ0
      | cons a as => cases hJ0

/-- Stripping the final newline run of a joined good chain removes exactly
the trailing blank line. -/
theorem rstrip_join :
    ∀ (L : List (List Char)) (prev : Bool),
      (∀ l ∈ L, '\n' ∉ l) → goodChain prev L = true →
      rstripNl (joinNl L) = joinNl (stripTrailEmpty L) := by
  intro L
  induction L with
  | nil => intro prev _ _; rfl
  | cons l0 rest ih =>
    intro prev hnl hch
    have hch' : ((!(l0.isEmpty && prev)) && goodChain l0.isEmpty rest) = true := hch
    rw [Bool.and_eq_true] at hch'
    cases rest with
    | nil =>
      show rstripNl l0 = joinNl (if l0.isEmpty = true then [] else [l0])
      have h0 : rstripNl l0 = l0 := rstripNl_of_nlfree l0 (hnl l0 (by simp))
      by_cases he : l0.isEmpty = true
      · rw [if_pos he, h0]
        rw [List.isEmpty_iff] at he
        exact he
      · rw [if_neg he, h0]
        rfl
    | cons l1 rs =>
      have hJ := ih l0.isEmpty (fun x hx => hnl x (by simp [hx])) hch'.2
      show rstripNl (l0 ++ '\n' :: joinNl (l1 :: rs)) =
        joinNl (l0 :: stripTrailEmpty (l1 :: rs))
      rw [show ('\n' :: joinNl (l1 :: rs)) = ['\n'] ++ joinNl (l1 :: rs) from rfl]
      rw [rstripNl_append l0 (['\n'] ++ joinNl (l1 :: rs))]
      rw [rstripNl_append ['\n'] (joinNl (l1 :: rs))]
      rw [hJ]
      by_cases hJ0 : joinNl (stripTrailEmpty (l1 :: rs)) = []
      · rw [if_pos hJ0]
        rw [show rstripNl ['\n'] = [] from rfl]
        rw [if_pos rfl]
        have hse := stripTE_nil_of_join_nil l0.isEmpty l1 rs hch'.2 hJ0
        rw [hse]
        exact rstripNl_of_nlfree l0 (hnl l0 (by simp))
      · rw [if_neg hJ0]
        have hne2 : ('\n' :: joinNl (stripTrailEmpty (l1 :: rs)) : List Char) ≠ [] := by simp
        rw [show (['\n'] ++ joinNl (stripTrailEmpty (l1 :: rs)) : List Char) =
          '\n' :: joinNl (stripTrailEmpty (l1 :: rs)) from rfl]
        rw [if_neg hne2]
        have hMne : stripTrailEmpty (l1 :: rs) ≠ [] := by
          intro hM
          rw [hM] at hJ0
          exact hJ0 rfl
        rw [joinNl_cons_ne l0 _ hMne]

/-- `rstripNl` is idempotent. -/
theorem rstripNl_idem (l : List Char) : rstripNl (rstripNl l) = rstripNl l := by
  unfold rstripNl
  rw [List.reverse_reverse, dropWhile_idem]

/-- `stripTrailEmpty` keeps only elements of the input. -/
theorem stripTE_subset :
    ∀ (L : List (List Char)), ∀ l ∈ stripTrailEmpty L, l ∈ L := by
  intro L
  induction L with
  | nil =>
    intro l hl
    rw [show stripTrailEmpty [] = [] from rfl] at hl
    simp at hl
  | cons l0 rest ih =>
    intro l hl
    cases rest with
    | nil =>
      by_cases he : l0.isEmpty = true
      · exfalso
        have : stripTrailEmpty [l0] = [] := by
          show (if l0.isEmpty = true then ([] : List (List Char)) else [l0]) = []
          rw [if_pos he]
        rw [this] at hl
        simp at hl
      · have : stripTrailEmpty [l0] = [l0] := by
          show (if l0.isEmpty = true then ([] : List (List Char)) else [l0]) = [l0]
          rw [if_neg he]
        rw [this] at hl
        exact hl
    | cons l1 rs =>
      have : stripTrailEmpty (l0 :: l1 :: rs) = l0 :: stripTrailEmpty (l1 :: rs) := rfl
      rw [this] at hl
      rcases List.mem_cons.mp hl with h1 | h2
      · simp [h1]
      · exact List.mem_cons_of_mem _ (ih l h2)

/-- Scanning past a non-newline head. -/
theorem has3nl_cons_of_ne (c : Char) (t : List Char) (hc : c ≠ '\n') :
    has3nl (c :: t) = has3nl t := by
  cases t with
  | nil => rfl
  | cons b rest =>
    cases rest with
    | nil => rfl
    | cons d rest2 =>
      show ((decide (c = '\n') && decide (b = '\n') && decide (d = '\n')) ||
        has3nl (b :: d :: rest2)) = has3nl (b :: d :: rest2)
      simp [hc]

/-- Scanning past a newline-free prefix. -/
theorem has3nl_append_nlfree (l s : List Char) (h : '\n' ∉ l) :
    has3nl (l ++ s) = has3nl s := by
  induction l with
  | nil => rfl
  | cons c rest ih =>
    have hc : c ≠ '\n' := by intro hcEq; exact h (by simp [hcEq])
    show has3nl (c :: (rest ++ s)) = has3nl s
    rw [has3nl_cons_of_ne c _ hc]
    exact ih (by intro hm; exact h (by simp [hm]))

/-- Scanning past a single newline whose next two characters are not both
newlines. -/
theorem has3nl_cons_nl (X : List Char) (h : X.take 2 = ['\n', '\n'] → False) :
    has3nl ('\n' :: X) = has3nl X := by
  cases X with
  | nil => rfl
  | cons x1 rest =>
    cases rest with
    | nil => rfl
    | cons x2 rest2 =>
      show ((decide (('\n' : Char) = '\n') && decide (x1 = '\n') && decide (x2 = '\n')) ||
        has3nl (x1 :: x2 :: rest2)) = has3nl (x1 :: x2 :: rest2)
      have : ¬(x1 = '\n' ∧ x2 = '\n') := by
        intro ⟨h1, h2⟩
        exact h (by simp [h1, h2])
      by_cases h1 : x1 = '\n'
      · have h2 : x2 ≠ '\n' := fun h2 => this ⟨h1, h2⟩
        simp [h2]
      · simp [h1]

/-- A joined good chain followed by one newline has no triple newline. -/
theorem has3nl_join :
    ∀ (L : List (List Char)) (prev : Bool),
      (∀ l ∈ L, '\n' ∉ l) → goodChain prev L = true →
      has3nl (joinNl L ++ ['\n']) = false := by
  intro L
  induction L with
  | nil => intro prev _ _; rfl
  | cons l0 rest ih =>
    intro prev hnl hch
    have hch' : ((!(l0.isEmpty && prev)) && goodChain l0.isEmpty rest) = true := hch
    rw [Bool.and_eq_true] at hch'
    cases rest with
    | nil =>
      show has3nl (l0 ++ ['\n']) = false
      rw [has3nl_append_nlfree l0 _ (hnl l0 (by simp))]
      rfl
    | cons l1 rs =>
      show has3nl ((l0 ++ '\n' :: joinNl (l1 :: rs)) ++ ['\n']) = false
      rw [List.append_assoc]
      rw [has3nl_append_nlfree l0 _ (hnl l0 (by simp))]
      show has3nl ('\n' :: (joinNl (l1 :: rs) ++ ['\n'])) = false
      rw [has3nl_cons_nl]
      · exact ih l0.isEmpty (fun x hx => hnl x (by simp [hx])) hch'.2
      · intro htake
        cases hl1 : l1 with
        | cons c cs =>
          rw [hl1] at htake
          have hc : c ≠ '\n' := by
            intro hcEq
            exact hnl l1 (by simp) (by rw [hl1]; simp [hcEq])
          cases rs with
          | nil => simp [joinNl] at htake; exact hc htake.1
          | cons r rs' => simp [joinNl] at htake; exact hc htake.1
        | nil =>
          rw [hl1] at htake
          cases rs with
          | nil => simp [joinNl] at htake
          | cons r rs' =>
            have hch2 : ((!(l1.isEmpty && l0.isEmpty)) &&
                goodChain l1.isEmpty (r :: rs')) = true := hch'.2
            rw [Bool.and_eq_true] at hch2
            have hch3 : ((!(r.isEmpty && l1.isEmpty)) &&
                goodChain r.isEmpty rs') = true := hch2.2
            rw [Bool.and_eq_true] at hch3
            have hr : r.isEmpty = false := by
              cases hx : r.isEmpty with
              | false => rfl
              | true =>
                exfalso
                have := hch3.1
                rw [hx, hl1] at this
                simp at this
            cases hrc : r with
            | nil => rw [hrc] at hr; simp at hr
            | cons d ds =>
              have hd : d ≠ '\n' := by
                intro hdEq
                exact hnl r (by simp) (by rw [hrc]; simp [hdEq])
              rw [hrc] at htake
              obtain ⟨t, ht⟩ : ∃ t, joinNl ((d :: ds) :: rs') = d :: t := by
                cases rs' with
                | nil => exact ⟨ds, rfl⟩
                | cons a b => exact ⟨ds ++ '\n' :: joinNl (a :: b), rfl⟩
              rw [show joinNl ([] :: (d :: ds) :: rs') =
                '\n' :: joinNl ((d :: ds) :: rs') from rfl, ht] at htake
              simp at htake
              exact hd htake

/-- `splitlines` inverts joining newline-free lines plus a final newline. -/
theorem splitlines_join :
    ∀ (L : List (List Char)), L ≠ [] → (∀ l ∈ L, '\n' ∉ l) →
      splitlines (joinNl L ++ ['\n']) = L := by
  intro L
  induction L with
  | nil => intro h _; exact absurd rfl h
  | cons l rest ih =>
    intro _ hnl
    cases rest with
    | nil =>
      show splitlines (l ++ '\n' :: []) = [l]
      rw [splitlines_append_nl l [] (hnl l (by simp))]
      rfl
    | cons m ms =>
      show splitlines ((l ++ '\n' :: joinNl (m :: ms)) ++ ['\n']) = l :: m :: ms
      rw [List.append_assoc]
      show splitlines (l ++ '\n' :: (joinNl (m :: ms) ++ ['\n'])) = l :: m :: ms
      rw [splitlines_append_nl l _ (hnl l (by simp))]
      rw [ih (by simp) (fun x hx => hnl x (by simp [hx]))]


/-- A text whose body is `rstripNl`-fixed, plus one newline, ends with
exactly one newline. -/
theorem endsExactlyOneNl_of_fixed (W : List Char) (h : rstripNl W = W) :
    endsExactlyOneNl (W ++ ['\n']) = true := by
  have hgoal : (match W.reverse with
      | '\n' :: _ => false
      | _ => true) = true := by
    cases hw : W.reverse with
    | nil => rfl
    | cons c rest =>
      have hc : c ≠ '\n' := by
        intro hcEq
        subst hcEq
        have h1 : rstripNl W = (rest.dropWhile (· = '\n')).reverse := by
          unfold rstripNl
          rw [hw, List.dropWhile_cons_of_pos (by simp)]
        have h2 : (rstripNl W).length ≤ rest.length := by
          rw [h1]
          have hs : List.Sublist (rest.dropWhile (· = '\n')) rest :=
            List.dropWhile_sublist _
          simpa using hs.length_le
        rw [h] at h2
        have h3 : W.length = rest.length + 1 := by
          have := congrArg List.length hw
          simpa using this
        omega
      split
      · next heq =>
        exfalso
        injection heq with h1 h2
        exact hc h1
      · rfl
  unfold endsExactlyOneNl
  rw [List.reverse_append]
  show (match ('\n' :: W.reverse : List Char) with
    | '\n' :: rest =>
      match rest with
      | '\n' :: _ => false
      | _ => true
    | _ => false) = true
  exact hgoal

/-- C8: `_normalize_wod_text` is idempotent, its output never contains three
consecutive newlines, and its output always ends with exactly one trailing
newline. -/
theorem c8_fmt_normalize_props (text : List Char) :
    normalize_wod_text (normalize_wod_text text) = normalize_wod_text text ∧
    has3nl (normalize_wod_text text) = false ∧
    endsExactlyOneNl (normalize_wod_text text) = true := by
  have hnlL : ∀ l ∈ processLines (splitlines text) false, '\n' ∉ l :=
    processLines_nlfree _ _ (splitlines_nlfree text)
  have hchL : goodChain false (processLines (splitlines text) false) = true :=
    processLines_goodChain _ _
  have hstrL : ∀ l ∈ processLines (splitlines text) false, pyRstrip l = l :=
    processLines_rstripped _ _
  have hmain : normalize_wod_text text =
      joinNl (stripTrailEmpty (processLines (splitlines text) false)) ++ ['\n'] := by
    unfold normalize_wod_text
    rw [rstrip_join _ false hnlL hchL]
  have hsub := stripTE_subset (processLines (splitlines text) false)
  have hnlM : ∀ l ∈ stripTrailEmpty (processLines (splitlines text) false), '\n' ∉ l :=
    fun l hl => hnlL l (hsub l hl)
  have hstrM : ∀ l ∈ stripTrailEmpty (processLines (splitlines text) false),
      pyRstrip l = l := fun l hl => hstrL l (hsub l hl)
  have hchM : goodChain false (stripTrailEmpty (processLines (splitlines text) false)) = true :=
    stripTrailEmpty_goodChain _ false hchL
  have hMM : stripTrailEmpty (stripTrailEmpty (processLines (splitlines text) false)) =
      stripTrailEmpty (processLines (splitlines text) false) :=
    stripTrailEmpty_idem _ false hchL
  have hfix : rstripNl (joinNl (stripTrailEmpty (processLines (splitlines text) false))) =
      joinNl (stripTrailEmpty (processLines (splitlines text) false)) := by
    rw [← rstrip_join _ false hnlL hchL]
    exact rstripNl_idem _
  refine ⟨?_, ?_, ?_⟩
  · by_cases hM0 : stripTrailEmpty (processLines (splitlines text) false) = []
    · rw [hmain, hM0]
      rfl
    · have hsplit := splitlines_join _ hM0 hnlM
      rw [hmain]
      show rstripNl (joinNl (processLines
        (splitlines (joinNl (stripTrailEmpty (processLines (splitlines text) false)) ++
          ['\n'])) false)) ++ ['\n'] = _
      rw [hsplit, processLines_stable _ false hstrM hchM,
        rstrip_join _ false hnlM hchM, hMM]
  · rw [hmain]
    exact has3nl_join _ false hnlM hchM
  · rw [hmain]
    exact endsExactlyOneNl_of_fixed _ hfix

/-! ## Helper lemmas: decimal digits and token classifiers -/

/-- `natCharsAux` ignores the fuel once it exceeds the value. -/
theorem natCharsAux_fuel :
    ∀ (n f₁ f₂ : ℕ), n < f₁ → n < f₂ → natCharsAux f₁ n = natCharsAux f₂ n := by
  intro n
  induction n using Nat.strong_induction_on with
  | _ n ih =>
    intro f₁ f₂ h₁ h₂
    cases f₁ with
    | zero => omega
    | succ g₁ =>
      cases f₂ with
      | zero => omega
      | succ g₂ =>
        show (if n < 10 then [digitChar n]
          else natCharsAux g₁ (n / 10) ++ [digitChar (n % 10)]) =
          (if n < 10 then [digitChar n]
            else natCharsAux g₂ (n / 10) ++ [digitChar (n % 10)])
        by_cases hn : n < 10
        · rw [if_pos hn, if_pos hn]
        · rw [if_neg hn, if_neg hn]
          rw [ih (n / 10) (by omega) g₁ g₂ (by omega) (by omega)]

/-- The recursive unfolding of `natChars`. -/
theorem natChars_unfold (n : ℕ) :
    natChars n =
      if n < 10 then [digitChar n]
      else natChars (n / 10) ++ [digitChar (n % 10)] := by
  show natCharsAux (n + 1) n = _
  show (if n < 10 then [digitChar n]
    else natCharsAux n (n / 10) ++ [digitChar (n % 10)]) = _
  by_cases hn : n < 10
  · rw [if_pos hn, if_pos hn]
  · rw [if_neg hn, if_neg hn]
    rw [natCharsAux_fuel (n / 10) n (n / 10 + 1) (by omega) (by omega)]
    rfl

/-- Digit characters decode to their value. -/
theorem digitVal_digitChar (d : ℕ) (h : d < 10) :
    digitVal? (digitChar d) = some d := by
  interval_cases d <;> decide

/-- Digit characters are digits. -/
theorem isDigitChar_digitChar (d : ℕ) (h : d < 10) :
    isDigitChar (digitChar d) = true := by
  interval_cases d <;> decide

/-- Every character of `natChars n` is a digit. -/
theorem natChars_all_digits :
    ∀ (n : ℕ), ∀ c ∈ natChars n, isDigitChar c = true := by
  intro n
  induction n using Nat.strong_induction_on with
  | _ n ih =>
    intro c hc
    rw [natChars_unfold] at hc
    by_cases hn : n < 10
    · rw [if_pos hn] at hc
      simp only [List.mem_singleton] at hc
      subst hc
      exact isDigitChar_digitChar n hn
    · rw [if_neg hn] at hc
      rcases List.mem_append.mp hc with h1 | h2
      · exact ih (n / 10) (by omega) c h1
      · simp only [List.mem_singleton] at h2
        subst h2
        exact isDigitChar_digitChar _ (by omega)

/-- `natChars` is never empty. -/
theorem natChars_ne_nil (n : ℕ) : natChars n ≠ [] := by
  rw [natChars_unfold]
  by_cases hn : n < 10
  · rw [if_pos hn]; simp
  · rw [if_neg hn]; simp

/-- `parseNatAux` over an append. -/
theorem parseNatAux_append :
    ∀ (l₁ l₂ : List Char) (acc : ℕ),
      parseNatAux acc (l₁ ++ l₂) =
        match parseNatAux acc l₁ with
        | some a => parseNatAux a l₂
        | none => none := by
  intro l₁
  induction l₁ with
  | nil => intro l₂ acc; rfl
  | cons c rest ih =>
    intro l₂ acc
    simp only [List.cons_append, parseNatAux]
    cases digitVal? c with
    | none => rfl
    | some d => exact ih l₂ (acc * 10 + d)

/-- `parseNatAux` decodes `natChars`. -/
theorem parseNatAux_natChars :
    ∀ (n acc : ℕ),
      parseNatAux acc (natChars n) = some (acc * 10 ^ (natChars n).length + n) := by
  intro n
  induction n using Nat.strong_induction_on with
  | _ n ih =>
    intro acc
    rw [natChars_unfold]
    by_cases hn : n < 10
    · rw [if_pos hn]
      show (match digitVal? (digitChar n) with
        | some d => parseNatAux (acc * 10 + d) []
        | none => none) = _
      rw [digitVal_digitChar n hn]
      show some (acc * 10 + n) = some (acc * 10 ^ 1 + n)
      norm_num
    · rw [if_neg hn]
      rw [parseNatAux_append]
      rw [ih (n / 10) (by omega) acc]
      show (match digitVal? (digitChar (n % 10)) with
        | some d =>
          some ((acc * 10 ^ (natChars (n / 10)).length + n / 10) * 10 + d)
        | none => none) = _
      rw [digitVal_digitChar _ (by omega)]
      rw [List.length_append, List.length_singleton]
      rw [pow_succ]
      show some ((acc * 10 ^ (natChars (n / 10)).length + n / 10) * 10 + n % 10) =
        some (acc * (10 ^ (natChars (n / 10)).length * 10) + n)
      congr 1
      have hL : n / 10 * 10 + n % 10 = n := by omega
      calc (acc * 10 ^ (natChars (n / 10)).length + n / 10) * 10 + n % 10
          = acc * (10 ^ (natChars (n / 10)).length * 10) +
              (n / 10 * 10 + n % 10) := by ring
        _ = acc * (10 ^ (natChars (n / 10)).length * 10) + n := by rw [hL]

/-- `int()` inverts decimal rendering. -/
theorem parseNat_natChars (n : ℕ) : parseNat (natChars n) = some n := by
  unfold parseNat
  rw [if_neg (by simpa [List.isEmpty_iff] using natChars_ne_nil n)]
  rw [parseNatAux_natChars n 0]
  simp

/-- `pad2` of a value below 100: parses back, has two digit characters. -/
theorem pad2_spec (k : ℕ) (h : k < 100) :
    parseNat (pad2 k) = some k ∧ (pad2 k).length = 2 ∧
      ∀ c ∈ pad2 k, isDigitChar c = true := by
  by_cases hk : k < 10
  · have hp : pad2 k = '0' :: [digitChar k] := by
      unfold pad2
      rw [if_pos hk]
    refine ⟨?_, by rw [hp]; rfl, ?_⟩
    · rw [hp]
      unfold parseNat
      rw [if_neg (by simp)]
      show (match digitVal? '0' with
        | some d => parseNatAux (0 * 10 + d) [digitChar k]
        | none => none) = some k
      rw [show digitVal? '0' = some 0 from rfl]
      show (match digitVal? (digitChar k) with
        | some d => parseNatAux ((0 * 10 + 0) * 10 + d) []
        | none => none) = some k
      rw [digitVal_digitChar k hk]
      simp [parseNatAux]
    · intro c hc
      rw [hp] at hc
      rcases List.mem_cons.mp hc with h1 | h2
      · subst h1; decide
      · simp only [List.mem_singleton] at h2
        subst h2
        exact isDigitChar_digitChar k hk
  · have hp : pad2 k = natChars k := by
      unfold pad2
      rw [if_neg hk]
    refine ⟨by rw [hp]; exact parseNat_natChars k, ?_, ?_⟩
    · rw [hp, natChars_unfold, if_neg hk]
      rw [show natChars (k / 10) = [digitChar (k / 10)] by
        rw [natChars_unfold, if_pos (by omega)]]
      rfl
    · rw [hp]
      exact natChars_all_digits k

/-- Two characters with different values of a boolean classifier differ. -/
theorem bchar_ne (f : Char → Bool) (c d : Char) (hc : f c = true)
    (hd : f d = false) : c ≠ d := by
  intro he
  rw [he, hd] at hc
  cases hc

/-- ASCII letters are not digits. -/
theorem letter_not_digit (c : Char) (h : isAsciiLetter c = true) :
    isDigitChar c = false := by
  unfold isAsciiLetter at h
  unfold isDigitChar
  simp only [Bool.or_eq_true, Bool.and_eq_true, decide_eq_true_eq] at h
  simp only [Bool.and_eq_false_iff, decide_eq_false_iff_not]
  rcases h with ⟨h1, _⟩ | ⟨h1, _⟩
  · right
    intro hc
    have : ('a' : Char) ≤ '9' := le_trans h1 hc
    exact absurd this (by decide)
  · right
    intro hc
    have : ('A' : Char) ≤ '9' := le_trans h1 hc
    exact absurd this (by decide)

/-- The character class of an IDENT body position. -/
def identCharOk (c : Char) : Bool :=
  isAsciiLetter c || isDigitChar c || c = '_'

/-- A character outside the four whitespace characters is not whitespace. -/
theorem isPyWs_false_of (c : Char) (h1 : c ≠ ' ') (h2 : c ≠ '\t')
    (h3 : c ≠ '\n') (h4 : c ≠ '\x0d') : isPyWs c = false := by
  simp [isPyWs, h1, h2, h3, h4]

/-- Digits are not whitespace. -/
theorem digit_not_ws (c : Char) (h : isDigitChar c = true) : isPyWs c = false :=
  isPyWs_false_of c (bchar_ne isDigitChar c ' ' h (by decide))
    (bchar_ne isDigitChar c '\t' h (by decide))
    (bchar_ne isDigitChar c '\n' h (by decide))
    (bchar_ne isDigitChar c '\x0d' h (by decide))

/-- IDENT characters are not whitespace. -/
theorem identCharOk_not_ws (c : Char) (h : identCharOk c = true) :
    isPyWs c = false :=
  isPyWs_false_of c (bchar_ne identCharOk c ' ' h (by decide))
    (bchar_ne identCharOk c '\t' h (by decide))
    (bchar_ne identCharOk c '\n' h (by decide))
    (bchar_ne identCharOk c '\x0d' h (by decide))

/-- Shape of a token accepted by `isIdentTok`. -/
theorem isIdentTok_parts (t : List Char) (h : isIdentTok t = true) :
    t ≠ [] ∧ (∀ c ∈ t, identCharOk c = true) ∧
      ∃ c rest, t = c :: rest ∧ isAsciiLetter c = true := by
  cases t with
  | nil => cases h
  | cons c rest =>
    have h' : (isAsciiLetter c &&
        rest.all (fun d => isAsciiLetter d || isDigitChar d || d = '_')) = true := h
    rw [Bool.and_eq_true] at h'
    obtain ⟨hc, hrest⟩ := h'
    refine ⟨by simp, ?_, c, rest, rfl, hc⟩
    intro d hd
    rcases List.mem_cons.mp hd with h1 | h2
    · subst h1
      unfold identCharOk
      rw [hc]
      rfl
    · exact List.all_eq_true.mp hrest d h2

/-- `splitOnChar` on separator-free input. -/
theorem splitOnChar_sepfree (sep : Char) :
    ∀ l : List Char, (∀ c ∈ l, c ≠ sep) → splitOnChar sep l = [l] := by
  intro l
  induction l with
  | nil => intro _; rfl
  | cons c rest ih =>
    intro h
    show (if c = sep then [] :: splitOnChar sep rest
      else match splitOnChar sep rest with
        | [] => [[c]]
        | l :: ls => (c :: l) :: ls) = [c :: rest]
    rw [if_neg (h c (List.mem_cons_self c rest))]
    rw [ih (fun d hd => h d (List.mem_cons_of_mem c hd))]

/-- `splitOnChar` on `a ++ sep :: b` with separator-free `a`. -/
theorem splitOnChar_append (sep : Char) :
    ∀ (a b : List Char), (∀ c ∈ a, c ≠ sep) →
      splitOnChar sep (a ++ sep :: b) = a :: splitOnChar sep b := by
  intro a
  induction a with
  | nil =>
    intro b _
    show (if sep = sep then [] :: splitOnChar sep b
      else _) = [] :: splitOnChar sep b
    rw [if_pos rfl]
  | cons c a' ih =>
    intro b h
    show (if c = sep then [] :: splitOnChar sep (a' ++ sep :: b)
      else match splitOnChar sep (a' ++ sep :: b) with
        | [] => [[c]]
        | l :: ls => (c :: l) :: ls) = (c :: a') :: splitOnChar sep b
    rw [if_neg (h c (List.mem_cons_self c a'))]
    rw [ih b (fun d hd => h d (List.mem_cons_of_mem c hd))]

/-- `takeWhile` of an all-true list. -/
theorem takeWhile_eq_of_all (p : Char → Bool) :
    ∀ l : List Char, (∀ c ∈ l, p c = true) → l.takeWhile p = l := by
  intro l
  induction l with
  | nil => intro _; rfl
  | cons c rest ih =>
    intro h
    rw [List.takeWhile_cons, if_pos (h c (List.mem_cons_self c rest))]
    rw [ih (fun d hd => h d (List.mem_cons_of_mem c hd))]

/-- `dropWhile` of an all-true list. -/
theorem dropWhile_eq_nil_of_all (p : Char → Bool) :
    ∀ l : List Char, (∀ c ∈ l, p c = true) → l.dropWhile p = [] := by
  intro l
  induction l with
  | nil => intro _; rfl
  | cons c rest ih =>
    intro h
    rw [List.dropWhile_cons, if_pos (h c (List.mem_cons_self c rest))]
    exact ih (fun d hd => h d (List.mem_cons_of_mem c hd))

/-- `takeWhile` over `a ++ x :: b` stopping at `x`. -/
theorem takeWhile_append_stop (p : Char → Bool) :
    ∀ (a : List Char) (x : Char) (b : List Char),
      (∀ c ∈ a, p c = true) → p x = false →
      (a ++ x :: b).takeWhile p = a := by
  intro a
  induction a with
  | nil =>
    intro x b _ hx
    rw [List.nil_append, List.takeWhile_cons, if_neg (by rw [hx]; simp)]
  | cons c a' ih =>
    intro x b h hx
    rw [List.cons_append, List.takeWhile_cons,
      if_pos (h c (List.mem_cons_self c a'))]
    rw [ih x b (fun d hd => h d (List.mem_cons_of_mem c hd)) hx]

/-- `dropWhile` over `a ++ x :: b` stopping at `x`. -/
theorem dropWhile_append_stop (p : Char → Bool) :
    ∀ (a : List Char) (x : Char) (b : List Char),
      (∀ c ∈ a, p c = true) → p x = false →
      (a ++ x :: b).dropWhile p = x :: b := by
  intro a
  induction a with
  | nil =>
    intro x b _ hx
    rw [List.nil_append, List.dropWhile_cons, if_neg (by rw [hx]; simp)]
  | cons c a' ih =>
    intro x b h hx
    rw [List.cons_append, List.dropWhile_cons,
      if_pos (h c (List.mem_cons_self c a'))]
    exact ih x b (fun d hd => h d (List.mem_cons_of_mem c hd)) hx

/-- `numToken` on an all-digit token consumes everything. -/
theorem numToken_digits (l : List Char) (hne : l ≠ [])
    (hd : ∀ c ∈ l, isDigitChar c = true) : numToken l = some (l, []) := by
  unfold numToken
  rw [takeWhile_eq_of_all isDigitChar l hd, dropWhile_eq_nil_of_all isDigitChar l hd]
  rw [if_neg (by simpa [List.isEmpty_iff] using hne)]

/-- `numToken` on digits followed by a non-digit, non-dot separator. -/
theorem numToken_digits_sep (A : List Char) (x : Char) (B : List Char)
    (hne : A ≠ []) (hd : ∀ c ∈ A, isDigitChar c = true)
    (hx : isDigitChar x = false) (hdot : x ≠ '.') :
    numToken (A ++ x :: B) = some (A, x :: B) := by
  unfold numToken
  rw [takeWhile_append_stop isDigitChar A x B hd hx,
    dropWhile_append_stop isDigitChar A x B hd hx]
  rw [if_neg (by simpa [List.isEmpty_iff] using hne)]
  split
  next r2 heq =>
    obtain ⟨h1, _⟩ := List.cons.inj heq
    exact absurd h1 hdot
  next => rfl

/-- `numToken` fails when the head is not a digit. -/
theorem numToken_nondigit_head (c : Char) (rest : List Char)
    (hc : isDigitChar c = false) : numToken (c :: rest) = none := by
  have h1 : List.takeWhile isDigitChar (c :: rest) = [] := by
    rw [List.takeWhile_cons, hc]
    simp
  unfold numToken
  rw [h1]
  rfl

/-- `joinSp` over a cons with nonempty tail. -/
theorem joinSp_cons_ne (t : List Char) (rest : List (List Char))
    (h : rest ≠ []) : joinSp (t :: rest) = t ++ ' ' :: joinSp rest := by
  cases rest with
  | nil => exact absurd rfl h
  | cons t2 r2 => rfl

/-- `splitSpaces` inverts `joinSp` on nonempty space-free tokens. -/
theorem splitSpaces_joinSp :
    ∀ toks : List (List Char),
      (∀ t ∈ toks, t ≠ [] ∧ ∀ c ∈ t, c ≠ ' ') →
      splitSpaces (joinSp toks) = toks := by
  intro toks
  induction toks with
  | nil => intro _; rfl
  | cons t rest ih =>
    intro h
    obtain ⟨hne, hnsp⟩ := h t (List.mem_cons_self t rest)
    cases rest with
    | nil =>
      show (splitOnChar ' ' t).filter (fun p => !p.isEmpty) = [t]
      rw [splitOnChar_sepfree ' ' t hnsp]
      have hb : t.isEmpty = false := by simpa [List.isEmpty_iff] using hne
      simp [List.filter, hb]
    | cons t2 r2 =>
      rw [joinSp_cons_ne t (t2 :: r2) (by simp)]
      show (splitOnChar ' ' (t ++ ' ' :: joinSp (t2 :: r2))).filter
        (fun p => !p.isEmpty) = t :: t2 :: r2
      rw [splitOnChar_append ' ' t (joinSp (t2 :: r2)) hnsp]
      rw [List.filter_cons]
      rw [if_pos (by simpa [List.isEmpty_iff] using hne)]
      have := ih (fun t' ht' => h t' (List.mem_cons_of_mem t ht'))
      exact congrArg (t :: ·) this

/-- `joinSp` of a nonempty list of nonempty tokens ends in a character of the
last token. -/
theorem joinSp_concat :
    ∀ (t : List Char) (rest : List (List Char)),
      (∀ t' ∈ t :: rest, t' ≠ []) →
      ∃ Y d, joinSp (t :: rest) = Y ++ [d] ∧ ∃ t' ∈ t :: rest, d ∈ t' := by
  intro t rest
  induction rest generalizing t with
  | nil =>
    intro h
    rcases List.eq_nil_or_concat t with h1 | ⟨Y, d, h2⟩
    · exact absurd h1 (h t (List.mem_cons_self t []))
    · refine ⟨Y, d, ?_, t, List.mem_cons_self t [], ?_⟩
      · rw [show joinSp [t] = t from rfl, h2, List.concat_eq_append]
      · rw [h2, List.concat_eq_append]
        exact List.mem_append_right Y (List.mem_singleton.mpr rfl)
  | cons t2 r2 ih =>
    intro h
    obtain ⟨Y, d, hY, t', ht', hd⟩ :=
      ih t2 (fun t' ht' => h t' (List.mem_cons_of_mem t ht'))
    refine ⟨t ++ ' ' :: Y, d, ?_, t', List.mem_cons_of_mem t ht', hd⟩
    rw [joinSp_cons_ne t (t2 :: r2) (by simp), hY]
    simp

/-- `pyStrip` is the identity on `joinSp` of nonempty whitespace-free tokens. -/
theorem pyStrip_joinSp :
    ∀ (t : List Char) (rest : List (List Char)),
      (∀ t' ∈ t :: rest, t' ≠ [] ∧ ∀ c ∈ t', isPyWs c = false) →
      pyStrip (joinSp (t :: rest)) = joinSp (t :: rest) := by
  intro t rest h
  obtain ⟨hne, hws⟩ := h t (List.mem_cons_self t rest)
  obtain ⟨c, t', hct⟩ : ∃ c t', t = c :: t' := by
    cases t with
    | nil => exact absurd rfl hne
    | cons c t' => exact ⟨c, t', rfl⟩
  have hhead : ∃ tl, joinSp (t :: rest) = c :: tl := by
    cases rest with
    | nil => exact ⟨t', by rw [hct]; rfl⟩
    | cons t2 r2 =>
      refine ⟨t' ++ ' ' :: joinSp (t2 :: r2), ?_⟩
      rw [joinSp_cons_ne t (t2 :: r2) (by simp), hct]
      rfl
  obtain ⟨tl, htl⟩ := hhead
  obtain ⟨Y, d, hY, t'', ht'', hd⟩ :=
    joinSp_concat t rest (fun u hu => (h u hu).1)
  have hlstrip : pyLstrip (joinSp (t :: rest)) = joinSp (t :: rest) := by
    rw [htl]
    unfold pyLstrip
    rw [List.dropWhile_cons]
    rw [hws c (by rw [hct]; exact List.mem_cons_self c t')]
    simp
  have hrstrip : pyRstrip (joinSp (t :: rest)) = joinSp (t :: rest) := by
    rw [hY]
    unfold pyRstrip
    rw [List.reverse_append, List.reverse_singleton, List.singleton_append]
    rw [List.dropWhile_cons]
    rw [(h t'' ht'').2 d hd]
    simp
  unfold pyStrip
  rw [hlstrip, hrstrip]

/-- The `movement ++ flags` tail of a rendered line as a `joinSp`. -/
theorem join_mv_flags (m : String) (flags : List String) :
    m.data ++ (if flags.isEmpty then []
      else ' ' :: joinSp (flags.map String.data)) =
      joinSp (m.data :: flags.map String.data) := by
  cases flags with
  | nil =>
    show m.data ++ [] = joinSp [m.data]
    rw [List.append_nil]
    rfl
  | cons f fs =>
    rw [joinSp_cons_ne m.data ((f :: fs).map String.data) (by simp)]
    rfl

/-- `parseSuffixes` recognizes exactly the three rendered flag words. -/
theorem parseSuffixes_flags :
    ∀ flags : List String,
      (∀ f ∈ flags, f = "SYNC" ∨ f = "@shared" ∨ f = "@each") →
      parseSuffixes (flags.map String.data) = some flags := by
  intro flags
  induction flags with
  | nil => intro _; rfl
  | cons f fs ih =>
    intro h
    have hf := h f (List.mem_cons_self f fs)
    have hrest := ih (fun g hg => h g (List.mem_cons_of_mem f hg))
    rcases hf with h1 | h1 | h1 <;> subst h1 <;>
      simp [parseSuffixes, hrest]

/-- `parseAfterMove` on rendered flag tokens finds no load. -/
theorem parseAfterMove_flags :
    ∀ flags : List String,
      (∀ f ∈ flags, f = "SYNC" ∨ f = "@shared" ∨ f = "@each") →
      parseAfterMove (flags.map String.data) = some (none, flags) := by
  intro flags h
  cases flags with
  | nil => rfl
  | cons f fs =>
    have hf := h f (List.mem_cons_self f fs)
    have hsuf := parseSuffixes_flags (f :: fs) h
    rcases hf with h1 | h1 | h1 <;> subst h1
    · rw [List.map_cons] at hsuf ⊢
      show (parseSuffixes ("SYNC".data :: List.map String.data fs)).map
        (fun fl => ((none : Option Load), fl)) = some (none, "SYNC" :: fs)
      rw [hsuf]
      rfl
    · rw [List.map_cons] at hsuf ⊢
      show (parseSuffixes ("@shared".data :: List.map String.data fs)).map
        (fun fl => ((none : Option Load), fl)) = some (none, "@shared" :: fs)
      rw [hsuf]
      rfl
    · rw [List.map_cons] at hsuf ⊢
      show (parseSuffixes ("@each".data :: List.map String.data fs)).map
        (fun fl => ((none : Option Load), fl)) = some (none, "@each" :: fs)
      rw [hsuf]
      rfl

/-- `finishLine` on a rendered movement and flag tail. -/
theorem finishLine_tail (q : Option Qty) (m : String) (flags : List String)
    (hm : isIdentTok m.data = true)
    (hf : ∀ f ∈ flags, f = "SYNC" ∨ f = "@shared" ∨ f = "@each") :
    finishLine q (m.data :: flags.map String.data) =
      some ⟨q, some m, none, flags⟩ := by
  cases m with
  | mk mdata =>
    show (if isIdentTok mdata then
      (parseAfterMove (flags.map String.data)).map
        (fun p => (⟨q, some ⟨mdata⟩, p.1, p.2⟩ : Line))
      else none) = some ⟨q, some ⟨mdata⟩, none, flags⟩
    rw [if_pos hm, parseAfterMove_flags flags hf]
    rfl

/-- A non-whitespace character is not a space. -/
theorem ne_space_of_not_ws (c : Char) (h : isPyWs c = false) : c ≠ ' ' := by
  intro he
  rw [he] at h
  cases h

/-- REPDUAL needs a `/`. -/
theorem repdual_false_of_noslash (t : List Char) (h : ∀ c ∈ t, c ≠ '/') :
    isRepdualTok t = false := by
  unfold isRepdualTok
  rw [splitOnChar_sepfree '/' t h]

/-- The CALDUAL number pair needs a `/`. -/
theorem caldualnums_false_of_noslash (t : List Char) (h : ∀ c ∈ t, c ≠ '/') :
    isCaldualNumsTok t = false := by
  unfold isCaldualNumsTok
  rw [splitOnChar_sepfree '/' t h]

/-- DISTDUAL fails when the number's remainder is empty. -/
theorem distdual_false_nilrest (t A : List Char)
    (hnum : numToken t = some (A, [])) : isDistdualTok t = false := by
  unfold isDistdualTok
  rw [hnum]

/-- DISTDUAL fails when the number's remainder starts with a non-slash. -/
theorem distdual_false_sep (t A B : List Char) (x : Char)
    (hnum : numToken t = some (A, x :: B)) (hx : x ≠ '/') :
    isDistdualTok t = false := by
  unfold isDistdualTok
  rw [hnum]
  split
  next r2 heq =>
    obtain ⟨h1, h2⟩ := Prod.mk.injEq .. ▸ Option.some.inj heq
    obtain ⟨h3, _⟩ := List.cons.inj h2
    exact absurd h3 hx
  next => rfl

/-- NUMBER fails when the number's remainder is nonempty. -/
theorem number_false_sep (t A B : List Char) (x : Char)
    (hnum : numToken t = some (A, x :: B)) : isNumberTok t = false := by
  unfold isNumberTok
  rw [hnum]

/-- DIST fails when the number's remainder starts with a colon. -/
theorem dist_false_colon (t A B : List Char)
    (hnum : numToken t = some (A, ':' :: B)) : isDistTok t = false := by
  unfold isDistTok
  rw [hnum]
  have h1 : ¬(':' :: B = ['m']) := by
    intro h
    obtain ⟨h1, _⟩ := List.cons.inj h
    exact absurd h1 (by decide)
  have h2 : ¬(':' :: B = ['k', 'm']) := by
    intro h
    obtain ⟨h1, _⟩ := List.cons.inj h
    exact absurd h1 (by decide)
  show (distUnitsStr.any (fun u => ':' :: B = u)) = false
  show (decide (':' :: B = ['m']) || ([['k', 'm']].any (fun u => ':' :: B = u))) = false
  rw [decide_eq_false h1]
  show (false || (decide (':' :: B = ['k', 'm']) || false)) = false
  rw [decide_eq_false h2]
  rfl

/-- Membership makes `contains` true. -/
theorem contains_of_mem (l : List Char) (a : Char) (h : a ∈ l) :
    l.contains a = true := by
  induction l with
  | nil => cases h
  | cons c rest ih =>
    rcases List.mem_cons.mp h with h1 | h2
    · subst h1
      simp [List.contains_cons]
    · simp [List.contains_cons]
      exact Or.inr h2

/-- The rendered time of a duration below one hour. -/
theorem hhmmss_lt (v : ℕ) (hv : v < 3600) :
    hhmmss v = pad2 (v / 60) ++ ':' :: pad2 (v % 60) := by
  show (if v / 60 / 60 ≠ 0 then
      pad2 (v / 60 / 60) ++ ':' :: pad2 (v / 60 % 60) ++ ':' :: pad2 (v % 60)
    else pad2 (v / 60 % 60) ++ ':' :: pad2 (v % 60)) =
    pad2 (v / 60) ++ ':' :: pad2 (v % 60)
  rw [if_neg (by omega)]
  have h1 : v / 60 % 60 = v / 60 := Nat.mod_eq_of_lt (by omega)
  rw [h1]

/-- No quantity candidate starts at an IDENT token. -/
theorem qtyCandidates_ident (t : List Char) (h : isIdentTok t = true) :
    ∀ rest, qtyCandidates (t :: rest) = [] := by
  obtain ⟨hne, hok, c, rest', hct, hletter⟩ := isIdentTok_parts t h
  have hslash : ∀ d ∈ t, d ≠ '/' := fun d hd =>
    bchar_ne identCharOk d '/' (hok d hd) (by decide)
  have hcolon : ∀ d ∈ t, d ≠ ':' := fun d hd =>
    bchar_ne identCharOk d ':' (hok d hd) (by decide)
  have hcdig : isDigitChar c = false := letter_not_digit c hletter
  have hnum : numToken t = none := by
    rw [hct]
    exact numToken_nondigit_head c rest' hcdig
  have e1 : isRepdualTok t = false := repdual_false_of_noslash t hslash
  have e2 : isCaldualNumsTok t = false := caldualnums_false_of_noslash t hslash
  have e3 : isDistdualTok t = false := by
    unfold isDistdualTok
    rw [hnum]
  have e4 : isIntTok t = false := by
    rw [hct]
    unfold isIntTok
    simp [hcdig]
  have e5 : isNumberTok t = false := by
    unfold isNumberTok
    rw [hnum]
  have e6 : isDistTok t = false := by
    unfold isDistTok
    rw [hnum]
  have e7 : isTimeqTok t = false := by
    unfold isTimeqTok
    rw [splitOnChar_sepfree ':' t hcolon]
    have ht : List.takeWhile isDigitChar t = [] := by
      rw [hct, List.takeWhile_cons, hcdig]
      simp
    rw [ht]
    rfl
  intro rest
  cases rest with
  | nil => simp [qtyCandidates, e1, e3, e4, e6, e7]
  | cons t2 r2 => simp [qtyCandidates, e1, e2, e3, e4, e5, e6, e7]

/-- The REPDUAL/CALDUAL/DISTDUAL candidates fail at an all-digit token and
the INT candidate succeeds. -/
theorem qtyCandidates_digits (t1 : List Char) (k : ℕ) (t2 : List Char)
    (rest2 : List (List Char)) (hne : t1 ≠ [])
    (hd : ∀ c ∈ t1, isDigitChar c = true) (hparse : parseNat t1 = some k) :
    ∃ tail, qtyCandidates (t1 :: t2 :: rest2) =
      (some (Qty.reps (k : ℤ)), t2 :: rest2) :: tail := by
  have hslash : ∀ c ∈ t1, c ≠ '/' := fun c hc =>
    bchar_ne isDigitChar c '/' (hd c hc) (by decide)
  have e1 : isRepdualTok t1 = false := repdual_false_of_noslash t1 hslash
  have e2 : isCaldualNumsTok t1 = false := caldualnums_false_of_noslash t1 hslash
  have e3 : isDistdualTok t1 = false :=
    distdual_false_nilrest t1 t1 (numToken_digits t1 hne hd)
  have e4 : isIntTok t1 = true := by
    unfold isIntTok
    rw [List.all_eq_true.mpr hd]
    simp [List.isEmpty_iff, hne]
  have e4b : ToAST.reps t1 = some (Qty.reps (k : ℤ)) := by
    unfold ToAST.reps
    rw [hparse]
    rfl
  exact ⟨_, by simp only [qtyCandidates, e1, e2, e3, e4, e4b]; simp; rfl⟩

/-- The candidate scan at the rendered token of a distance-0 quantity. -/
theorem qtyCandidates_zm (t2 : List Char) (rest2 : List (List Char)) :
    ∃ tail, qtyCandidates (['0', 'm'] :: t2 :: rest2) =
      (some (Qty.distance 0 "m"), t2 :: rest2) :: tail := by
  have e1 : isRepdualTok ['0', 'm'] = false := by decide
  have e2 : isCaldualNumsTok ['0', 'm'] = false := by decide
  have e3 : isDistdualTok ['0', 'm'] = false := by decide
  have e4 : isIntTok ['0', 'm'] = false := by decide
  have e5 : isNumberTok ['0', 'm'] = false := by decide
  have e6 : isDistTok ['0', 'm'] = true := by decide
  have e6b : ToAST.distance_qty ['0', 'm'] = some (Qty.distance 0 "m") := by
    unfold ToAST.distance_qty
    rw [if_neg (by decide)]
  exact ⟨_, by simp only [qtyCandidates, e1, e2, e3, e4, e5, e6, e6b]; simp; rfl⟩

/-- The candidate scan at the rendered token of a sub-hour time quantity. -/
theorem qtyCandidates_time (v : ℕ) (hv : v < 3600) (t2 : List Char)
    (rest2 : List (List Char)) :
    ∃ tail, qtyCandidates ((pad2 (v / 60) ++ ':' :: pad2 (v % 60)) :: t2 :: rest2) =
      (some (Qty.time v), t2 :: rest2) :: tail := by
  obtain ⟨hpa, hla, hda⟩ := pad2_spec (v / 60) (by omega)
  obtain ⟨hpb, hlb, hdb⟩ := pad2_spec (v % 60) (by omega)
  have hAne : pad2 (v / 60) ≠ [] := by
    intro h
    rw [h] at hla
    cases hla
  have hmem : ∀ c ∈ pad2 (v / 60) ++ ':' :: pad2 (v % 60),
      isDigitChar c = true ∨ c = ':' := by
    intro c hc
    rcases List.mem_append.mp hc with h1 | h2
    · exact Or.inl (hda c h1)
    · rcases List.mem_cons.mp h2 with h3 | h4
      · exact Or.inr h3
      · exact Or.inl (hdb c h4)
  have hslash : ∀ c ∈ pad2 (v / 60) ++ ':' :: pad2 (v % 60), c ≠ '/' := by
    intro c hc
    rcases hmem c hc with h1 | h1
    · exact bchar_ne isDigitChar c '/' h1 (by decide)
    · subst h1
      decide
  have hnum : numToken (pad2 (v / 60) ++ ':' :: pad2 (v % 60)) =
      some (pad2 (v / 60), ':' :: pad2 (v % 60)) :=
    numToken_digits_sep (pad2 (v / 60)) ':' (pad2 (v % 60)) hAne hda
      (by decide) (by decide)
  have e1 := repdual_false_of_noslash _ hslash
  have e2 := caldualnums_false_of_noslash _ hslash
  have e3 := distdual_false_sep _ _ _ ':' hnum (by decide)
  have e4 : isIntTok (pad2 (v / 60) ++ ':' :: pad2 (v % 60)) = false := by
    unfold isIntTok
    rw [List.all_append]
    rw [show List.all (':' :: pad2 (v % 60)) isDigitChar =
      (isDigitChar ':' && List.all (pad2 (v % 60)) isDigitChar) from rfl]
    rw [show isDigitChar ':' = false from rfl]
    simp
  have e5 := number_false_sep _ _ _ ':' hnum
  have e6 := dist_false_colon _ _ _ hnum
  have hAfree : ∀ c ∈ pad2 (v / 60), c ≠ ':' := fun c hc =>
    bchar_ne isDigitChar c ':' (hda c hc) (by decide)
  have hBfree : ∀ c ∈ pad2 (v % 60), c ≠ ':' := fun c hc =>
    bchar_ne isDigitChar c ':' (hdb c hc) (by decide)
  have e7 : isTimeqTok (pad2 (v / 60) ++ ':' :: pad2 (v % 60)) = true := by
    have harm : ((pad2 (v / 60)).all isDigitChar &&
        ((pad2 (v / 60)).length == 1 || (pad2 (v / 60)).length == 2) &&
        ((pad2 (v % 60)).all isDigitChar && (pad2 (v % 60)).length == 2)) = true := by
      rw [List.all_eq_true.mpr hda, List.all_eq_true.mpr hdb, hla, hlb]
      rfl
    unfold isTimeqTok
    rw [splitOnChar_append ':' _ _ hAfree, splitOnChar_sepfree ':' _ hBfree]
    rw [Bool.or_eq_true]
    exact Or.inl harm
  have e7b : ToAST.hold_time (pad2 (v / 60) ++ ':' :: pad2 (v % 60)) =
      some (Qty.time v) := by
    unfold ToAST.hold_time
    rw [if_pos (contains_of_mem _ ':' (List.mem_append_right _
      (List.mem_cons_self ':' _)))]
    rw [splitOnChar_append ':' _ _ hAfree, splitOnChar_sepfree ':' _ hBfree]
    show (match parseNat (pad2 (v / 60)), parseNat (pad2 (v % 60)) with
      | some m, some s => some (Qty.time (m * 60 + s))
      | _, _ => none) = some (Qty.time v)
    rw [hpa, hpb]
    show some (Qty.time (v / 60 * 60 + v % 60)) = some (Qty.time v)
    rw [show v / 60 * 60 + v % 60 = v from by omega]
  exact ⟨_, by simp only [qtyCandidates, e1, e2, e3, e4, e5, e6, e7, e7b]; simp; rfl⟩

/-- `parseLineToks` commits to the first successful candidate. -/
theorem parseLineToks_found (x : Option Qty × List (List Char))
    (T : List (Option Qty × List (List Char))) (toks : List (List Char))
    (ln : Line) (hcand : qtyCandidates toks = x :: T)
    (hfin : finishLine x.1 x.2 = some ln) :
    parseLineToks toks = some ln := by
  unfold parseLineToks
  rw [hcand, List.cons_append]
  rw [List.findSome?_cons_of_isSome _ (by simp [hfin])]
  exact hfin

/-- With no quantity candidate, `parseLineToks` parses the bare line. -/
theorem parseLineToks_nocand (toks : List (List Char)) (ln : Line)
    (hcand : qtyCandidates toks = []) (hfin : finishLine none toks = some ln) :
    parseLineToks toks = some ln := by
  unfold parseLineToks
  rw [hcand, List.nil_append]
  rw [List.findSome?_cons_of_isSome _ (by simp [hfin])]
  exact hfin

/-- `pyStrip` fixes `joinSp` of a nonempty token list (wrapper). -/
theorem pyStrip_joinSp_ne (toks : List (List Char)) (hne : toks ≠ [])
    (h : ∀ t ∈ toks, t ≠ [] ∧ ∀ c ∈ t, isPyWs c = false) :
    pyStrip (joinSp toks) = joinSp toks := by
  cases toks with
  | nil => exact absurd rfl hne
  | cons t rest => exact pyStrip_joinSp t rest h

/-- For a nonnegative rational, `ratTruncZ` is the floor. -/
theorem ratTruncZ_nonneg_spec (q : ℚ) (h : 0 ≤ q) :
    0 ≤ ratTruncZ q ∧ (ratTruncZ q : ℚ) ≤ q ∧ q < (ratTruncZ q : ℚ) + 1 := by
  have hden : (0 : ℚ) < (q.den : ℚ) := by exact_mod_cast q.den_pos
  have hdenN : 0 < q.den := q.den_pos
  have hnum0 : 0 ≤ q.num := Rat.num_nonneg.mpr h
  have hN : ((q.num.toNat : ℕ) : ℚ) = (q.num : ℚ) := by
    exact_mod_cast congrArg (fun z : ℤ => (z : ℚ)) (Int.toNat_of_nonneg hnum0)
  unfold ratTruncZ
  rw [if_pos h]
  refine ⟨by positivity, ?_, ?_⟩
  · have h2 : ((q.num.toNat / q.den : ℕ) : ℚ) ≤ (q.num : ℚ) / (q.den : ℚ) := by
      rw [le_div_iff₀ hden]
      rw [← hN]
      exact_mod_cast Nat.div_mul_le_self q.num.toNat q.den
    rw [Rat.num_div_den] at h2
    exact_mod_cast h2
  · have hlt : q.num.toNat < (q.num.toNat / q.den + 1) * q.den := by
      have h2 := Nat.mod_lt q.num.toNat hdenN
      calc q.num.toNat = q.den * (q.num.toNat / q.den) + q.num.toNat % q.den :=
            (Nat.div_add_mod q.num.toNat q.den).symm
        _ < q.den * (q.num.toNat / q.den) + q.den := by omega
        _ = (q.num.toNat / q.den + 1) * q.den := by ring
    have h3 : (q.num : ℚ) / (q.den : ℚ) < ((q.num.toNat / q.den : ℕ) : ℚ) + 1 := by
      rw [div_lt_iff₀ hden]
      rw [← hN]
      exact_mod_cast hlt
    rw [Rat.num_div_den] at h3
    exact_mod_cast h3

/-- The fractional-digit emitter of `pyFloatRepr`: on a fraction in `[0,1)`
whose decimal expansion terminates within the precision, it emits digit
characters that `int()` decodes back to the exact scaled fraction. -/
theorem fracChars_spec :
    ∀ (prec : ℕ) (F : ℚ), 0 ≤ F → F < 1 →
      (∃ n : ℤ, (n : ℚ) = F * 10 ^ prec) →
      (∀ c ∈ fracChars F prec, isDigitChar c = true) ∧
      (F = 0 ∨ fracChars F prec ≠ []) ∧
      ∃ f : ℕ, (∀ acc : ℕ, parseNatAux acc (fracChars F prec) =
          some (acc * 10 ^ (fracChars F prec).length + f)) ∧
        (f : ℚ) = F * 10 ^ (fracChars F prec).length := by
  intro prec
  induction prec with
  | zero =>
    intro F h0 h1 hint
    obtain ⟨n, hn⟩ := hint
    have hFn : (n : ℚ) = F := by rw [hn]; ring
    have hn0 : (0 : ℚ) ≤ (n : ℚ) := by rw [hFn]; exact h0
    have hn1 : (n : ℚ) < 1 := by rw [hFn]; exact h1
    have hz : n = 0 := by
      have a : (0 : ℤ) ≤ n := by exact_mod_cast hn0
      have b : n < 1 := by exact_mod_cast hn1
      omega
    have hF0 : F = 0 := by rw [← hFn, hz]; norm_num
    refine ⟨fun c hc => absurd hc (List.not_mem_nil c), Or.inl hF0, 0, ?_, ?_⟩
    · intro acc
      simp [fracChars, parseNatAux]
    · simp [fracChars, hF0]
  | succ prec ih =>
    intro F h0 h1 hint
    by_cases hF : F = 0
    · subst hF
      have hfc : fracChars 0 (prec + 1) = [] := by simp [fracChars]
      rw [hfc]
      refine ⟨fun c hc => absurd hc (List.not_mem_nil c), Or.inl rfl, 0, ?_,
        by norm_num⟩
      intro acc
      simp [parseNatAux]
    · have h100 : (0 : ℚ) ≤ F * 10 := by positivity
      obtain ⟨hd0, hdle, hdlt⟩ := ratTruncZ_nonneg_spec (F * 10) h100
      have hdlt10 : ratTruncZ (F * 10) < 10 := by
        have hlt : ((ratTruncZ (F * 10) : ℤ) : ℚ) < 10 :=
          lt_of_le_of_lt hdle (by linarith)
        exact_mod_cast hlt
      have hdn : (((ratTruncZ (F * 10)).toNat : ℕ) : ℚ) =
          ((ratTruncZ (F * 10) : ℤ) : ℚ) := by
        exact_mod_cast congrArg (fun z : ℤ => (z : ℚ))
          (Int.toNat_of_nonneg hd0)
      have hdn10 : (ratTruncZ (F * 10)).toNat < 10 := by omega
      have hfc : fracChars F (prec + 1) =
          digitChar (ratTruncZ (F * 10)).toNat ::
            fracChars (F * 10 - (ratTruncZ (F * 10) : ℚ)) prec := by
        simp [fracChars, hF]
      have hF0 : 0 ≤ F * 10 - (ratTruncZ (F * 10) : ℚ) := by linarith
      have hF1 : F * 10 - (ratTruncZ (F * 10) : ℚ) < 1 := by linarith
      have hint2 : ∃ n : ℤ,
          (n : ℚ) = (F * 10 - (ratTruncZ (F * 10) : ℚ)) * 10 ^ prec := by
        obtain ⟨n, hn⟩ := hint
        refine ⟨n - ratTruncZ (F * 10) * 10 ^ prec, ?_⟩
        push_cast
        rw [hn]
        ring
      obtain ⟨hdig2, hne2, f2, hacc2, hval2⟩ :=
        ih (F * 10 - (ratTruncZ (F * 10) : ℚ)) hF0 hF1 hint2
      rw [hfc]
      refine ⟨?_, Or.inr (by simp),
        (ratTruncZ (F * 10)).toNat *
          10 ^ (fracChars (F * 10 - (ratTruncZ (F * 10) : ℚ)) prec).length + f2,
        ?_, ?_⟩
      · intro c hc
        rcases List.mem_cons.mp hc with h3 | h4
        · subst h3
          exact isDigitChar_digitChar _ hdn10
        · exact hdig2 c h4
      · intro acc
        show (match digitVal? (digitChar (ratTruncZ (F * 10)).toNat) with
          | some dd => parseNatAux (acc * 10 + dd)
              (fracChars (F * 10 - (ratTruncZ (F * 10) : ℚ)) prec)
          | none => none) = _
        rw [digitVal_digitChar _ hdn10]
        show parseNatAux (acc * 10 + (ratTruncZ (F * 10)).toNat)
            (fracChars (F * 10 - (ratTruncZ (F * 10) : ℚ)) prec) =
          some (acc * 10 ^ ((digitChar (ratTruncZ (F * 10)).toNat ::
            fracChars (F * 10 - (ratTruncZ (F * 10) : ℚ)) prec).length) +
            ((ratTruncZ (F * 10)).toNat *
              10 ^ (fracChars (F * 10 - (ratTruncZ (F * 10) : ℚ)) prec).length
              + f2))
        rw [hacc2 (acc * 10 + (ratTruncZ (F * 10)).toNat)]
        congr 1
        rw [List.length_cons, pow_succ]
        ring
      · rw [List.length_cons, pow_succ]
        push_cast
        rw [hval2, hdn]
        ring

/-- Shape of `f"{x}"` for a nonnegative terminating-decimal rational: integer
digits, a dot, then nonempty fraction digits decoding back to the value. -/
theorem pyFloatRepr_shape (v : ℚ) (h0 : 0 ≤ v)
    (hden : ∃ n : ℤ, (n : ℚ) = v * 10 ^ 30) :
    ∃ B f, pyFloatRepr v = natChars (ratTruncZ v).toNat ++ '.' :: B ∧
      B ≠ [] ∧ (∀ c ∈ B, isDigitChar c = true) ∧
      parseNat B = some f ∧
      ((ratTruncZ v : ℚ) + (f : ℚ) / 10 ^ B.length = v) := by
  obtain ⟨hip0, hiple, hiplt⟩ := ratTruncZ_nonneg_spec v h0
  have hic : intChars (ratTruncZ v) = natChars (ratTruncZ v).toNat := by
    unfold intChars
    rw [if_neg (by omega)]
    rw [show (ratTruncZ v).natAbs = (ratTruncZ v).toNat from by omega]
  by_cases hFz : v - (ratTruncZ v : ℚ) = 0
  · have hrep : pyFloatRepr v = intChars (ratTruncZ v) ++ ['.', '0'] := by
      simp [pyFloatRepr, hFz]
    refine ⟨['0'], 0, ?_, by simp, ?_, rfl, ?_⟩
    · rw [hrep, hic]
    · intro c hc
      rcases List.mem_singleton.mp hc with h
      subst h
      decide
    · push_cast
      simp
      linarith
  · have hrep : pyFloatRepr v = intChars (ratTruncZ v) ++ '.' ::
        fracChars (v - (ratTruncZ v : ℚ)) 30 := by
      simp [pyFloatRepr, hFz]
    have hint : ∃ n : ℤ, (n : ℚ) = (v - (ratTruncZ v : ℚ)) * 10 ^ 30 := by
      obtain ⟨n, hn⟩ := hden
      refine ⟨n - ratTruncZ v * 10 ^ 30, ?_⟩
      push_cast
      rw [hn]
      ring
    obtain ⟨hdig, hne, f, hacc, hval⟩ := fracChars_spec 30
      (v - (ratTruncZ v : ℚ)) (by linarith) (by linarith) hint
    have hBne : fracChars (v - (ratTruncZ v : ℚ)) 30 ≠ [] := by
      rcases hne with h | h
      · exact absurd h hFz
      · exact h
    refine ⟨fracChars (v - (ratTruncZ v : ℚ)) 30, f,
      by rw [hrep, hic], hBne, hdig, ?_, ?_⟩
    · unfold parseNat
      rw [if_neg (by simpa [List.isEmpty_iff] using hBne)]
      rw [hacc 0]
      simp
    · have h10 : ((10 : ℚ)) ^
          (fracChars (v - (ratTruncZ v : ℚ)) 30).length ≠ 0 := by positivity
      rw [hval]
      rw [mul_div_cancel_right₀ _ h10]
      ring

/-- `float()` inverts `f"{x}"` on the rendered cal value. -/
theorem parseFloat_pyFloatRepr (v : ℚ) (h0 : 0 ≤ v)
    (hden : ∃ n : ℤ, (n : ℚ) = v * 10 ^ 30) :
    parseFloat? (pyFloatRepr v) = some v := by
  obtain ⟨B, f, hshape, hBne, hBd, hBp, hval⟩ := pyFloatRepr_shape v h0 hden
  have hip0 : 0 ≤ ratTruncZ v := (ratTruncZ_nonneg_spec v h0).1
  have hA := natChars_all_digits (ratTruncZ v).toNat
  rw [hshape]
  unfold parseFloat?
  rw [List.span_eq_take_drop]
  rw [takeWhile_append_stop _ _ '.' _ (fun c hc =>
    decide_eq_true (bchar_ne isDigitChar c '.' (hA c hc) (by decide)))
    (by decide)]
  rw [dropWhile_append_stop _ _ '.' _ (fun c hc =>
    decide_eq_true (bchar_ne isDigitChar c '.' (hA c hc) (by decide)))
    (by decide)]
  show (match parseNat (natChars (ratTruncZ v).toNat), parseNat B with
    | some n, some fr => some ((n : ℚ) + (fr : ℚ) / ((10 : ℚ) ^ B.length))
    | _, _ => none) = some v
  rw [parseNat_natChars, hBp]
  show some (((ratTruncZ v).toNat : ℚ) + (f : ℚ) / ((10 : ℚ) ^ B.length)) =
    some v
  have hNc : (((ratTruncZ v).toNat : ℕ) : ℚ) = ((ratTruncZ v : ℤ) : ℚ) := by
    exact_mod_cast congrArg (fun z : ℤ => (z : ℚ)) (Int.toNat_of_nonneg hip0)
  rw [hNc]
  rw [show ((ratTruncZ v : ℤ) : ℚ) + (f : ℚ) / ((10 : ℚ) ^ B.length) = v
    from hval]

/-- `numToken` consumes all of `digits.digits`. -/
theorem numToken_digits_dot (A B : List Char) (hAne : A ≠ [])
    (hA : ∀ c ∈ A, isDigitChar c = true) (hBne : B ≠ [])
    (hB : ∀ c ∈ B, isDigitChar c = true) :
    numToken (A ++ '.' :: B) = some (A ++ '.' :: B, []) := by
  unfold numToken
  rw [takeWhile_append_stop isDigitChar A '.' B hA (by decide),
    dropWhile_append_stop isDigitChar A '.' B hA (by decide)]
  rw [if_neg (by simpa [List.isEmpty_iff] using hAne)]
  show (if (B.takeWhile isDigitChar).isEmpty then some (A, '.' :: B)
    else some (A ++ '.' :: B.takeWhile isDigitChar, B.dropWhile isDigitChar)) =
    some (A ++ '.' :: B, [])
  rw [takeWhile_eq_of_all isDigitChar B hB, dropWhile_eq_nil_of_all isDigitChar B hB]
  rw [if_neg (by simpa [List.isEmpty_iff] using hBne)]

/-- INT rejects any token with a non-digit character inside. -/
theorem int_false_mid (A B : List Char) (x : Char)
    (hx : isDigitChar x = false) : isIntTok (A ++ x :: B) = false := by
  unfold isIntTok
  rw [List.all_append]
  rw [show List.all (x :: B) isDigitChar =
    (isDigitChar x && List.all B isDigitChar) from rfl]
  rw [hx]
  simp

/-- The candidate scan at the two rendered tokens of a cal quantity. -/
theorem qtyCandidates_cal (A B : List Char) (v : ℚ)
    (rest2 : List (List Char)) (hAne : A ≠ [])
    (hA : ∀ c ∈ A, isDigitChar c = true) (hBne : B ≠ [])
    (hB : ∀ c ∈ B, isDigitChar c = true)
    (hcal : ToAST.cal_qty (A ++ '.' :: B) = some (Qty.cal v)) :
    ∃ tail, qtyCandidates ((A ++ '.' :: B) :: ['c', 'a', 'l'] :: rest2) =
      (some (Qty.cal v), rest2) :: tail := by
  have hslash : ∀ c ∈ A ++ '.' :: B, c ≠ '/' := by
    intro c hc
    rcases List.mem_append.mp hc with h1 | h2
    · exact bchar_ne isDigitChar c '/' (hA c h1) (by decide)
    · rcases List.mem_cons.mp h2 with h3 | h4
      · subst h3; decide
      · exact bchar_ne isDigitChar c '/' (hB c h4) (by decide)
  have hnum : numToken (A ++ '.' :: B) = some (A ++ '.' :: B, []) :=
    numToken_digits_dot A B hAne hA hBne hB
  have e1 := repdual_false_of_noslash _ hslash
  have e2 := caldualnums_false_of_noslash _ hslash
  have e3 := distdual_false_nilrest _ _ hnum
  have e4 : isIntTok (A ++ '.' :: B) = false := int_false_mid A B '.' (by decide)
  have e5 : isNumberTok (A ++ '.' :: B) = true := by
    unfold isNumberTok
    rw [hnum]
  exact ⟨_, by simp only [qtyCandidates, e1, e2, e3, e4, e5, hcal]; simp; rfl⟩

/-- C7 (amended): `render_line` output reparses to the identical line node for
every round-trippable line: qty `None`, a nonnegative `reps`, a nonnegative
`cal` value with a terminating decimal expansion (within the 30-digit model
precision of `pyFloatRepr`), the `distance` value the broken regex actually
stores (0 meters), or a sub-hour `time`; movement a single IDENT word; no
load; flags among `SYNC`/`@shared`/`@each`.  Only dual qty kinds, loads, and
times of an hour or more are excluded; the original claim over all
parser-produced lines is refuted by `c7_counterexample`. -/
theorem c7_render_reparse (l : Line) (h : RoundTrippable l) :
    parse_rendered_line (renderLineChars l) = some l := by
  obtain ⟨q, mv, ld, flags⟩ := l
  obtain ⟨hq, hm, hld, hf⟩ := h
  cases mv with
  | none => exact hm.elim
  | some m =>
    have hld' : ld = none := hld
    subst hld'
    have hm' : isIdentTok m.data = true := hm
    obtain ⟨hmne, hmok, c0, mrest, hmc, hml⟩ := isIdentTok_parts m.data hm'
    have hmtok : m.data ≠ [] ∧ ∀ c ∈ m.data, isPyWs c = false :=
      ⟨hmne, fun c hc => identCharOk_not_ws c (hmok c hc)⟩
    have hfl : ∀ t ∈ flags.map String.data,
        t ≠ [] ∧ ∀ c ∈ t, isPyWs c = false := by
      intro t ht
      obtain ⟨f, hfmem, hfeq⟩ := List.mem_map.mp ht
      subst hfeq
      rcases hf f hfmem with h1 | h1 | h1 <;> subst h1 <;>
        exact ⟨by decide, by decide⟩
    have key : ∀ (qts : List (List Char)) (q' : Option Qty),
        (∀ t ∈ qts, t ≠ [] ∧ ∀ c ∈ t, isPyWs c = false) →
        parseLineToks (qts ++ m.data :: flags.map String.data) =
          some ⟨q', some m, none, flags⟩ →
        parse_rendered_line
            (pyStrip (joinSp (qts ++ m.data :: flags.map String.data))) =
          some ⟨q', some m, none, flags⟩ := by
      intro qts q' hqts hparse
      have htoks : ∀ t ∈ qts ++ m.data :: flags.map String.data,
          t ≠ [] ∧ ∀ c ∈ t, isPyWs c = false := by
        intro t ht
        rcases List.mem_append.mp ht with h1 | h2
        · exact hqts t h1
        · rcases List.mem_cons.mp h2 with h3 | h4
          · subst h3; exact hmtok
          · exact hfl t h4
      show parseLineToks (splitSpaces
        (pyStrip (joinSp (qts ++ m.data :: flags.map String.data)))) = _
      rw [pyStrip_joinSp_ne _ (by simp) htoks]
      rw [splitSpaces_joinSp _ (fun t ht => ⟨(htoks t ht).1,
        fun c hc => ne_space_of_not_ws c ((htoks t ht).2 c hc)⟩)]
      exact hparse
    cases q with
    | none =>
      have hrender : renderLineChars ⟨none, some m, none, flags⟩ =
          pyStrip (joinSp ([] ++ m.data :: flags.map String.data)) := by
        show pyStrip ((m.data ++ []) ++
            (if flags.isEmpty then []
             else ' ' :: joinSp (flags.map String.data))) =
          pyStrip (joinSp ([] ++ m.data :: flags.map String.data))
        rw [List.append_nil, List.nil_append, join_mv_flags m flags]
      rw [hrender]
      exact key [] none (by intro t ht; cases ht)
        (parseLineToks_nocand _ _ (qtyCandidates_ident m.data hm' _)
          (finishLine_tail none m flags hm' hf))
    | some qq =>
      cases qq with
      | reps n =>
        have hq' : (0 : ℤ) ≤ n := hq
        have hint : intChars n = natChars n.toNat := by
          unfold intChars
          rw [if_neg (by omega)]
          rw [show n.natAbs = n.toNat from by omega]
        have hdig := natChars_all_digits n.toNat
        have hnn := natChars_ne_nil n.toNat
        have hrender :
            renderLineChars ⟨some (.reps n), some m, none, flags⟩ =
            pyStrip (joinSp (natChars n.toNat ::
              m.data :: flags.map String.data)) := by
          show pyStrip ((((intChars n ++ [' ']) ++ m.data) ++ []) ++
              (if flags.isEmpty then []
               else ' ' :: joinSp (flags.map String.data))) = _
          rw [List.append_nil, hint]
          rw [joinSp_cons_ne (natChars n.toNat)
            (m.data :: flags.map String.data) (by simp)]
          rw [← join_mv_flags m flags]
          rw [List.append_assoc, List.append_assoc]
          rfl
        have hparse : parseLineToks (natChars n.toNat ::
            m.data :: flags.map String.data) =
            some ⟨some (.reps n), some m, none, flags⟩ := by
          obtain ⟨tail, htail⟩ := qtyCandidates_digits (natChars n.toNat)
            n.toNat m.data (flags.map String.data) hnn hdig
            (parseNat_natChars n.toNat)
          refine parseLineToks_found _ tail _ _ htail ?_
          show finishLine (some (Qty.reps ((n.toNat : ℕ) : ℤ)))
            (m.data :: flags.map String.data) = _
          rw [show ((n.toNat : ℕ) : ℤ) = n from Int.toNat_of_nonneg hq']
          exact finishLine_tail _ m flags hm' hf
        rw [hrender]
        refine key [natChars n.toNat] (some (.reps n)) ?_ hparse
        intro t ht
        rw [List.mem_singleton.mp ht]
        exact ⟨hnn, fun c hc => digit_not_ws c (hdig c hc)⟩
      | cal v =>
        obtain ⟨hv0, hvden⟩ : 0 ≤ v ∧ ∃ n : ℤ, (n : ℚ) = v * 10 ^ 30 := hq
        obtain ⟨B, f, hshape, hBne, hBd, hBp, hvalB⟩ :=
          pyFloatRepr_shape v hv0 hvden
        have hAne := natChars_ne_nil (ratTruncZ v).toNat
        have hAd := natChars_all_digits (ratTruncZ v).toNat
        have hcal : ToAST.cal_qty (natChars (ratTruncZ v).toNat ++ '.' :: B) =
            some (.cal v) := by
          have hpf := parseFloat_pyFloatRepr v hv0 hvden
          rw [hshape] at hpf
          unfold ToAST.cal_qty
          rw [hpf]
          rfl
        have hrender :
            renderLineChars ⟨some (.cal v), some m, none, flags⟩ =
            pyStrip (joinSp ((natChars (ratTruncZ v).toNat ++ '.' :: B) ::
              ['c', 'a', 'l'] :: m.data :: flags.map String.data)) := by
          show pyStrip ((((pyFloatRepr v ++ [' ', 'c', 'a', 'l', ' ']) ++ m.data)
              ++ []) ++
              (if flags.isEmpty then []
               else ' ' :: joinSp (flags.map String.data))) = _
          rw [List.append_nil, hshape]
          rw [joinSp_cons_ne (natChars (ratTruncZ v).toNat ++ '.' :: B)
            (['c', 'a', 'l'] :: m.data :: flags.map String.data) (by simp)]
          rw [joinSp_cons_ne (['c', 'a', 'l'])
            (m.data :: flags.map String.data) (by simp)]
          rw [← join_mv_flags m flags]
          rw [List.append_assoc, List.append_assoc]
          rfl
        have hparse : parseLineToks ((natChars (ratTruncZ v).toNat ++ '.' :: B)
            :: ['c', 'a', 'l'] :: m.data :: flags.map String.data) =
            some ⟨some (.cal v), some m, none, flags⟩ := by
          obtain ⟨tail, htail⟩ := qtyCandidates_cal
            (natChars (ratTruncZ v).toNat) B v
            (m.data :: flags.map String.data) hAne hAd hBne hBd hcal
          exact parseLineToks_found _ tail _ _ htail
            (finishLine_tail _ m flags hm' hf)
        rw [hrender]
        refine key [natChars (ratTruncZ v).toNat ++ '.' :: B, ['c', 'a', 'l']]
          (some (.cal v)) ?_ hparse
        intro t ht
        rcases List.mem_cons.mp ht with h1 | h2
        · subst h1
          refine ⟨by simp, ?_⟩
          intro c hc
          rcases List.mem_append.mp hc with ha | hb
          · exact digit_not_ws c (hAd c ha)
          · rcases List.mem_cons.mp hb with h3 | h4
            · subst h3; decide
            · exact digit_not_ws c (hBd c h4)
        · rw [List.mem_singleton.mp h2]
          exact ⟨by decide, by decide⟩
      | distance v u =>
        obtain ⟨hv0, hu⟩ : v = 0 ∧ u = "m" := hq
        subst hv0
        subst hu
        have hzm : intChars (ratTruncZ 0) ++ ['m', ' '] =
            ['0', 'm'] ++ [' '] := by decide
        have hrender :
            renderLineChars ⟨some (.distance 0 "m"), some m, none, flags⟩ =
            pyStrip (joinSp (['0', 'm'] ::
              m.data :: flags.map String.data)) := by
          show pyStrip ((((intChars (ratTruncZ 0) ++ ['m', ' ']) ++ m.data)
              ++ []) ++
              (if flags.isEmpty then []
               else ' ' :: joinSp (flags.map String.data))) = _
          rw [List.append_nil, hzm]
          rw [joinSp_cons_ne (['0', 'm'])
            (m.data :: flags.map String.data) (by simp)]
          rw [← join_mv_flags m flags]
          rw [List.append_assoc, List.append_assoc]
          rfl
        have hparse : parseLineToks (['0', 'm'] ::
            m.data :: flags.map String.data) =
            some ⟨some (.distance 0 "m"), some m, none, flags⟩ := by
          obtain ⟨tail, htail⟩ :=
            qtyCandidates_zm m.data (flags.map String.data)
          exact parseLineToks_found _ tail _ _ htail
            (finishLine_tail _ m flags hm' hf)
        rw [hrender]
        exact key [['0', 'm']] (some (.distance 0 "m"))
          (by intro t ht
              rw [List.mem_singleton.mp ht]
              exact ⟨by decide, by decide⟩) hparse
      | time v =>
        have hv : v < 3600 := hq
        obtain ⟨hpa, hla, hda⟩ := pad2_spec (v / 60) (by omega)
        obtain ⟨hpb, hlb, hdb⟩ := pad2_spec (v % 60) (by omega)
        have hAne : pad2 (v / 60) ≠ [] := by
          intro hh
          rw [hh] at hla
          cases hla
        have hrender :
            renderLineChars ⟨some (.time v), some m, none, flags⟩ =
            pyStrip (joinSp ((pad2 (v / 60) ++ ':' :: pad2 (v % 60)) ::
              m.data :: flags.map String.data)) := by
          show pyStrip ((((hhmmss v ++ [' ']) ++ m.data) ++ []) ++
              (if flags.isEmpty then []
               else ' ' :: joinSp (flags.map String.data))) = _
          rw [List.append_nil, hhmmss_lt v hv]
          rw [joinSp_cons_ne (pad2 (v / 60) ++ ':' :: pad2 (v % 60))
            (m.data :: flags.map String.data) (by simp)]
          rw [← join_mv_flags m flags]
          rw [List.append_assoc, List.append_assoc]
          rfl
        have hparse : parseLineToks ((pad2 (v / 60) ++ ':' :: pad2 (v % 60)) ::
            m.data :: flags.map String.data) =
            some ⟨some (.time v), some m, none, flags⟩ := by
          obtain ⟨tail, htail⟩ :=
            qtyCandidates_time v hv m.data (flags.map String.data)
          exact parseLineToks_found _ tail _ _ htail
            (finishLine_tail _ m flags hm' hf)
        rw [hrender]
        refine key [pad2 (v / 60) ++ ':' :: pad2 (v % 60)]
          (some (.time v)) ?_ hparse
        intro t ht
        rw [List.mem_singleton.mp ht]
        refine ⟨by simp [hAne], ?_⟩
        intro c hc
        rcases List.mem_append.mp hc with h1 | h2
        · exact digit_not_ws c (hda c h1)
        · rcases List.mem_cons.mp h2 with h3 | h4
          · subst h3; decide
          · exact digit_not_ws c (hdb c h4)
      | dual_reps a b => exact hq.elim
      | dual_cal a b => exact hq.elim
      | dual_distance a b u => exact hq.elim

/-- C7 counterexample: the parser-produced dual-cal line `15/12 cal row;`
renders (its qty kind has no `render_line` branch) as `row`, which reparses
to a line with no quantity — not structurally identical to the original. -/
theorem c7_counterexample :
    ToAST.dual_cal "15/12 cal".data = some (Qty.dual_cal 15 12) ∧
    parse_rendered_line (renderLineChars dualCalRowLine) =
      some ⟨none, some "row", none, []⟩ ∧
    (⟨none, some "row", none, []⟩ : Line) ≠ dualCalRowLine := by
  refine ⟨by decide, by decide, by decide⟩

/-- Witness: the concrete parser-producible cal line `12 cal row` round-trips
(it renders as `12.0 cal row`). -/
theorem c7_render_reparse_witness :
    parse_rendered_line
        (renderLineChars ⟨some (.cal 12), some "row", none, []⟩) =
      some ⟨some (.cal 12), some "row", none, []⟩ :=
  c7_render_reparse ⟨some (.cal 12), some "row", none, []⟩
    ⟨⟨by norm_num, (12 * 10 ^ 30 : ℤ), by push_cast; ring⟩,
     (by decide : isIdentTok "row".data = true), rfl,
     (by decide : ∀ f ∈ ([] : List String),
        f = "SYNC" ∨ f = "@shared" ∨ f = "@each")⟩
